import Mathlib

/-!
Verification of the Medicare internal-audit variability-model toolchain.

This file gives a shallow embedding, in Lean, of the logic-bearing parts of
the repository and proves (or refutes) the frozen specification claims about
them:

* `final_logic_analyzer.py` — KR-fact model analysis (structural always set,
  forward chaining over implications, dead / false-optional detection,
  artifact filtering, clean/injected pair classification);
* `inject_scientific_defects_v5.py` — defect injection into UVL text;
* `uvl_builder.py` — tabular rows → hierarchical UVL text (conflict check,
  scope rules);
* `batch_uvl_to_kr.py` — UVL text → relational KR facts (parser + emitter).

Definitions are translated from the Python source.  Definitions describing
behaviour that exists only in the specification (the CNF clause semantics of
§4.3, the root-inference rule of the spec) are clearly marked
`Modelled from the spec`.
-/

namespace Medicare

/-! ## KR model (final_logic_analyzer.py) -/

/-- Fixed root name (`ROOT_FEATURE = "InternalAuditSystem"`, line 27). -/
def ROOT_FEATURE : String := "InternalAuditSystem"

/-- A parsed KR-facts model (`KRModel` dataclass, lines 131-137): the
feature set, the `group(parent,kind,children)` facts and the raw
`imp(lhs,rhs)` facts. -/
structure KRModel where
  features : List String
  groups : List (String × String × List String)
  imps : List (String × String)
deriving DecidableEq, Repr

/-- Python whitespace (`str.strip`, regex `\s`), ASCII range. -/
def isPyWs (c : Char) : Bool :=
  c = ' ' || c = '\t' || c = '\n' || c = '\x0d' || c = '\x0b' || c = '\x0c'

/-- `str.strip()` on a character list. -/
def trimC (l : List Char) : List Char :=
  ((l.dropWhile isPyWs).reverse.dropWhile isPyWs).reverse

/-- `str.startswith` on character lists (structural, kernel-reducible). -/
def isPrefixC : List Char → List Char → Bool
  | [], _ => true
  | _ :: _, [] => false
  | a :: as, b :: bs => a = b && isPrefixC as bs

/-- `str.endswith` on character lists. -/
def isSuffixC (p l : List Char) : Bool :=
  isPrefixC p.reverse l.reverse

/-- `parse_literal` (lines 118-128): `x -> (True, x)`, `not(x) -> (False, x)`. -/
def parse_literal (expr : String) : Bool × String :=
  let s := trimC expr.data
  if isPrefixC "not(".data s && isSuffixC ")".data s then
    (false, String.mk (trimC ((s.drop 4).take (s.length - 5))))
  else
    (true, String.mk s)

/-- Add an element to a list acting as a Python `set` (membership-guarded
append, keeping insertion order). -/
def setAdd (l : List String) (x : String) : List String :=
  if x ∈ l then l else l ++ [x]

/-- One pass of the `while changed` loop of `compute_structural_always`
(lines 196-211): children of a mandatory group whose parent is already
always-selected become always, as does the single child of a singleton
alternative/or group under an always parent. -/
def always_step (groups : List (String × String × List String))
    (S : List String) : List String :=
  groups.foldl
    (fun acc g =>
      let parent := g.1
      let gtype := g.2.1
      let children := g.2.2
      if parent ∈ acc then
        if gtype = "mandatory" then
          children.foldl setAdd acc
        else if (gtype = "alternative" ∨ gtype = "or") ∧ children.length = 1 then
          children.foldl setAdd acc
        else acc
      else acc)
    S

/-- Fuelled fixpoint iteration standing for a Python `while changed` loop.
Each productive pass strictly grows the state, so with enough fuel the
result is the loop's least fixpoint. -/
def iterateFix {α : Type} [DecidableEq α] (step : α → α) : Nat → α → α
  | 0, S => S
  | n + 1, S =>
    let S' := step S
    if S' = S then S else iterateFix step n S'

/-- Fuel bound for `compute_structural_always`: the always set only ever
grows by group children, so `1 + Σ |children|` passes reach the fixpoint. -/
def always_fuel (groups : List (String × String × List String)) : Nat :=
  1 + (groups.map (fun g => g.2.2.length)).sum

/-- `compute_structural_always` (lines 184-211): least fixpoint containing
the root, closed under mandatory groups and singleton alternative/or groups
of always-selected parents. -/
def compute_structural_always (root : String)
    (groups : List (String × String × List String)) : List String :=
  iterateFix (always_step groups) (always_fuel groups) [root]

/-- One pass of the forward-chaining loop over implications
(lines 235-253): a positive antecedent already in `always` forces a positive
consequent into `always` and a negated consequent into `forbidden`. -/
def imp_step (imps : List (String × String))
    (st : List String × List String) : List String × List String :=
  imps.foldl
    (fun st im =>
      let al := st.1
      let fb := st.2
      let lhs := parse_literal im.1
      if lhs.1 = false then st
      else if lhs.2 ∈ al then
        let rhs := parse_literal im.2
        if rhs.1 then (setAdd al rhs.2, fb)
        else (al, setAdd fb rhs.2)
      else st)
    st

/-- Fuel bound for the implication chaining loop: each productive pass adds
at least one right-hand feature, of which there are at most `2·|imps|`. -/
def imp_fuel (imps : List (String × String)) : Nat :=
  1 + 2 * imps.length

/-- Lexicographic comparison by code points, as Python string `<=`. -/
def leC : List Char → List Char → Bool
  | [], _ => true
  | _ :: _, [] => false
  | a :: as, b :: bs =>
    if a = b then leC as bs else decide (a.toNat < b.toNat)

/-- Insertion into a sorted list (structural, kernel-reducible). -/
def insertSorted (x : String) : List String → List String
  | [] => [x]
  | y :: ys => if leC x.data y.data then x :: y :: ys else y :: insertSorted x ys

/-- Insertion sort for strings. -/
def sortStrings (l : List String) : List String :=
  l.foldr insertSorted []

/-- Sorted deduplication, standing for Python's `sorted(set)`. -/
def sortedSet (l : List String) : List String :=
  sortStrings l.dedup

/-- Result record of `analyze_kr_for_defects` (`KRAnalysis`, lines 170-181;
`path`/`model_key`/`filename` bookkeeping omitted). -/
structure KRAnalysis where
  nf : Nat
  constraints : Nat
  audit_type_options_count : Nat
  dead_features : List String
  false_optional : List String
  defects_raw : List String
  defects_filtered : List String
  is_visit_type_artifact : Bool
deriving DecidableEq, Repr

/-- `analyze_kr_for_defects` (lines 214-281) with an explicit root
parameter (the caller always passes `ROOT_FEATURE`). -/
def analyze_kr_root (kr : KRModel) (root : String) : KRAnalysis :=
  let audit_type_options_count :=
    match kr.groups.find? (fun g => g.1 = "AuditType" ∧ g.2.1 = "alternative") with
    | some g => g.2.2.length
    | none => 0
  let root_optional :=
    kr.groups.foldl
      (fun acc g =>
        if g.1 = root ∧ g.2.1 = "optional" then g.2.2.foldl setAdd acc else acc)
      []
  let always0 :=
    if root ∈ kr.features then compute_structural_always root kr.groups else []
  let st := iterateFix (imp_step kr.imps) (imp_fuel kr.imps) (always0, [])
  let always := st.1
  let forbidden := st.2
  let dead_features := forbidden
  let false_optional :=
    if root ∈ kr.features then root_optional.filter (fun f => f ∈ always) else []
  let defects_raw :=
    (sortedSet dead_features).map (fun d => "DF:" ++ d)
      ++ (sortedSet false_optional).map (fun fo => "FO:" ++ fo)
  let is_visit_type_artifact : Bool :=
    (audit_type_options_count == 1) && (false_optional.contains "AuditPlan")
  let defects_filtered :=
    if is_visit_type_artifact then
      defects_raw.filter (fun x => x ≠ "FO:AuditPlan")
    else defects_raw
  { nf := kr.features.dedup.length
    constraints := kr.imps.length
    audit_type_options_count := audit_type_options_count
    dead_features := dead_features
    false_optional := false_optional
    defects_raw := defects_raw
    defects_filtered := defects_filtered
    is_visit_type_artifact := is_visit_type_artifact }

/-- `analyze_kr_for_defects` as invoked by `build_final_report`
(lines 445, 450): the root is always the fixed `ROOT_FEATURE`. -/
def analyze_kr_for_defects (kr : KRModel) : KRAnalysis :=
  analyze_kr_root kr ROOT_FEATURE

/-! ## CNF semantics of the model

Modelled from the spec (§4.3 "CNF Encoder + SAT Analyzer"): the clause set
of a feature model — root unit clause, child-implies-parent edges, group
clauses (mandatory, alternative with pairwise exclusivity, or) and compiled
implication constraints.  The analyzer source never builds clauses; these
definitions exist so the analyzer's output can be compared with the
satisfiability-based behaviour the claims describe. -/

/-- A literal: polarity and feature name. -/
abbrev Lit := Bool × String

/-- A clause is a disjunction of literals. -/
abbrev Clause := List Lit

/-- Modelled from the spec: pairwise exclusivity `(¬ci ∨ ¬cj)` for `i < j`. -/
def pairwise_excl : List String → List Clause
  | [] => []
  | c :: rest =>
    rest.map (fun d => [(false, c), (false, d)]) ++ pairwise_excl rest

/-- Modelled from the spec: clauses contributed by one
`group(parent, kind, children)` fact — child-implies-parent edges for every
kind, `(¬parent ∨ child)` for mandatory, the child disjunction plus pairwise
exclusivity for alternative, the child disjunction alone for or. -/
def group_clauses (g : String × String × List String) : List Clause :=
  g.2.2.map (fun c => [(false, c), (true, g.1)])
    ++ (if g.2.1 = "mandatory" then
          g.2.2.map (fun c => [(false, g.1), (true, c)])
        else [])
    ++ (if g.2.1 = "alternative" then
          ((false, g.1) :: g.2.2.map (fun c => ((true : Bool), c)))
            :: pairwise_excl g.2.2
        else [])
    ++ (if g.2.1 = "or" then
          [(false, g.1) :: g.2.2.map (fun c => ((true : Bool), c))]
        else [])

/-- Modelled from the spec: an `imp(lhs, rhs)` fact compiled as
`(¬A ∨ B)`, respecting operand polarity. -/
def imp_clause (im : String × String) : Clause :=
  [((!(parse_literal im.1).1), (parse_literal im.1).2), parse_literal im.2]

/-- Modelled from the spec: the full clause set of a KR model — root unit
clause, group clauses, compiled implications.  Equivalence facts are not
compiled (documented limitation, §9). -/
def spec_clauses (root : String) (kr : KRModel) : List Clause :=
  [[(true, root)]] ++ kr.groups.flatMap group_clauses ++ kr.imps.map imp_clause

/-- An assignment satisfies a clause when some literal holds. -/
def clause_sat (v : String → Bool) (c : Clause) : Prop :=
  ∃ l ∈ c, v l.2 = l.1

/-- An assignment satisfies a clause set when it satisfies every clause. -/
def cnf_sat (v : String → Bool) (cs : List Clause) : Prop :=
  ∀ c ∈ cs, clause_sat v c

theorem clause_sat_nil (v : String → Bool) : ¬ clause_sat v [] := by
  rintro ⟨l, hl, -⟩
  exact absurd hl (List.not_mem_nil l)

theorem clause_sat_cons {v : String → Bool} {l : Lit} {c : Clause} :
    clause_sat v (l :: c) ↔ v l.2 = l.1 ∨ clause_sat v c := by
  constructor
  · rintro ⟨x, hx, hvx⟩
    rcases List.mem_cons.mp hx with h | h
    · exact Or.inl (h ▸ hvx)
    · exact Or.inr ⟨x, h, hvx⟩
  · rintro (h | ⟨x, hx, hvx⟩)
    · exact ⟨l, List.mem_cons_self l c, h⟩
    · exact ⟨x, List.mem_cons_of_mem l hx, hvx⟩

/-! ### Soundness of the forward-chaining analysis

Every feature the analyzer puts into `always` is true in every satisfying
assignment of the model's clause set, and every feature it puts into
`forbidden` (the reported dead features) is false in every satisfying
assignment. -/

/-- Folding preserves a predicate if every step with a list element does. -/
theorem foldl_preserve {α β : Type} {P : β → Prop} {f : β → α → β} :
    ∀ {l : List α}, (∀ b a, a ∈ l → P b → P (f b a)) →
      ∀ {b : β}, P b → P (l.foldl f b)
  | [], _, _, hb => hb
  | x :: xs, h, b, hb =>
    foldl_preserve (fun b a ha hb => h b a (List.mem_cons_of_mem x ha) hb)
      (h b x (List.mem_cons_self x xs) hb)

/-- Fuelled fixpoint iteration preserves any invariant of the step. -/
theorem iterateFix_preserve {α : Type} [DecidableEq α] {P : α → Prop}
    {step : α → α} (hstep : ∀ S, P S → P (step S)) :
    ∀ (n : Nat) {S : α}, P S → P (iterateFix step n S)
  | 0, _, hS => hS
  | n + 1, S, hS => by
    unfold iterateFix
    by_cases h : step S = S
    · simpa [h] using hS
    · simpa [h] using iterateFix_preserve hstep n (hstep S hS)

theorem mem_setAdd {l : List String} {x y : String} :
    y ∈ setAdd l x ↔ y ∈ l ∨ y = x := by
  unfold setAdd
  by_cases h : x ∈ l
  · simp only [if_pos h]
    constructor
    · exact Or.inl
    · rintro (hy | rfl)
      · exact hy
      · exact h
  · simp [if_neg h]

/-- All elements of a set-list are true under `v`. -/
def TrueOn (v : String → Bool) (S : List String) : Prop :=
  ∀ x ∈ S, v x = true

/-- All elements of a set-list are false under `v`. -/
def FalseOn (v : String → Bool) (S : List String) : Prop :=
  ∀ x ∈ S, v x = false

theorem trueOn_setAdd {v : String → Bool} {S : List String} {x : String}
    (hS : TrueOn v S) (hx : v x = true) : TrueOn v (setAdd S x) := by
  intro y hy
  rcases mem_setAdd.mp hy with h | rfl
  · exact hS y h
  · exact hx

theorem falseOn_setAdd {v : String → Bool} {S : List String} {x : String}
    (hS : FalseOn v S) (hx : v x = false) : FalseOn v (setAdd S x) := by
  intro y hy
  rcases mem_setAdd.mp hy with h | rfl
  · exact hS y h
  · exact hx

theorem mem_spec_clauses_of_group {root : String} {kr : KRModel}
    {g : String × String × List String} {c : Clause}
    (hg : g ∈ kr.groups) (hc : c ∈ group_clauses g) :
    c ∈ spec_clauses root kr := by
  unfold spec_clauses
  refine List.mem_append.mpr (Or.inl (List.mem_append.mpr (Or.inr ?_)))
  exact List.mem_flatMap.mpr ⟨g, hg, hc⟩

theorem mandatory_clause_mem {g : String × String × List String}
    (hk : g.2.1 = "mandatory") {ch : String} (hch : ch ∈ g.2.2) :
    [(false, g.1), ((true : Bool), ch)] ∈ group_clauses g := by
  unfold group_clauses
  refine List.mem_append.mpr (Or.inl (List.mem_append.mpr (Or.inl
    (List.mem_append.mpr (Or.inr ?_)))))
  rw [if_pos hk]
  exact List.mem_map.mpr ⟨ch, hch, rfl⟩

theorem singleton_group_clause_mem {g : String × String × List String}
    (hk : g.2.1 = "alternative" ∨ g.2.1 = "or") {ch : String}
    (hch : g.2.2 = [ch]) :
    [(false, g.1), ((true : Bool), ch)] ∈ group_clauses g := by
  unfold group_clauses
  rcases hk with hk | hk
  · refine List.mem_append.mpr (Or.inl (List.mem_append.mpr (Or.inr ?_)))
    rw [if_pos hk, hch]
    exact List.mem_cons_self _ _
  · refine List.mem_append.mpr (Or.inr ?_)
    rw [if_pos hk, hch]
    exact List.mem_singleton.mpr rfl

/-- One pass of the structural-always loop is sound for the clause
semantics. -/
theorem always_step_sound {v : String → Bool} {root : String} {kr : KRModel}
    (hv : cnf_sat v (spec_clauses root kr)) {S : List String}
    (hS : TrueOn v S) : TrueOn v (always_step kr.groups S) := by
  unfold always_step
  refine foldl_preserve (fun acc g hg hacc => ?_) hS
  by_cases hp : g.1 ∈ acc
  · rw [if_pos hp]
    by_cases hm : g.2.1 = "mandatory"
    · rw [if_pos hm]
      refine foldl_preserve (fun b ch hch hb => ?_) hacc
      have hcl := hv _ (mem_spec_clauses_of_group hg (mandatory_clause_mem hm hch))
      rw [clause_sat_cons, clause_sat_cons] at hcl
      rcases hcl with h | h | h
      · exact absurd h (by simp [hacc g.1 hp])
      · exact trueOn_setAdd hb h
      · exact absurd h (clause_sat_nil v)
    · rw [if_neg hm]
      by_cases hs : (g.2.1 = "alternative" ∨ g.2.1 = "or") ∧ g.2.2.length = 1
      · rw [if_pos hs]
        obtain ⟨ch, hch⟩ := List.length_eq_one.mp hs.2
        have hcl := hv _
          (mem_spec_clauses_of_group hg (singleton_group_clause_mem hs.1 hch))
        rw [clause_sat_cons, clause_sat_cons] at hcl
        rw [hch]
        rcases hcl with h | h | h
        · exact absurd h (by simp [hacc g.1 hp])
        · intro y hy
          rcases mem_setAdd.mp (by simpa using hy) with h' | rfl
          · exact hacc y h'
          · exact h
        · exact absurd h (clause_sat_nil v)
      · rw [if_neg hs]
        exact hacc
  · rw [if_neg hp]
    exact hacc

theorem root_clause_mem (root : String) (kr : KRModel) :
    [((true : Bool), root)] ∈ spec_clauses root kr := by
  unfold spec_clauses
  refine List.mem_append.mpr (Or.inl (List.mem_append.mpr (Or.inl ?_)))
  exact List.mem_singleton.mpr rfl

/-- The whole structural-always computation is sound. -/
theorem compute_structural_always_sound {v : String → Bool} {root : String}
    {kr : KRModel} (hv : cnf_sat v (spec_clauses root kr)) :
    TrueOn v (compute_structural_always root kr.groups) := by
  unfold compute_structural_always
  refine iterateFix_preserve (fun S hS => always_step_sound hv hS) _ ?_
  intro x hx
  rcases List.mem_singleton.mp hx with rfl
  have hcl := hv _ (root_clause_mem x kr)
  rw [clause_sat_cons] at hcl
  rcases hcl with h | h
  · exact h
  · exact absurd h (clause_sat_nil v)

theorem mem_spec_clauses_of_imp {root : String} {kr : KRModel}
    {im : String × String} (him : im ∈ kr.imps) :
    imp_clause im ∈ spec_clauses root kr := by
  unfold spec_clauses
  exact List.mem_append.mpr (Or.inr (List.mem_map.mpr ⟨im, him, rfl⟩))

/-- Joint invariant for the forward-chaining state: accumulated `always`
features are forced true, accumulated `forbidden` features forced false. -/
def SoundSt (v : String → Bool) (st : List String × List String) : Prop :=
  TrueOn v st.1 ∧ FalseOn v st.2

/-- One pass of the implication forward chaining is sound. -/
theorem imp_step_sound {v : String → Bool} {root : String} {kr : KRModel}
    (hv : cnf_sat v (spec_clauses root kr))
    {st : List String × List String} (hst : SoundSt v st) :
    SoundSt v (imp_step kr.imps st) := by
  unfold imp_step
  refine foldl_preserve (P := SoundSt v) (fun b im him hb => ?_) hst
  dsimp only
  by_cases hneg : (parse_literal im.1).1 = false
  · simp only [if_pos hneg]
    exact hb
  · simp only [if_neg hneg]
    by_cases hmem : (parse_literal im.1).2 ∈ b.1
    · simp only [if_pos hmem]
      have hcl := hv _ (mem_spec_clauses_of_imp him)
      unfold imp_clause at hcl
      rw [clause_sat_cons] at hcl
      have hlt : v (parse_literal im.1).2 = true := hb.1 _ hmem
      have hlp : (parse_literal im.1).1 = true := by
        cases h : (parse_literal im.1).1
        · exact absurd h hneg
        · rfl
      rcases hcl with h | h
      · rw [hlp] at h
        simp only [Bool.not_true] at h
        exact absurd (hlt.symm.trans h) (by decide)
      · rw [clause_sat_cons] at h
        rcases h with h | h
        · by_cases hrp : (parse_literal im.2).1 = true
          · simp only [if_pos hrp]
            refine ⟨trueOn_setAdd hb.1 ?_, hb.2⟩
            rw [h, hrp]
          · simp only [if_neg hrp]
            refine ⟨hb.1, falseOn_setAdd hb.2 ?_⟩
            rw [h]
            cases hc : (parse_literal im.2).1
            · rfl
            · exact absurd hc hrp
        · exact absurd h (clause_sat_nil v)
    · simp only [if_neg hmem]
      exact hb

/-- Soundness of the analyzer state after forward chaining: `always`
features are forced true, `forbidden` features are forced false, in every
satisfying assignment of the model's clause set. -/
theorem analyze_state_sound {v : String → Bool} {root : String}
    {kr : KRModel} (hv : cnf_sat v (spec_clauses root kr)) :
    SoundSt v (iterateFix (imp_step kr.imps) (imp_fuel kr.imps)
        ((if root ∈ kr.features then
            compute_structural_always root kr.groups else []), [])) := by
  refine iterateFix_preserve (P := SoundSt v)
    (fun st hst => imp_step_sound hv hst) _ ?_
  constructor
  · by_cases h : root ∈ kr.features
    · simpa [h] using compute_structural_always_sound hv
    · simp only [if_neg h]
      intro x hx
      exact absurd hx (List.not_mem_nil x)
  · intro x hx
    exact absurd hx (List.not_mem_nil x)

/-- Every dead feature the analyzer reports is false in every satisfying
assignment of the model's clause set. -/
theorem dead_features_sound {kr : KRModel} {f : String}
    (hf : f ∈ (analyze_kr_for_defects kr).dead_features) :
    ∀ v : String → Bool,
      cnf_sat v (spec_clauses ROOT_FEATURE kr) → v f = false := by
  intro v hv
  have hd : (analyze_kr_for_defects kr).dead_features =
      (iterateFix (imp_step kr.imps) (imp_fuel kr.imps)
        ((if ROOT_FEATURE ∈ kr.features then
            compute_structural_always ROOT_FEATURE kr.groups else []), [])).2 :=
    rfl
  rw [hd] at hf
  exact (analyze_state_sound hv).2 f hf

/-- Auxiliary: membership in the accumulated root-optional set comes from a
root-parented optional group. -/
theorem root_optional_mem {kr : KRModel} {root f : String}
    (hf : f ∈ kr.groups.foldl
      (fun acc g =>
        if g.1 = root ∧ g.2.1 = "optional" then g.2.2.foldl setAdd acc
        else acc) []) :
    ∃ g ∈ kr.groups, g.1 = root ∧ g.2.1 = "optional" ∧ f ∈ g.2.2 := by
  have key : ∀ x ∈ kr.groups.foldl
      (fun acc g =>
        if g.1 = root ∧ g.2.1 = "optional" then g.2.2.foldl setAdd acc
        else acc) [],
      ∃ g ∈ kr.groups, g.1 = root ∧ g.2.1 = "optional" ∧ x ∈ g.2.2 := by
    refine foldl_preserve
      (P := fun acc : List String =>
        ∀ x ∈ acc, ∃ g ∈ kr.groups, g.1 = root ∧ g.2.1 = "optional" ∧ x ∈ g.2.2)
      (fun acc g hg hacc => ?_) ?_
    · dsimp only
      by_cases hcond : g.1 = root ∧ g.2.1 = "optional"
      · rw [if_pos hcond]
        refine foldl_preserve
          (P := fun acc : List String =>
            ∀ x ∈ acc, ∃ g ∈ kr.groups, g.1 = root ∧ g.2.1 = "optional" ∧ x ∈ g.2.2)
          (fun b ch hch hb => ?_) hacc
        intro x hx
        rcases mem_setAdd.mp hx with h | rfl
        · exact hb x h
        · exact ⟨g, hg, hcond.1, hcond.2, hch⟩
      · rw [if_neg hcond]
        exact hacc
    · intro x hx
      exact absurd hx (List.not_mem_nil x)
  exact key f hf

/-- Every false-optional feature the analyzer reports is the child of a
root-parented optional group and is true in every satisfying assignment of
the model's clause set. -/
theorem false_optional_sound {kr : KRModel} {f : String}
    (hf : f ∈ (analyze_kr_for_defects kr).false_optional) :
    (∃ g ∈ kr.groups,
        g.1 = ROOT_FEATURE ∧ g.2.1 = "optional" ∧ f ∈ g.2.2) ∧
    ∀ v : String → Bool,
      cnf_sat v (spec_clauses ROOT_FEATURE kr) → v f = true := by
  have hfo : (analyze_kr_for_defects kr).false_optional =
      (if ROOT_FEATURE ∈ kr.features then
        (kr.groups.foldl
          (fun acc g =>
            if g.1 = ROOT_FEATURE ∧ g.2.1 = "optional" then
              g.2.2.foldl setAdd acc
            else acc) []).filter
          (fun x => x ∈ (iterateFix (imp_step kr.imps) (imp_fuel kr.imps)
            ((if ROOT_FEATURE ∈ kr.features then
                compute_structural_always ROOT_FEATURE kr.groups else []),
              [])).1)
      else []) := rfl
  rw [hfo] at hf
  by_cases hroot : ROOT_FEATURE ∈ kr.features
  · rw [if_pos hroot] at hf
    have hmem := List.mem_filter.mp hf
    refine ⟨root_optional_mem hmem.1, fun v hv => ?_⟩
    exact (analyze_state_sound hv).1 f (by simpa using hmem.2)
  · rw [if_neg hroot] at hf
    exact absurd hf (List.not_mem_nil f)

instance (v : String → Bool) (c : Clause) : Decidable (clause_sat v c) := by
  unfold clause_sat
  infer_instance

instance (v : String → Bool) (cs : List Clause) : Decidable (cnf_sat v cs) := by
  unfold cnf_sat
  infer_instance

/-! ## Concrete models used by the claims -/

/-- Root with a mandatory child `a` and an alternative group `{a, b}`:
`b` is excluded purely through alternative exclusivity. -/
def C1m : KRModel :=
  { features := ["InternalAuditSystem", "a", "b"]
    groups := [("InternalAuditSystem", "mandatory", ["a"]),
               ("InternalAuditSystem", "alternative", ["a", "b"])]
    imps := [] }

/-- `root mandatory{a}` plus `root => !a`: a void model. -/
def C2m : KRModel :=
  { features := ["InternalAuditSystem", "a"]
    groups := [("InternalAuditSystem", "mandatory", ["a"])]
    imps := [("InternalAuditSystem", "not(a)")] }

/-- `root mandatory{m}`, `m optional{b}`, `root => b`: `b` sits under a
non-root optional group and its deselection is unsatisfiable. -/
def C3m : KRModel :=
  { features := ["InternalAuditSystem", "m", "b"]
    groups := [("InternalAuditSystem", "mandatory", ["m"]),
               ("m", "optional", ["b"])]
    imps := [("InternalAuditSystem", "b")] }

/-- `root optional{b}` plus `root => b`: the false-optional textbook case. -/
def C3w : KRModel :=
  { features := ["InternalAuditSystem", "b"]
    groups := [("InternalAuditSystem", "optional", ["b"])]
    imps := [("InternalAuditSystem", "b")] }

/-- A model that does not contain the canonical fixed root but has a
unique structural root `A` (a parent that is never a child). -/
def C7m : KRModel :=
  { features := ["A", "B"]
    groups := [("A", "mandatory", ["B"])]
    imps := [("A", "not(B)")] }

/-- Modelled from the spec: the root-inference rule of §4.3 ("infer a root
as a feature that is a parent somewhere but never a child").  The analyzer
source has no such computation. -/
def spec_parent_never_child (kr : KRModel) (f : String) : Prop :=
  (∃ g ∈ kr.groups, g.1 = f) ∧ ∀ g ∈ kr.groups, f ∉ g.2.2

/-! ## Claim C1 -/

/-- C1 is false: in `C1m` the clause set is unsatisfiable under the
assumption `b = true` (the root forces `a`, and alternative exclusivity
forbids `b`), yet the analyzer does not report `b` as dead — the reported
dead set does not coincide with assumption-based unsatisfiability, and
features excluded only through alternative-group exclusivity are missed. -/
theorem C1_counterexample :
    ¬ (("b" ∈ (analyze_kr_for_defects C1m).dead_features) ↔
      (∀ v : String → Bool,
        cnf_sat v (spec_clauses ROOT_FEATURE C1m) → v "b" = false)) := by
  intro hiff
  have hunsat : ∀ v : String → Bool,
      cnf_sat v (spec_clauses ROOT_FEATURE C1m) → v "b" = false := by
    intro v hv
    have h1 : clause_sat v [((true : Bool), "InternalAuditSystem")] :=
      hv _ (by decide)
    have h2 : clause_sat v [(false, "InternalAuditSystem"), ((true : Bool), "a")] :=
      hv _ (by decide)
    have h3 : clause_sat v [(false, "a"), (false, "b")] := hv _ (by decide)
    cases hr : v "InternalAuditSystem" <;> cases ha : v "a" <;>
      cases hb : v "b" <;> simp_all [clause_sat_cons, clause_sat]
  exact absurd (hiff.mpr hunsat) (by decide)

/-- C1 (amended): every feature the analyzer reports as dead is genuinely
dead — the model's clause set (root unit clause, child-implies-parent
edges, group clauses, compiled implications) is unsatisfiable under the
assumption `f = true`.  The converse inclusion fails
(`C1_counterexample`). -/
theorem C1_dead_report_sound (kr : KRModel) (f : String)
    (hf : f ∈ (analyze_kr_for_defects kr).dead_features) :
    ∀ v : String → Bool,
      cnf_sat v (spec_clauses ROOT_FEATURE kr) → v f = false :=
  fun v hv => dead_features_sound hf v hv

/-- Witness for `C1_dead_report_sound`: in `C2m` the analyzer reports `a`
dead, and indeed no satisfying assignment selects `a`. -/
theorem C1_dead_report_sound_witness :
    ("a" ∈ (analyze_kr_for_defects C2m).dead_features) ∧
    (∀ v : String → Bool,
      cnf_sat v (spec_clauses ROOT_FEATURE C2m) → v "a" = false) :=
  ⟨by decide, C1_dead_report_sound C2m "a" (by decide)⟩

/-! ## Claim C2 -/

/-- C2 is false: for `root mandatory{a}` plus `root => !a` the analyzer
does report `a` as a dead feature (`DF:a`); it produces no void verdict at
all (its result record has no satisfiability field — the `SAT` column of
the report is filled only from optional pre-existing result files). -/
theorem C2_counterexample :
    "a" ∈ (analyze_kr_for_defects C2m).dead_features ∧
    (analyze_kr_for_defects C2m).defects_raw = ["DF:a"] := by
  constructor
  · decide
  · decide

/-- C2 (amended): on the void model `C2m` the analyzer reports exactly the
dead feature `a` instead of a void verdict; the model is indeed void — its
clause set is unsatisfiable outright. -/
theorem C2_reports_dead_not_void :
    (analyze_kr_for_defects C2m).defects_raw = ["DF:a"] ∧
    ∀ v : String → Bool, ¬ cnf_sat v (spec_clauses ROOT_FEATURE C2m) := by
  refine ⟨by decide, ?_⟩
  intro v hv
  have h1 : clause_sat v [((true : Bool), "InternalAuditSystem")] :=
    hv _ (by decide)
  have h2 : clause_sat v [(false, "InternalAuditSystem"), ((true : Bool), "a")] :=
    hv _ (by decide)
  have h3 : clause_sat v [(false, "InternalAuditSystem"), (false, "a")] :=
    hv _ (by decide)
  cases hr : v "InternalAuditSystem" <;> cases ha : v "a" <;>
    simp_all [clause_sat_cons, clause_sat]

/-! ## Claim C3 -/

/-- C3 is false: in `C3m` the feature `b` is the child of an optional
group (whose parent is `m`, not the root) and its deselection is
unsatisfiable, yet the analyzer does not report it false-optional — only
children of optional groups whose parent is the root are considered. -/
theorem C3_counterexample :
    (∃ g ∈ C3m.groups, g.2.1 = "optional" ∧ "b" ∈ g.2.2) ∧
    (∀ v : String → Bool,
      cnf_sat v (spec_clauses ROOT_FEATURE C3m) → v "b" = true) ∧
    "b" ∉ (analyze_kr_for_defects C3m).false_optional := by
  refine ⟨by decide, ?_, by decide⟩
  intro v hv
  have h1 : clause_sat v [((true : Bool), "InternalAuditSystem")] :=
    hv _ (by decide)
  have h2 : clause_sat v [(false, "InternalAuditSystem"), ((true : Bool), "b")] :=
    hv _ (by decide)
  cases hr : v "InternalAuditSystem" <;> cases hb : v "b" <;>
    simp_all [clause_sat_cons, clause_sat]

/-- C3 (amended): every feature the analyzer reports as false-optional is
the child of an optional group whose parent is the root, and its
deselection is genuinely unsatisfiable; children of non-root optional
groups are never reported (`C3_counterexample`). -/
theorem C3_false_optional_root_only (kr : KRModel) (f : String)
    (hf : f ∈ (analyze_kr_for_defects kr).false_optional) :
    (∃ g ∈ kr.groups,
        g.1 = ROOT_FEATURE ∧ g.2.1 = "optional" ∧ f ∈ g.2.2) ∧
    ∀ v : String → Bool,
      cnf_sat v (spec_clauses ROOT_FEATURE kr) → v f = true :=
  false_optional_sound hf

/-- Witness for `C3_false_optional_root_only`: in `root optional{b}` plus
`root => b` the analyzer reports `b` false-optional, `b` is indeed forced,
and the model overall remains satisfiable. -/
theorem C3_false_optional_root_only_witness :
    ("b" ∈ (analyze_kr_for_defects C3w).false_optional) ∧
    ((∃ g ∈ C3w.groups,
        g.1 = ROOT_FEATURE ∧ g.2.1 = "optional" ∧ "b" ∈ g.2.2) ∧
      ∀ v : String → Bool,
        cnf_sat v (spec_clauses ROOT_FEATURE C3w) → v "b" = true) ∧
    cnf_sat (fun s => s == "InternalAuditSystem" || s == "b")
      (spec_clauses ROOT_FEATURE C3w) :=
  ⟨by decide, C3_false_optional_root_only C3w "b" (by decide), by decide⟩

/-! ## Claim C7 -/

/-- C7 is false: `C7m` does not contain the canonical fixed root, and `A`
is its unique parent-never-child feature, so per the claim the analysis
should use `A` (reporting `B` dead) or at least attach a diagnostic.
Instead the analyzer silently keeps the absent canonical root and derives
nothing (its result record has no diagnostic field at all). -/
theorem C7_counterexample :
    ROOT_FEATURE ∉ C7m.features ∧
    spec_parent_never_child C7m "A" ∧
    (analyze_kr_root C7m "A").dead_features = ["B"] ∧
    (analyze_kr_for_defects C7m).dead_features = [] ∧
    (analyze_kr_for_defects C7m).defects_raw = [] := by
  refine ⟨by decide, ⟨?_, ?_⟩, by decide, by decide, by decide⟩
  · exact ⟨("A", "mandatory", ["B"]), by decide, rfl⟩
  · decide

/-- A state with empty `always` is a fixpoint of the implication pass. -/
theorem imp_step_nil_always (imps : List (String × String)) :
    imp_step imps ([], []) = ([], []) := by
  unfold imp_step
  induction imps with
  | nil => rfl
  | cons im imps ih =>
    rw [List.foldl_cons]
    by_cases h : (parse_literal im.1).1 = false
    · simpa [h] using ih
    · simpa [h] using ih

/-- A fuelled iteration starting at a fixpoint stays there. -/
theorem iterateFix_fixed {α : Type} [DecidableEq α] {step : α → α} {S : α}
    (h : step S = S) : ∀ n, iterateFix step n S = S
  | 0 => rfl
  | n + 1 => by simp [iterateFix, h]

/-- C7 (amended): the analysis always uses the fixed canonical root; when
that root is absent from the parsed features there is no inference, no
fallback and no diagnostic — the always set is empty, forward chaining has
no seed, and the analyzer reports no dead and no false-optional feature. -/
theorem C7_missing_root_silent_empty (kr : KRModel)
    (h : ROOT_FEATURE ∉ kr.features) :
    (analyze_kr_for_defects kr).dead_features = [] ∧
    (analyze_kr_for_defects kr).false_optional = [] ∧
    (analyze_kr_for_defects kr).defects_raw = [] := by
  have hfix :
      iterateFix (imp_step kr.imps) (imp_fuel kr.imps)
        (([] : List String), ([] : List String)) = ([], []) :=
    iterateFix_fixed (imp_step_nil_always kr.imps) _
  have hd : (analyze_kr_for_defects kr).dead_features =
      (iterateFix (imp_step kr.imps) (imp_fuel kr.imps)
        ((if ROOT_FEATURE ∈ kr.features then
            compute_structural_always ROOT_FEATURE kr.groups else []), [])).2 :=
    rfl
  have hfo : (analyze_kr_for_defects kr).false_optional =
      (if ROOT_FEATURE ∈ kr.features then
        (kr.groups.foldl
          (fun acc g =>
            if g.1 = ROOT_FEATURE ∧ g.2.1 = "optional" then
              g.2.2.foldl setAdd acc
            else acc) []).filter
          (fun x => x ∈ (iterateFix (imp_step kr.imps) (imp_fuel kr.imps)
            ((if ROOT_FEATURE ∈ kr.features then
                compute_structural_always ROOT_FEATURE kr.groups else []),
              [])).1)
      else []) := rfl
  have hraw : (analyze_kr_for_defects kr).defects_raw =
      (sortedSet (analyze_kr_for_defects kr).dead_features).map
        (fun d => "DF:" ++ d)
        ++ (sortedSet (analyze_kr_for_defects kr).false_optional).map
          (fun fo => "FO:" ++ fo) := rfl
  rw [if_neg h, hfix] at hd
  rw [if_neg h] at hfo
  refine ⟨hd, hfo, ?_⟩
  rw [hraw, hd, hfo]
  rfl

/-- Witness for `C7_missing_root_silent_empty` at the concrete model
`C7m`. -/
theorem C7_missing_root_silent_empty_witness :
    (ROOT_FEATURE ∉ C7m.features) ∧
    ((analyze_kr_for_defects C7m).dead_features = [] ∧
      (analyze_kr_for_defects C7m).false_optional = [] ∧
      (analyze_kr_for_defects C7m).defects_raw = []) :=
  ⟨by decide, C7_missing_root_silent_empty C7m (by decide)⟩

/-! ## Clean/injected pair comparison (build_final_report, lines 530-612) -/

/-- `imp_set` (lines 284-285): stripped implication pairs as a set. -/
def imp_set (kr : KRModel) : List (String × String) :=
  (kr.imps.map
    (fun im => (String.mk (trimC im.1.data), String.mk (trimC im.2.data)))).dedup

/-- `new_imps = s_i - s_c` (line 566): implication facts present in the
injected model but not the clean one. -/
def new_imps (kr_c kr_i : KRModel) : List (String × String) :=
  (imp_set kr_i).filter (fun p => p ∉ imp_set kr_c)

/-- Lexicographic order on string pairs (Python tuple sorting). -/
def lePairC (a b : String × String) : Bool :=
  if a.1 = b.1 then leC a.2.data b.2.data else leC a.1.data b.1.data

/-- Insertion into a pair-sorted list. -/
def insertSortedPair (x : String × String) :
    List (String × String) → List (String × String)
  | [] => [x]
  | y :: ys => if lePairC x y then x :: y :: ys else y :: insertSortedPair x ys

/-- `sorted` on a list of pairs. -/
def sortPairs (l : List (String × String)) : List (String × String) :=
  l.foldr insertSortedPair []

/-- Order-preserving deduplication (the `seen`/`out` loop of
`infer_targets_from_new_imps`, lines 296-301). -/
def dedupFirstAux (seen : List String) : List String → List String
  | [] => []
  | x :: xs =>
    if x ∈ seen then dedupFirstAux seen xs
    else x :: dedupFirstAux (seen ++ [x]) xs

/-- `infer_targets_from_new_imps` (lines 288-301): the features occurring
NEGATED on the right-hand side of a new implication, in sorted fact order,
deduplicated keeping first occurrences.  Positive right-hand sides are not
collected. -/
def infer_targets_from_new_imps (ni : List (String × String)) : List String :=
  dedupFirstAux []
    ((sortPairs ni).filterMap
      (fun p =>
        if (parse_literal p.2).1 then none else some (parse_literal p.2).2))

/-- The four classification outcomes of the verification loop. -/
inductive PairStatus where
  | missing_injection
  | invalid_target
  | detector_miss
  | ok
deriving DecidableEq, Repr

/-- `";".join` (structural). -/
def joinSemis : List String → String
  | [] => ""
  | [x] => x
  | x :: y :: ys => x ++ ";" ++ joinSemis (y :: ys)

/-- The per-pair classification (lines 561-591), for a pair where both the
clean and the injected file are present: `MISSING_INJECTION` when no new
implication exists, else `INVALID_TARGET` when some inferred target is
absent from the injected model's features, else `DETECTOR_MISS` when the
filtered detected-defect string is blank, else `OK`. -/
def classify_pair (kr_c kr_i : KRModel) : PairStatus :=
  let ni := new_imps kr_c kr_i
  let injection_present := ¬ ni = []
  let inferred := infer_targets_from_new_imps ni
  let invalid := inferred.filter (fun t => t ∉ kr_i.features)
  let detected_filtered :=
    joinSemis (analyze_kr_for_defects kr_i).defects_filtered
  let detected_any := ¬ trimC detected_filtered.data = []
  if ¬ injection_present then PairStatus.missing_injection
  else if ¬ invalid = [] then PairStatus.invalid_target
  else if injection_present ∧ ¬ detected_any then PairStatus.detector_miss
  else PairStatus.ok

theorem mem_insertSortedPair {x y : String × String}
    {l : List (String × String)} :
    x ∈ insertSortedPair y l ↔ x = y ∨ x ∈ l := by
  induction l with
  | nil => simp [insertSortedPair]
  | cons z zs ih =>
    unfold insertSortedPair
    by_cases h : lePairC y z
    · simp [h]
    · simp [h, ih]
      tauto

theorem mem_sortPairs {x : String × String} {l : List (String × String)} :
    x ∈ sortPairs l ↔ x ∈ l := by
  induction l with
  | nil => simp [sortPairs]
  | cons z zs ih =>
    unfold sortPairs at *
    simp [List.foldr_cons, mem_insertSortedPair, ih]

theorem mem_dedupFirstAux {x : String} :
    ∀ {l : List String} {seen : List String},
      x ∈ dedupFirstAux seen l ↔ x ∈ l ∧ x ∉ seen := by
  intro l
  induction l with
  | nil => simp [dedupFirstAux]
  | cons y ys ih =>
    intro seen
    unfold dedupFirstAux
    by_cases h : y ∈ seen
    · rw [if_pos h, ih]
      constructor
      · rintro ⟨hx, hs⟩
        exact ⟨List.mem_cons_of_mem y hx, hs⟩
      · rintro ⟨hx, hs⟩
        rcases List.mem_cons.mp hx with rfl | hx
        · exact absurd h hs
        · exact ⟨hx, hs⟩
    · rw [if_neg h]
      constructor
      · intro hx
        rcases List.mem_cons.mp hx with rfl | hx
        · exact ⟨List.mem_cons_self _ _, h⟩
        · have := ih.mp hx
          refine ⟨List.mem_cons_of_mem y this.1, fun hs => this.2 ?_⟩
          simp [hs]
      · rintro ⟨hx, hs⟩
        rcases List.mem_cons.mp hx with rfl | hx
        · exact List.mem_cons_self _ _
        · by_cases hxy : x = y
          · subst hxy
            exact List.mem_cons_self _ _
          · refine List.mem_cons_of_mem y (ih.mpr ⟨hx, ?_⟩)
            simp [hs, hxy]

/-- A feature is an inferred target exactly when it occurs negated on the
right-hand side of some new implication fact. -/
theorem mem_infer_targets {t : String} {ni : List (String × String)} :
    t ∈ infer_targets_from_new_imps ni ↔
      ∃ p ∈ ni, (parse_literal p.2).1 = false ∧ (parse_literal p.2).2 = t := by
  unfold infer_targets_from_new_imps
  rw [mem_dedupFirstAux]
  simp only [List.mem_filterMap, mem_sortPairs, List.not_mem_nil,
    not_false_iff, and_true]
  constructor
  · rintro ⟨p, hp, hsome⟩
    by_cases hpos : (parse_literal p.2).1
    · simp [hpos] at hsome
    · simp [hpos] at hsome
      exact ⟨p, hp, by simpa using hpos, hsome⟩
  · rintro ⟨p, hp, hneg, hfeat⟩
    exact ⟨p, hp, by simp [hneg, hfeat]⟩

/-! ## Claim C5 -/

/-- Clean side of the C5 pair. -/
def C5c : KRModel :=
  { features := ["InternalAuditSystem", "a"]
    groups := [("InternalAuditSystem", "optional", ["a"])]
    imps := [] }

/-- Injected side of the C5 pair: the new implication's right-hand side is
the POSITIVE occurrence of `ghost`, a feature absent from the model. -/
def C5i : KRModel :=
  { features := ["InternalAuditSystem", "a"]
    groups := [("InternalAuditSystem", "optional", ["a"])]
    imps := [("InternalAuditSystem", "ghost")] }

/-- Injected model whose new implication has a NEGATED absent feature on
the right-hand side. -/
def C5iw : KRModel :=
  { features := ["InternalAuditSystem", "a"]
    groups := [("InternalAuditSystem", "optional", ["a"])]
    imps := [("InternalAuditSystem", "not(ghost)")] }

/-- C5 is false: the pair `(C5c, C5i)` has the new implication
`imp(InternalAuditSystem, ghost)` whose right-hand feature `ghost` occurs
positively and is absent from the injected model's features, yet the
comparison does not classify the pair `INVALID_TARGET` — only negated
right-hand sides are inspected by `infer_targets_from_new_imps`. -/
theorem C5_counterexample :
    (("InternalAuditSystem", "ghost") ∈ new_imps C5c C5i ∧
      "ghost" ∉ C5i.features) ∧
    classify_pair C5c C5i ≠ PairStatus.invalid_target := by
  constructor
  · constructor
    · decide
    · decide
  · decide

/-- C5 (amended): a pair is classified `INVALID_TARGET` exactly when its
NewFacts set is non-empty and some feature occurring NEGATED on the
right-hand side of a new implication is absent from the injected model's
feature set; positively occurring right-hand features are never checked. -/
theorem C5_invalid_target_negated_only (c i : KRModel) :
    classify_pair c i = PairStatus.invalid_target ↔
      (¬ new_imps c i = [] ∧
        ∃ p ∈ new_imps c i,
          (parse_literal p.2).1 = false ∧ (parse_literal p.2).2 ∉ i.features) := by
  unfold classify_pair
  by_cases hni : new_imps c i = []
  · simp [hni]
  · by_cases hinv :
        (infer_targets_from_new_imps (new_imps c i)).filter
          (fun t => t ∉ i.features) = []
    · simp only [hni, not_false_iff, not_true, hinv]
      constructor
      · intro h
        by_cases hd : trimC
            (joinSemis (analyze_kr_for_defects i).defects_filtered).data = []
        · simp [hd, hni, hinv] at h
        · simp [hd, hni, hinv] at h
      · rintro ⟨-, p, hp, hneg, hfeat⟩
        exfalso
        have ht : (parse_literal p.2).2 ∈
            (infer_targets_from_new_imps (new_imps c i)).filter
              (fun t => t ∉ i.features) := by
          rw [List.mem_filter]
          refine ⟨mem_infer_targets.mpr ⟨p, hp, hneg, rfl⟩, by simpa using hfeat⟩
        rw [hinv] at ht
        exact absurd ht (List.not_mem_nil _)
    · rw [if_neg (by simpa using hni), if_pos (by simpa using hinv)]
      simp only [true_iff]
      refine ⟨hni, ?_⟩
      have hpos : 0 < ((infer_targets_from_new_imps (new_imps c i)).filter
          (fun t => t ∉ i.features)).length := List.length_pos.mpr hinv
      obtain ⟨t, ht⟩ := List.exists_mem_of_length_pos hpos
      have htf := List.mem_filter.mp ht
      obtain ⟨p, hp, hneg, hfeat⟩ := mem_infer_targets.mp htf.1
      exact ⟨p, hp, hneg, by rw [hfeat]; simpa using htf.2⟩

/-- Witness for `C5_invalid_target_negated_only`: a pair whose new
implication has a negated absent right-hand feature is classified
`INVALID_TARGET`. -/
theorem C5_invalid_target_negated_only_witness :
    classify_pair C5c C5iw = PairStatus.invalid_target :=
  (C5_invalid_target_negated_only C5c C5iw).mpr (by decide)

/-! ## Claim C9 -/

/-- Injected model whose only detected defect is the artifact
`FO:AuditPlan`: the `AuditType` alternative group has exactly one child
and `root => AuditPlan` forces the root-optional `AuditPlan`. -/
def C9i : KRModel :=
  { features := ["InternalAuditSystem", "AuditType", "t1", "AuditPlan"]
    groups := [("InternalAuditSystem", "mandatory", ["AuditType"]),
               ("AuditType", "alternative", ["t1"]),
               ("InternalAuditSystem", "optional", ["AuditPlan"])]
    imps := [("InternalAuditSystem", "AuditPlan")] }

/-- The clean counterpart of `C9i` (no injected implication). -/
def C9c : KRModel :=
  { features := ["InternalAuditSystem", "AuditType", "t1", "AuditPlan"]
    groups := [("InternalAuditSystem", "mandatory", ["AuditType"]),
               ("AuditType", "alternative", ["t1"]),
               ("InternalAuditSystem", "optional", ["AuditPlan"])]
    imps := [] }

/-- C9: the filtered defect list equals the raw one except that
`FO:AuditPlan` is removed exactly when the `AuditType` alternative group
has exactly one option and `AuditPlan` is among the computed
false-optionals; classification is decided on the filtered list, so the
pair `(C9c, C9i)` — whose only raw defect is the filtered `FO:AuditPlan` —
is classified `DETECTOR_MISS` although its raw defect list is non-empty. -/
theorem C9_artifact_filter_and_classification :
    (∀ kr : KRModel,
      (((analyze_kr_for_defects kr).audit_type_options_count = 1 ∧
          "AuditPlan" ∈ (analyze_kr_for_defects kr).false_optional) →
        (analyze_kr_for_defects kr).defects_filtered =
          (analyze_kr_for_defects kr).defects_raw.filter
            (fun x => x ≠ "FO:AuditPlan")) ∧
      ((¬ ((analyze_kr_for_defects kr).audit_type_options_count = 1 ∧
          "AuditPlan" ∈ (analyze_kr_for_defects kr).false_optional)) →
        (analyze_kr_for_defects kr).defects_filtered =
          (analyze_kr_for_defects kr).defects_raw)) ∧
    ((analyze_kr_for_defects C9i).defects_raw = ["FO:AuditPlan"] ∧
      (analyze_kr_for_defects C9i).defects_filtered = [] ∧
      classify_pair C9c C9i = PairStatus.detector_miss) := by
  constructor
  · intro kr
    have hart : (analyze_kr_for_defects kr).is_visit_type_artifact =
        (((analyze_kr_for_defects kr).audit_type_options_count == 1) &&
          ((analyze_kr_for_defects kr).false_optional.contains "AuditPlan")) :=
      rfl
    have hfil : (analyze_kr_for_defects kr).defects_filtered =
        (if (analyze_kr_for_defects kr).is_visit_type_artifact then
          (analyze_kr_for_defects kr).defects_raw.filter
            (fun x => x ≠ "FO:AuditPlan")
        else (analyze_kr_for_defects kr).defects_raw) := rfl
    constructor
    · intro hc
      rw [hfil, hart]
      simp [hc.1, hc.2]
    · intro hc
      rw [hfil, hart]
      by_cases h1 : (analyze_kr_for_defects kr).audit_type_options_count = 1
      · have h2 : "AuditPlan" ∉ (analyze_kr_for_defects kr).false_optional :=
          fun h => hc ⟨h1, h⟩
        simp [h1, h2]
      · simp [h1]
  · refine ⟨by decide, by decide, by decide⟩

/-- Witness for `C9_artifact_filter_and_classification`: the filter
condition holds at `C9i` and the filtered list drops `FO:AuditPlan`. -/
theorem C9_artifact_filter_and_classification_witness :
    ((analyze_kr_for_defects C9i).audit_type_options_count = 1 ∧
      "AuditPlan" ∈ (analyze_kr_for_defects C9i).false_optional) ∧
    (analyze_kr_for_defects C9i).defects_filtered =
      (analyze_kr_for_defects C9i).defects_raw.filter
        (fun x => x ≠ "FO:AuditPlan") :=
  ⟨⟨by decide, by decide⟩,
    (C9_artifact_filter_and_classification.1 C9i).1 ⟨by decide, by decide⟩⟩

/-! ## Defect injection (inject_scientific_defects_v5.py) -/

/-- First character of a Python identifier (`[A-Za-z_]`). -/
def isIdentStart (c : Char) : Bool :=
  c.isAlpha || c = '_'

/-- Later character of a Python identifier (`[A-Za-z0-9_]`). -/
def isIdentChar (c : Char) : Bool :=
  c.isAlpha || c.isDigit || c = '_'

/-- ASCII lowercasing (`str.lower` on identifier text). -/
def toLowerC (l : List Char) : List Char :=
  l.map Char.toLower

/-- The reserved words excluded from the candidate vocabulary
(`_RESERVED`, lines 27-29). -/
def RESERVED : List String :=
  ["features", "constraints", "mandatory", "optional", "alternative",
   "or", "namespace"]

mutual
/-- Scanner for the regex `^\s+([A-Za-z_][A-Za-z0-9_]*)\b` in MULTILINE
mode over the whole file text (`_extract_features_uvl`, line 45): at a
line-start position with whitespace, enter the `\s+` state; otherwise
advance, tracking whether the next position starts a line.  The fuel is an
upper bound on the remaining text length, so it never runs out. -/
def extract_scan : Nat → Bool → List Char → List (List Char)
  | 0, _, _ => []
  | _ + 1, _, [] => []
  | fuel + 1, atStart, c :: rest =>
    if atStart && isPyWs c then extract_ws fuel rest
    else extract_scan fuel (c = '\n') rest

/-- Inside the `\s+` run: keep consuming whitespace; an identifier-start
character yields the maximal identifier token, anything else resumes the
plain scan. -/
def extract_ws : Nat → List Char → List (List Char)
  | 0, _ => []
  | _ + 1, [] => []
  | fuel + 1, c :: rest =>
    if isPyWs c then extract_ws fuel rest
    else if isIdentStart c then
      (c :: rest.takeWhile isIdentChar) ::
        extract_scan fuel false (rest.dropWhile isIdentChar)
    else extract_scan fuel (c = '\n') rest
end

/-- `_extract_features_uvl` (lines 42-47): all indented identifier tokens,
minus reserved words (compared lowercase), as a sorted set. -/
def extract_features_uvl (text : List Char) : List String :=
  sortedSet
    (((extract_scan (text.length + 1) true text).map
        (fun t => String.mk t)).filter
      (fun f => String.mk (toLowerC f.data) ∉ RESERVED))

/-- `"".join(lines)` for a file represented as its list of lines. -/
def joinNl : List String → List Char
  | [] => []
  | [l] => l.data
  | l :: ls => l.data ++ '\n' :: joinNl ls

/-- Modelled from the library contract of `random.sample(pop, 3)`: three
draws without replacement.  The script calls the GLOBAL Mersenne Twister
generator and never seeds it; the generator state at call time is
abstracted as an explicit stream `rng` of draws — the i-th draw picks
index `rng i` modulo the remaining population size. -/
def sample3 (rng : Nat → Nat) (pool : List String) :
    String × String × String :=
  let i0 := rng 0 % pool.length
  let a := pool.getD i0 ""
  let pool1 := pool.eraseIdx i0
  let i1 := rng 1 % pool1.length
  let b := pool1.getD i1 ""
  let pool2 := pool1.eraseIdx i1
  let i2 := rng 2 % pool2.length
  let c := pool2.getD i2 ""
  (a, b, c)

/-- The oracle record persisted per injected model (dead, false-optional
and redundancy targets; file-path bookkeeping omitted). -/
structure OracleRecord where
  df_dead : String
  fo_false_optional : String
  re_redundancy : String
deriving DecidableEq, Repr

/-- `inject_and_track_defects` (lines 50-93) over a file given as a list
of lines: abort when fewer than 3 candidate features exist; otherwise draw
three features `(d, f, r)` and append the three constraint lines
`root => !d`, `root => f`, `r => root` after each `constraints` header
(appending a fresh header at the end when none exists), returning the
oracle record and the output lines. -/
def inject_and_track_defects (rng : Nat → Nat) (lines : List String) :
    Option (OracleRecord × List String) :=
  let targets := extract_features_uvl (joinNl lines)
  if targets.length < 3 then none
  else
    let s := sample3 rng targets
    let cs := ["    " ++ ROOT_FEATURE ++ " => !" ++ s.1,
               "    " ++ ROOT_FEATURE ++ " => " ++ s.2.1,
               "    " ++ s.2.2 ++ " => " ++ ROOT_FEATURE]
    let step := lines.foldl
      (fun (acc : List String × Bool) line =>
        let acc1 := acc.1 ++ [line]
        if String.mk (toLowerC (trimC line.data)) = "constraints" then
          (acc1 ++ cs, true)
        else (acc1, acc.2))
      ([], false)
    let out := if step.2 then step.1 else step.1 ++ ["", "constraints"] ++ cs
    some ({ df_dead := s.1, fo_false_optional := s.2.1,
            re_redundancy := s.2.2 }, out)

theorem getD_mem : ∀ (l : List String) (i : Nat) (d : String),
    i < l.length → l.getD i d ∈ l
  | x :: xs, 0, _, _ => List.mem_cons_self x xs
  | x :: xs, i + 1, d, h =>
    List.mem_cons_of_mem x (getD_mem xs i d (by simpa using h))

theorem mem_of_mem_eraseIdx :
    ∀ {l : List String} {i : Nat} {x : String}, x ∈ l.eraseIdx i → x ∈ l := by
  intro l
  induction l with
  | nil => intro i x h; simpa [List.eraseIdx] using h
  | cons y ys ih =>
    intro i x h
    cases i with
    | zero => exact List.mem_cons_of_mem y (by simpa [List.eraseIdx] using h)
    | succ j =>
      rcases List.mem_cons.mp (by simpa [List.eraseIdx] using h) with rfl | h'
      · exact List.mem_cons_self x ys
      · exact List.mem_cons_of_mem y (ih h')

theorem nodup_eraseIdx : ∀ {l : List String} (i : Nat),
    l.Nodup → (l.eraseIdx i).Nodup := by
  intro l
  induction l with
  | nil => intro i h; simpa [List.eraseIdx] using h
  | cons y ys ih =>
    intro i h
    cases i with
    | zero => simpa [List.eraseIdx] using h.of_cons
    | succ j =>
      rw [List.eraseIdx]
      refine List.nodup_cons.mpr ⟨?_, ih j (List.nodup_cons.mp h).2⟩
      intro hy
      exact (List.nodup_cons.mp h).1 (mem_of_mem_eraseIdx hy)

theorem getD_not_mem_eraseIdx : ∀ {l : List String} {i : Nat} (d : String),
    l.Nodup → i < l.length → l.getD i d ∉ l.eraseIdx i := by
  intro l
  induction l with
  | nil => intro i d _ h; simp at h
  | cons y ys ih =>
    intro i d hnd hi
    cases i with
    | zero =>
      simpa [List.eraseIdx] using (List.nodup_cons.mp hnd).1
    | succ j =>
      rw [List.eraseIdx, List.getD_cons_succ]
      intro hmem
      rcases List.mem_cons.mp hmem with heq | hmem'
      · have hin : ys.getD j d ∈ ys := getD_mem ys j d (by simpa using hi)
        exact (List.nodup_cons.mp hnd).1 (heq ▸ hin)
      · exact ih d (List.nodup_cons.mp hnd).2 (by simpa using hi) hmem'

theorem perm_insertSorted (x : String) :
    ∀ (l : List String), List.Perm (insertSorted x l) (x :: l) := by
  intro l
  induction l with
  | nil => simp [insertSorted]
  | cons y ys ih =>
    unfold insertSorted
    by_cases h : leC x.data y.data
    · simp [h]
    · rw [if_neg h]
      exact List.Perm.trans (ih.cons y) (List.Perm.swap x y ys)

theorem perm_sortStrings : ∀ (l : List String), List.Perm (sortStrings l) l := by
  intro l
  induction l with
  | nil => simp [sortStrings]
  | cons y ys ih =>
    unfold sortStrings at *
    exact List.Perm.trans (perm_insertSorted y (List.foldr insertSorted [] ys))
      (ih.cons y)

theorem nodup_sortedSet (l : List String) : (sortedSet l).Nodup :=
  ((perm_sortStrings l.dedup).nodup_iff).mpr l.nodup_dedup

/-- The three sampled features are distinct members of the pool. -/
theorem sample3_spec (rng : Nat → Nat) (pool : List String)
    (hnd : pool.Nodup) (hlen : 3 ≤ pool.length) :
    (sample3 rng pool).1 ∈ pool ∧ (sample3 rng pool).2.1 ∈ pool ∧
    (sample3 rng pool).2.2 ∈ pool ∧
    (sample3 rng pool).1 ≠ (sample3 rng pool).2.1 ∧
    (sample3 rng pool).1 ≠ (sample3 rng pool).2.2 ∧
    (sample3 rng pool).2.1 ≠ (sample3 rng pool).2.2 := by
  have h0 : 0 < pool.length := by omega
  have hi0 : rng 0 % pool.length < pool.length := Nat.mod_lt _ h0
  have hlen1 : (pool.eraseIdx (rng 0 % pool.length)).length =
      pool.length - 1 := by
    rw [List.length_eraseIdx]
    simp [hi0]
  have h1 : 0 < (pool.eraseIdx (rng 0 % pool.length)).length := by omega
  have hi1 : rng 1 % (pool.eraseIdx (rng 0 % pool.length)).length <
      (pool.eraseIdx (rng 0 % pool.length)).length := Nat.mod_lt _ h1
  set i0 := rng 0 % pool.length with hi0def
  set p1 := pool.eraseIdx i0 with hp1
  set i1 := rng 1 % p1.length with hi1def
  set p2 := p1.eraseIdx i1 with hp2
  have hlen2 : p2.length = p1.length - 1 := by
    rw [hp2, List.length_eraseIdx]
    simp [hi1]
  have h2 : 0 < p2.length := by omega
  have hi2 : rng 2 % p2.length < p2.length := Nat.mod_lt _ h2
  have hnd1 : p1.Nodup := nodup_eraseIdx i0 hnd
  have ha : (sample3 rng pool).1 = pool.getD i0 "" := rfl
  have hb : (sample3 rng pool).2.1 = p1.getD i1 "" := rfl
  have hc : (sample3 rng pool).2.2 = p2.getD (rng 2 % p2.length) "" := rfl
  have hamem : pool.getD i0 "" ∈ pool := getD_mem pool i0 "" hi0
  have hbmem1 : p1.getD i1 "" ∈ p1 := getD_mem p1 i1 "" hi1
  have hcmem2 : p2.getD (rng 2 % p2.length) "" ∈ p2 := getD_mem p2 _ "" hi2
  have hanot : pool.getD i0 "" ∉ p1 := getD_not_mem_eraseIdx "" hnd hi0
  have hbnot : p1.getD i1 "" ∉ p2 := getD_not_mem_eraseIdx "" hnd1 hi1
  have hcmem1 : p2.getD (rng 2 % p2.length) "" ∈ p1 :=
    mem_of_mem_eraseIdx hcmem2
  refine ⟨hamem, mem_of_mem_eraseIdx hbmem1, mem_of_mem_eraseIdx hcmem1,
    ?_, ?_, ?_⟩
  · rw [ha, hb]
    intro h
    exact hanot (h ▸ hbmem1)
  · rw [ha, hc]
    intro h
    exact hanot (h ▸ hcmem1)
  · rw [hb, hc]
    intro h
    exact hbnot (h ▸ hcmem2)

/-! ## Claim C6 -/

/-- A small clean UVL file with four candidate features. -/
def C6lines : List String :=
  ["features",
   "    root_feature",
   "        mandatory",
   "            alpha",
   "            beta",
   "            gamma"]

/-- C6 is false: the injector draws with the GLOBAL, never-seeded random
generator, so two runs of the injection on the same file can draw
different features and produce different output and oracle records — here
two generator states (constant draw 0 versus constant draw 1) disagree on
`C6lines`, which has more than 3 candidate features. -/
theorem C6_counterexample :
    3 ≤ (extract_features_uvl (joinNl C6lines)).length ∧
    inject_and_track_defects (fun _ => 0) C6lines ≠
      inject_and_track_defects (fun _ => 1) C6lines := by
  constructor
  · decide
  · decide

/-- C6 (amended): injection output is a deterministic function of the
file TOGETHER WITH the generator state, but the generator is global and
unseeded, so determinism per model across runs fails
(`C6_counterexample`).  For every file and generator state: with fewer
than 3 candidate features the injection aborts; otherwise it draws three
distinct features `{d, f, r}` from the candidate vocabulary, returns an
oracle record naming them, and the output contains the three constraint
lines `root => !d`, `root => f`, `r => root`. -/
theorem C6_injection_draw_shape :
    (∀ (lines : List String) (rng : Nat → Nat),
      (extract_features_uvl (joinNl lines)).length < 3 →
      inject_and_track_defects rng lines = none) ∧
    (∀ (lines : List String) (rng : Nat → Nat),
      3 ≤ (extract_features_uvl (joinNl lines)).length →
      ∃ rec out,
        inject_and_track_defects rng lines = some (rec, out) ∧
        rec.df_dead ∈ extract_features_uvl (joinNl lines) ∧
        rec.fo_false_optional ∈ extract_features_uvl (joinNl lines) ∧
        rec.re_redundancy ∈ extract_features_uvl (joinNl lines) ∧
        rec.df_dead ≠ rec.fo_false_optional ∧
        rec.df_dead ≠ rec.re_redundancy ∧
        rec.fo_false_optional ≠ rec.re_redundancy ∧
        ("    " ++ ROOT_FEATURE ++ " => !" ++ rec.df_dead) ∈ out ∧
        ("    " ++ ROOT_FEATURE ++ " => " ++ rec.fo_false_optional) ∈ out ∧
        ("    " ++ rec.re_redundancy ++ " => " ++ ROOT_FEATURE) ∈ out) := by
  constructor
  · intro lines rng h
    simp only [inject_and_track_defects]
    rw [if_pos h]
  · intro lines rng h
    have hlt : ¬ (extract_features_uvl (joinNl lines)).length < 3 := by omega
    have hspec := sample3_spec rng (extract_features_uvl (joinNl lines))
      (nodup_sortedSet _) h
    simp only [inject_and_track_defects]
    rw [if_neg hlt]
    refine ⟨_, _, rfl, hspec.1, hspec.2.1, hspec.2.2.1, hspec.2.2.2.1,
      hspec.2.2.2.2.1, hspec.2.2.2.2.2, ?_, ?_, ?_⟩ <;>
    · set s := sample3 rng (extract_features_uvl (joinNl lines)) with hs
      set cs : List String :=
        ["    " ++ ROOT_FEATURE ++ " => !" ++ s.1,
         "    " ++ ROOT_FEATURE ++ " => " ++ s.2.1,
         "    " ++ s.2.2 ++ " => " ++ ROOT_FEATURE] with hcs
      have hinv : ∀ st : List String × Bool,
          (st.2 = true → ∀ x ∈ cs, x ∈ st.1) →
          ∀ x ∈ cs,
            x ∈ (if st.2 = true then st.1
                 else st.1 ++ ["", "constraints"] ++ cs) := by
        intro st hst x hx
        by_cases hflag : st.2 = true
        · rw [if_pos hflag]
          exact hst hflag x hx
        · rw [if_neg hflag]
          exact List.mem_append.mpr (Or.inr hx)
      have hfold : ∀ (ls : List String) (st : List String × Bool),
          (st.2 = true → ∀ x ∈ cs, x ∈ st.1) →
          ((ls.foldl
            (fun (acc : List String × Bool) line =>
              let acc1 := acc.1 ++ [line]
              if String.mk (toLowerC (trimC line.data)) = "constraints" then
                (acc1 ++ cs, true)
              else (acc1, acc.2))
            st).2 = true →
            ∀ x ∈ cs, x ∈ (ls.foldl
              (fun (acc : List String × Bool) line =>
                let acc1 := acc.1 ++ [line]
                if String.mk (toLowerC (trimC line.data)) = "constraints" then
                  (acc1 ++ cs, true)
                else (acc1, acc.2))
              st).1) := by
        intro ls
        induction ls with
        | nil => intro st hst; exact hst
        | cons l ls ih =>
          intro st hst
          rw [List.foldl_cons]
          refine ih _ ?_
          dsimp only
          by_cases hc : String.mk (toLowerC (trimC l.data)) = "constraints"
          · rw [if_pos hc]
            intro _ x hx
            exact List.mem_append.mpr (Or.inr hx)
          · rw [if_neg hc]
            intro hflag x hx
            exact List.mem_append.mpr (Or.inl (hst hflag x hx))
      · have hbase : ((([] : List String), false).2 = true →
            ∀ x ∈ cs, x ∈ (([] : List String), false).1) := by
          intro hf
          simp at hf
        exact hinv _ (hfold lines ([], false) hbase) _ (by simp [hcs])

/-- Witness for `C6_injection_draw_shape` at `C6lines` with a concrete
generator state. -/
theorem C6_injection_draw_shape_witness :
    3 ≤ (extract_features_uvl (joinNl C6lines)).length ∧
    (∃ rec out,
      inject_and_track_defects (fun _ => 0) C6lines = some (rec, out) ∧
      rec.df_dead ∈ extract_features_uvl (joinNl C6lines) ∧
      rec.fo_false_optional ∈ extract_features_uvl (joinNl C6lines) ∧
      rec.re_redundancy ∈ extract_features_uvl (joinNl C6lines) ∧
      rec.df_dead ≠ rec.fo_false_optional ∧
      rec.df_dead ≠ rec.re_redundancy ∧
      rec.fo_false_optional ≠ rec.re_redundancy ∧
      ("    " ++ ROOT_FEATURE ++ " => !" ++ rec.df_dead) ∈ out ∧
      ("    " ++ ROOT_FEATURE ++ " => " ++ rec.fo_false_optional) ∈ out ∧
      ("    " ++ rec.re_redundancy ++ " => " ++ ROOT_FEATURE) ∈ out) :=
  ⟨by decide, C6_injection_draw_shape.2 C6lines (fun _ => 0) (by decide)⟩

/-! ## Model builder (structurecode/uvl_builder.py)

The pandas layer (reading the workbook, `_clean_upper_cols`) is abstracted:
a content row carries the five required columns plus the optional
audit-type/plan codes as `Option String`, `none` standing for a missing
(`NA`) cell after cleaning.  The build logic itself — deduplication, the
fatal mapping-conflict check, feature emission and constraints — is
translated statement by statement. -/

/-- One row of the RAW sheet after `_clean_upper_cols`. -/
structure ContentRow where
  category_code : Option String
  item_key : Option String
  item_feature_name : Option String
  answer_feature_name : Option String
  branch_feature_code : Option String
  audit_type_code : Option String
  audit_plan_code : Option String
deriving DecidableEq, Repr

/-- One row of the BRANCH_PROFILE sheet; the capability flags carry the
already-coerced numeric value (`pd.to_numeric(...).fillna(0)` turns
non-numeric cells into `none`, read as 0). -/
structure BranchProfileRow where
  branch_feature_code : Option String
  iso_active : Option Nat
  micro_active : Option Nat
  path_active : Option Nat
deriving DecidableEq, Repr

/-- One row of the SCOPE_RULES sheet (`str(...)` conversions applied). -/
structure ScopeRule where
  capability_flag : String
  target_code : String
  action : String
deriving DecidableEq, Repr

/-- The builder's input: the cleaned RAW rows, the branch profile (empty
when the sheet is missing), the scope rules (`none` when the sheet is
missing or lacks the required columns — the `try`/`except` path), and the
`require_answers` mode. -/
structure BuildInput where
  ns : String
  rows : List ContentRow
  branch_profile : List BranchProfileRow
  scope_rules : Option (List ScopeRule)
  require_answers : Bool
deriving Repr

/-- `_indent` (line 7): four spaces per level. -/
def ind (level : Nat) : String :=
  String.mk (List.replicate (4 * level) ' ')

/-- `_safe_sorted_unique` (lines 11-15): drop missing cells, strip, keep
non-empty values other than `"nan"`, sorted set. -/
def safe_sorted_unique (l : List (Option String)) : List String :=
  sortedSet
    (((l.filterMap id).map (fun s => String.mk (trimC s.data))).filter
      (fun s => !(s == "") && !(String.mk (toLowerC s.data) == "nan")))

/-- `_is_missing` (lines 42-46). -/
def is_missing : Option String → Bool
  | none => true
  | some s =>
    let t := String.mk (toLowerC (trimC s.data))
    t == "" || t == "nan" || t == "none"

/-- Identifier tokens of an expression (`re.findall` of
`[A-Za-z_][A-Za-z0-9_]*` in `_is_constraint_valid`, line 19).  The fuel is
an upper bound on the text length. -/
def ident_tokens : Nat → List Char → List String
  | 0, _ => []
  | _ + 1, [] => []
  | fuel + 1, c :: rest =>
    if isIdentStart c then
      String.mk (c :: rest.takeWhile isIdentChar) ::
        ident_tokens fuel (rest.dropWhile isIdentChar)
    else ident_tokens fuel rest

/-- `_is_constraint_valid` (lines 18-22): every non-blacklisted identifier
of the expression must be a known feature. -/
def is_constraint_valid (expr : String) (valid : List String) : Bool :=
  ((ident_tokens (expr.data.length + 1) expr.data).filter
    (fun t => t ∉ (["and", "or", "not", "true", "false", "implies"] :
        List String))).all
    (fun t => t ∈ valid)

/-- The 4-tuple `drop_duplicates` key of a content row (line 143). -/
def contentKey (r : ContentRow) :
    Option String × Option String × Option String × Option String :=
  (r.category_code, r.item_key, r.item_feature_name, r.answer_feature_name)

/-- `df_raw.drop_duplicates(subset=..., keep="first")` (lines 143-146). -/
def drop_dup_content
    (seen : List (Option String × Option String × Option String × Option String)) :
    List ContentRow → List ContentRow
  | [] => []
  | r :: rs =>
    if contentKey r ∈ seen then drop_dup_content seen rs
    else r :: drop_dup_content (seen ++ [contentKey r]) rs

/-- `drop_duplicates(subset=["ITEM_KEY", "ITEM_FEATURE_NAME"])`
(line 229). -/
def drop_dup_items (seen : List (Option String × Option String)) :
    List ContentRow → List ContentRow
  | [] => []
  | r :: rs =>
    if (r.item_key, r.item_feature_name) ∈ seen then drop_dup_items seen rs
    else r :: drop_dup_items (seen ++ [(r.item_key, r.item_feature_name)]) rs

/-- `_detect_fatal_mapping_conflicts` (lines 49-66) as a decision: on the
rows with both item key and item feature present, some key maps to two
distinct features or some feature to two distinct keys. -/
def detect_fatal_mapping_conflicts (rows : List ContentRow) : Bool :=
  let core := rows.filter
    (fun r => r.item_key.isSome && r.item_feature_name.isSome)
  core.any (fun r1 => core.any (fun r2 =>
    (r1.item_key == r2.item_key &&
      !(r1.item_feature_name == r2.item_feature_name)) ||
    (r1.item_feature_name == r2.item_feature_name &&
      !(r1.item_key == r2.item_key))))

/-- `_branches_with_flag` (lines 98-108). -/
def branches_with_flag (profile : List BranchProfileRow)
    (f : BranchProfileRow → Option Nat) : List String :=
  sortedSet
    ((((profile.filter (fun r => (f r).getD 0 == 1)).filterMap
        (fun r => r.branch_feature_code)).map
      (fun s => String.mk (trimC s.data))).filter
      (fun s => !(s == "") && !(String.mk (toLowerC s.data) == "nan")))

/-- `" | ".join`. -/
def joinBar : List String → String
  | [] => ""
  | [x] => x
  | x :: y :: ys => x ++ " | " ++ joinBar (y :: ys)

/-- The per-item emission step (lines 240-285), threading the
accumulated `(uvl_lines, valid_features)` pair. -/
def item_block (require_answers : Bool) (cat_rows : List ContentRow)
    (acc : List String × List String) (row : ContentRow) :
    List String × List String :=
  if is_missing row.item_key || is_missing row.item_feature_name then acc
  else
    let ikey := String.mk (trimC ((row.item_key.getD "").data))
    let item_feat := String.mk (trimC ((row.item_feature_name.getD "").data))
    let rel := cat_rows.filter (fun r =>
      match r.item_key with
      | some s => String.mk (trimC s.data) == ikey
      | none => false)
    let choices := safe_sorted_unique (rel.map (fun r => r.answer_feature_name))
    if choices = [] ∧ require_answers then acc
    else
      let base := acc.1 ++
        [ind 7 ++ item_feat ++ " {abstract}", ind 8 ++ "mandatory"]
      if choices = [] then (base, acc.2)
      else
        let answers_node := "Answers__" ++ ikey
        let withNode := base ++
          [ind 9 ++ answers_node ++ " {abstract}", ind 10 ++ "alternative"]
        choices.foldl
          (fun (a : List String × List String) ans =>
            if is_missing (some ans) then a
            else
              let af := String.mk (trimC ans.data)
              (a.1 ++ [ind 11 ++ af], setAdd a.2 af))
          (withNode, setAdd acc.2 answers_node)

/-- The per-category emission step (lines 225-285). -/
def category_block (require_answers : Bool) (df_content : List ContentRow)
    (acc : List String × List String) (cat : String) :
    List String × List String :=
  let cat_rows := df_content.filter (fun r =>
    match r.category_code with
    | some s => String.mk (trimC s.data) == cat
    | none => false)
  let cat_valid_items := drop_dup_items []
    (cat_rows.filter (fun r => r.item_key.isSome && r.item_feature_name.isSome))
  if cat_valid_items = [] then acc
  else
    cat_valid_items.foldl (item_block require_answers cat_rows)
      (acc.1 ++ [ind 5 ++ cat ++ " {abstract}", ind 6 ++ "mandatory"], acc.2)

/-- The capability-flag constraints (lines 304-313): a two-way rule
binding each flag to the disjunction of branches possessing it, or a unit
negative when none do. -/
def cap_flag_lines (profile : List BranchProfileRow) (vf : List String) :
    List String :=
  ([("iso_active", fun r : BranchProfileRow => r.iso_active),
    ("micro_active", fun r : BranchProfileRow => r.micro_active),
    ("path_active", fun r : BranchProfileRow => r.path_active)].map
    (fun fl =>
      let bs := branches_with_flag profile fl.2
      if bs = [] then [ind 1 ++ "!" ++ fl.1]
      else
        let expr := fl.1 ++ " <=> (" ++ joinBar bs ++ ")"
        if is_constraint_valid expr vf then [ind 1 ++ expr] else [])).flatten

/-- The scope-rule emission for one rule (lines 329-351): blank fields
skip the rule, unknown endpoints skip it, actions `forbid` and `require`
both emit the pair `target => flag` / `!flag => !target`, every other
action emits nothing. -/
def scope_rule_lines (vf : List String) (r : ScopeRule) : List String :=
  let target := String.mk (trimC r.target_code.data)
  let flag0 := String.mk (trimC r.capability_flag.data)
  let action := String.mk (toLowerC (trimC r.action.data))
  if target = "" ∨ flag0 = "" ∨ action = "" then []
  else
    let flag := String.mk (toLowerC flag0.data)
    if target ∉ vf ∨ flag ∉ vf then []
    else if action = "forbid" ∨ action = "require" then
      (if is_constraint_valid (target ++ " => " ++ flag) vf then
        [ind 1 ++ target ++ " => " ++ flag]
      else []) ++
      (if is_constraint_valid ("!" ++ flag ++ " => !" ++ target) vf then
        [ind 1 ++ "!" ++ flag ++ " => !" ++ target]
      else [])
    else []

/-- `build_uvl_from_structure` (lines 111-363), producing the UVL lines or
the fatal `StructuralCorruption` error.  File writing and terminal
reporting are outside the embedding; the error is raised before any
output line is produced. -/
def build_uvl_from_structure (inp : BuildInput) :
    Except String (List String) :=
  let branches_universe :=
    safe_sorted_unique (inp.rows.map (fun r => r.branch_feature_code))
  let df_content := drop_dup_content [] inp.rows
  if detect_fatal_mapping_conflicts df_content then
    Except.error "FATAL: Item mapping conflicts detected (data corruption)"
  else
    let categories_all :=
      safe_sorted_unique (df_content.map (fun r => r.category_code))
    let audit_types :=
      safe_sorted_unique (df_content.map (fun r => r.audit_type_code))
    let audit_plans :=
      safe_sorted_unique (df_content.map (fun r => r.audit_plan_code))
    let branch_cap_flags := ["iso_active", "micro_active", "path_active"]
    let item_features :=
      safe_sorted_unique (df_content.map (fun r => r.item_feature_name))
    let valid_features0 := branch_cap_flags ++ audit_types ++ audit_plans ++
      branches_universe ++ categories_all ++ item_features ++
      ["AuditPlan", "RelatedVisit"]
    let header := ["namespace " ++ inp.ns, "", "features",
        ind 1 ++ "InternalAuditSystem {abstract}", ind 2 ++ "mandatory",
        ind 3 ++ "BranchCapabilities {abstract}", ind 4 ++ "optional"] ++
      branch_cap_flags.map (fun f => ind 5 ++ f) ++
      (if audit_types = [] then [] else
        [ind 3 ++ "AuditType {abstract}", ind 4 ++ "alternative"] ++
          audit_types.map (fun t => ind 5 ++ t)) ++
      (if branches_universe = [] then [] else
        [ind 3 ++ "AuditedEntity {abstract}", ind 4 ++ "alternative"] ++
          branches_universe.map (fun b => ind 5 ++ b)) ++
      [ind 3 ++ "AuditScope {abstract}", ind 4 ++ "or"]
    let catacc := categories_all.foldl
      (category_block inp.require_answers df_content)
      (header, valid_features0)
    let vf := catacc.2
    let lines2 := catacc.1 ++ [ind 2 ++ "optional"] ++
      (if audit_plans = [] then [] else
        [ind 3 ++ "AuditPlan {abstract}", ind 4 ++ "alternative"] ++
          audit_plans.map (fun p => ind 5 ++ p)) ++
      [ind 3 ++ "RelatedVisit {abstract}"] ++
      ["", "constraints"] ++
      cap_flag_lines inp.branch_profile vf ++
      (if "planned" ∈ vf then
        [ind 1 ++ "planned => AuditPlan", ind 1 ++ "!planned => !AuditPlan"]
      else []) ++
      (if "re_evaluate" ∈ vf then
        [ind 1 ++ "re_evaluate => RelatedVisit",
         ind 1 ++ "!re_evaluate => !RelatedVisit"]
      else []) ++
      (match inp.scope_rules with
       | some rules => (rules.map (scope_rule_lines vf)).flatten
       | none => [])
    Except.ok lines2

/-- The claim's conflict condition: on the deduplicated content rows with
both item key and item feature present, some key maps to two distinct
feature names or some feature name to two distinct keys. -/
def mapping_conflict_prop (rows : List ContentRow) : Prop :=
  ∃ r1 ∈ rows, ∃ r2 ∈ rows,
    r1.item_key.isSome ∧ r1.item_feature_name.isSome ∧
    r2.item_key.isSome ∧ r2.item_feature_name.isSome ∧
    ((r1.item_key = r2.item_key ∧ r1.item_feature_name ≠ r2.item_feature_name) ∨
     (r1.item_feature_name = r2.item_feature_name ∧ r1.item_key ≠ r2.item_key))

instance (rows : List ContentRow) : Decidable (mapping_conflict_prop rows) := by
  unfold mapping_conflict_prop
  infer_instance

/-- The executable conflict detection decides the conflict condition. -/
theorem detect_iff (rows : List ContentRow) :
    detect_fatal_mapping_conflicts rows = true ↔ mapping_conflict_prop rows := by
  unfold detect_fatal_mapping_conflicts mapping_conflict_prop
  simp only [List.any_eq_true, List.mem_filter, Bool.and_eq_true,
    Bool.or_eq_true, beq_iff_eq, bne_iff_ne, Bool.not_eq_true']
  constructor
  · rintro ⟨r1, ⟨h1, hk1, hf1⟩, r2, ⟨h2, hk2, hf2⟩, hor⟩
    refine ⟨r1, h1, r2, h2, hk1, hf1, hk2, hf2, ?_⟩
    rcases hor with ⟨he, hne⟩ | ⟨he, hne⟩
    · exact Or.inl ⟨he, by simpa using hne⟩
    · exact Or.inr ⟨he, by simpa using hne⟩
  · rintro ⟨r1, h1, r2, h2, hk1, hf1, hk2, hf2, hor⟩
    refine ⟨r1, ⟨h1, hk1, hf1⟩, r2, ⟨h2, hk2, hf2⟩, ?_⟩
    rcases hor with ⟨he, hne⟩ | ⟨he, hne⟩
    · exact Or.inl ⟨he, by simpa using hne⟩
    · exact Or.inr ⟨he, by simpa using hne⟩

/-- The build fails exactly when the conflict detection fires. -/
theorem build_error_iff (inp : BuildInput) :
    (∃ e, build_uvl_from_structure inp = Except.error e) ↔
      detect_fatal_mapping_conflicts (drop_dup_content [] inp.rows) = true := by
  unfold build_uvl_from_structure
  by_cases h : detect_fatal_mapping_conflicts (drop_dup_content [] inp.rows)
  · simp [h]
  · simp [h]

/-! ## Claim C8 -/

/-- Rows mapping one item key to two distinct item feature names. -/
def C8bad : BuildInput :=
  { ns := "m"
    rows := [{ category_code := some "cat1", item_key := some "k1",
               item_feature_name := some "f1", answer_feature_name := some "yes",
               branch_feature_code := some "b1",
               audit_type_code := none, audit_plan_code := none },
             { category_code := some "cat1", item_key := some "k1",
               item_feature_name := some "f2", answer_feature_name := some "yes",
               branch_feature_code := some "b1",
               audit_type_code := none, audit_plan_code := none }]
    branch_profile := []
    scope_rules := none
    require_answers := true }

/-- A conflict-free single-item input. -/
def C8good : BuildInput :=
  { ns := "m"
    rows := [{ category_code := some "cat1", item_key := some "k1",
               item_feature_name := some "f1", answer_feature_name := some "yes",
               branch_feature_code := some "b1",
               audit_type_code := none, audit_plan_code := none }]
    branch_profile := []
    scope_rules := none
    require_answers := true }

/-- C8: given the five required columns, the build raises the fatal
`StructuralCorruption` error — producing no output lines — exactly when,
on the content rows deduplicated by (category, item key, item feature,
answer feature), some item key maps to more than one item feature name or
some item feature name maps to more than one item key; otherwise the
build completes with output lines. -/
theorem C8_structural_corruption_exact (inp : BuildInput) :
    ((∃ e, build_uvl_from_structure inp = Except.error e) ↔
      mapping_conflict_prop (drop_dup_content [] inp.rows)) ∧
    (¬ mapping_conflict_prop (drop_dup_content [] inp.rows) →
      ∃ ls, build_uvl_from_structure inp = Except.ok ls) := by
  constructor
  · rw [build_error_iff, detect_iff]
  · intro h
    have hd : ¬ detect_fatal_mapping_conflicts
        (drop_dup_content [] inp.rows) = true :=
      fun hh => h ((detect_iff _).mp hh)
    unfold build_uvl_from_structure
    simp [hd]

/-- Witness for `C8_structural_corruption_exact`: the conflicting input
aborts, the single-valued input builds. -/
theorem C8_structural_corruption_exact_witness :
    (mapping_conflict_prop (drop_dup_content [] C8bad.rows) ∧
      ∃ e, build_uvl_from_structure C8bad = Except.error e) ∧
    (¬ mapping_conflict_prop (drop_dup_content [] C8good.rows) ∧
      ∃ ls, build_uvl_from_structure C8good = Except.ok ls) :=
  ⟨⟨by decide, (C8_structural_corruption_exact C8bad).1.mpr (by decide)⟩,
   ⟨by decide, (C8_structural_corruption_exact C8good).2 (by decide)⟩⟩

/-! ## Claim C10 -/

/-- A scope rule emits identical lines under `require` and `forbid`. -/
theorem scope_rule_lines_require_forbid (vf : List String) (r : ScopeRule) :
    scope_rule_lines vf { r with action := "require" } =
      scope_rule_lines vf { r with action := "forbid" } := by
  unfold scope_rule_lines
  have h1 : String.mk (toLowerC (trimC ("require" : String).data)) =
      "require" := rfl
  have h2 : String.mk (toLowerC (trimC ("forbid" : String).data)) =
      "forbid" := rfl
  simp only [h1, h2]
  have hr : ("require" : String) ≠ "" := by decide
  have hf : ("forbid" : String) ≠ "" := by decide
  simp [hr, hf]

/-- A scope rule whose normalized action is neither `require` nor
`forbid` emits no line. -/
theorem scope_rule_lines_other (vf : List String) (r : ScopeRule)
    (h : String.mk (toLowerC (trimC r.action.data)) ∉
      (["require", "forbid"] : List String)) :
    scope_rule_lines vf r = [] := by
  unfold scope_rule_lines
  have hne1 : ¬ String.mk (toLowerC (trimC r.action.data)) = "forbid" := by
    intro he
    exact h (by simp [he])
  have hne2 : ¬ String.mk (toLowerC (trimC r.action.data)) = "require" := by
    intro he
    exact h (by simp [he])
  by_cases he : String.mk (trimC r.target_code.data) = "" ∨
      String.mk (trimC r.capability_flag.data) = "" ∨
      String.mk (toLowerC (trimC r.action.data)) = ""
  · simp [he]
  · rw [if_neg he]
    by_cases hm : String.mk (trimC r.target_code.data) ∉ vf ∨
        String.mk (toLowerC (String.mk (trimC r.capability_flag.data)).data) ∉ vf
    · simp [hm]
    · rw [if_neg hm, if_neg (by simp [hne1, hne2])]

/-- Swapping one rule's action between `require` and `forbid` leaves the
whole emitted model text unchanged. -/
theorem build_swap_invariant (inp : BuildInput) (pre post : List ScopeRule)
    (r : ScopeRule) :
    build_uvl_from_structure
      { inp with scope_rules := some (pre ++ { r with action := "require" } :: post) } =
    build_uvl_from_structure
      { inp with scope_rules := some (pre ++ { r with action := "forbid" } :: post) } := by
  unfold build_uvl_from_structure
  by_cases h : detect_fatal_mapping_conflicts (drop_dup_content [] inp.rows)
  · simp [h]
  · simp only [h, Bool.false_eq_true, if_false, List.map_append,
      List.map_cons, scope_rule_lines_require_forbid]

/-- C10: a scope rule with action `forbid` emits exactly the same lines
as the identical rule with action `require`, the whole build output is
invariant under swapping one rule's action between the two, and any rule
whose (stripped, lowercased) action is neither `require` nor `forbid` —
`allow`, `permit`, `none` or anything else — emits no constraint. -/
theorem C10_require_forbid_equivalent :
    (∀ (vf : List String) (r : ScopeRule),
      scope_rule_lines vf { r with action := "require" } =
        scope_rule_lines vf { r with action := "forbid" }) ∧
    (∀ (inp : BuildInput) (pre post : List ScopeRule) (r : ScopeRule),
      build_uvl_from_structure
        { inp with scope_rules := some (pre ++ { r with action := "require" } :: post) } =
      build_uvl_from_structure
        { inp with scope_rules := some (pre ++ { r with action := "forbid" } :: post) }) ∧
    (∀ (vf : List String) (r : ScopeRule),
      String.mk (toLowerC (trimC r.action.data)) ∉
        (["require", "forbid"] : List String) →
      scope_rule_lines vf r = []) :=
  ⟨scope_rule_lines_require_forbid, build_swap_invariant,
    scope_rule_lines_other⟩

/-- Witness for `C10_require_forbid_equivalent`: a concrete valid rule
emits exactly the two constraint lines under both actions, and the listed
other actions emit nothing. -/
theorem C10_require_forbid_equivalent_witness :
    (scope_rule_lines ["iso_active", "cat1"]
        { capability_flag := "iso_active", target_code := "cat1",
          action := "require" } =
      scope_rule_lines ["iso_active", "cat1"]
        { capability_flag := "iso_active", target_code := "cat1",
          action := "forbid" }) ∧
    (scope_rule_lines ["iso_active", "cat1"]
        { capability_flag := "iso_active", target_code := "cat1",
          action := "forbid" } =
      ["    cat1 => iso_active", "    !iso_active => !cat1"]) ∧
    (scope_rule_lines ["iso_active", "cat1"]
        { capability_flag := "iso_active", target_code := "cat1",
          action := "allow" } = []) ∧
    (scope_rule_lines ["iso_active", "cat1"]
        { capability_flag := "iso_active", target_code := "cat1",
          action := "permit" } = []) ∧
    (scope_rule_lines ["iso_active", "cat1"]
        { capability_flag := "iso_active", target_code := "cat1",
          action := "none" } = []) ∧
    (scope_rule_lines ["iso_active", "cat1"]
        { capability_flag := "iso_active", target_code := "cat1",
          action := "whatever" } = []) :=
  ⟨C10_require_forbid_equivalent.1 ["iso_active", "cat1"]
      { capability_flag := "iso_active", target_code := "cat1",
        action := "forbid" },
   by decide,
   C10_require_forbid_equivalent.2.2 ["iso_active", "cat1"]
      { capability_flag := "iso_active", target_code := "cat1",
        action := "allow" } (by decide),
   C10_require_forbid_equivalent.2.2 ["iso_active", "cat1"]
      { capability_flag := "iso_active", target_code := "cat1",
        action := "permit" } (by decide),
   C10_require_forbid_equivalent.2.2 ["iso_active", "cat1"]
      { capability_flag := "iso_active", target_code := "cat1",
        action := "none" } (by decide),
   C10_require_forbid_equivalent.2.2 ["iso_active", "cat1"]
      { capability_flag := "iso_active", target_code := "cat1",
        action := "whatever" } (by decide)⟩

/-! ## UVL text → KR facts (validation_code/batch_uvl_to_kr.py)

The parser works on the file's lines, each represented as its character
list; strings are `List Char` throughout this section so that every
operation is structurally recursive and kernel-reducible. -/

/-- `FeatureNode` (lines 22-27). -/
structure PFeature where
  name : List Char
  is_abstract : Bool
  parent : Option (List Char)
deriving DecidableEq, Repr

/-- `Group` (lines 29-33). -/
structure PGroup where
  parent : List Char
  kind : List Char
  children : List (List Char)
deriving DecidableEq, Repr

/-- The three parser sections (`section` variable, line 78). -/
inductive PSect where
  | outside
  | features
  | constraints
deriving DecidableEq, Repr

/-- The parser's loop state: namespace, current section, the
(indent, feature) stack with the most recent entry first, the pending
group-kind dictionary keyed by indent, and the accumulated features,
groups and normalized constraints. -/
structure PState where
  nspace : List Char
  sect : PSect
  stack : List (Nat × List Char)
  pending : List (Nat × List Char)
  features : List PFeature
  groups : List PGroup
  constraints : List (List Char)
deriving DecidableEq, Repr

/-- The initial parser state. -/
def initPState : PState :=
  { nspace := [], sect := PSect.outside, stack := [], pending := [],
    features := [], groups := [], constraints := [] }

/-- The four group keywords (`GROUP_KINDS`, line 19). -/
def GROUP_KINDS : List (List Char) :=
  ["mandatory".data, "optional".data, "alternative".data, "or".data]

/-- Everything before the first occurrence of `sep`
(`s.split(sep, 1)[0]`). -/
def takeBefore (sep : List Char) : List Char → List Char
  | [] => []
  | c :: rest =>
    if isPrefixC sep (c :: rest) then []
    else c :: takeBefore sep rest

/-- `_strip_inline_comment` (lines 36-40): drop `//` and `#` comments. -/
def strip_inline_comment (s : List Char) : List Char :=
  takeBefore "#".data (takeBefore "//".data s)

/-- A non-empty identifier (`[A-Za-z_][A-Za-z0-9_]*` matching the whole
string). -/
def isIdentC : List Char → Bool
  | [] => false
  | c :: rest => isIdentStart c && rest.all isIdentChar

/-- `_parse_feature_decl` (lines 43-50): `name` or `name {abstract}`,
with optional surrounding whitespace, else a parse error (`none`). -/
def parse_feature_decl (t0 : List Char) : Option (List Char × Bool) :=
  match trimC t0 with
  | [] => none
  | c :: rest =>
    if isIdentStart c then
      let name := c :: rest.takeWhile isIdentChar
      let rest2 := (rest.dropWhile isIdentChar).dropWhile isPyWs
      if rest2 = [] then some (name, false)
      else
        if isPrefixC "{abstract}".data rest2 ∧
            (rest2.drop 10).all isPyWs then some (name, true)
        else none
    else none

/-- Fuelled worker for the `!ident` → `not(ident)` substitution of
`_normalize_constraint` (line 59): regex `!\s*([A-Za-z_][A-Za-z0-9_]*)`.
Each step consumes at least one character, so fuel `length + 1` never
runs out. -/
def bangReplF : Nat → List Char → List Char
  | 0, _ => []
  | _ + 1, [] => []
  | fuel + 1, c :: rest =>
    if c = '!' then
      match rest.dropWhile isPyWs with
      | d :: rest2 =>
        if isIdentStart d then
          "not(".data ++ (d :: rest2.takeWhile isIdentChar) ++ ")".data ++
            bangReplF fuel (rest2.dropWhile isIdentChar)
        else c :: bangReplF fuel rest
      | [] => c :: bangReplF fuel rest
    else c :: bangReplF fuel rest

/-- The `!ident` → `not(ident)` substitution. -/
def bangRepl (l : List Char) : List Char :=
  bangReplF (l.length + 1) l

/-- Fuelled worker for the whitespace collapse of
`_normalize_constraint` (line 62): `re.sub(r"\s+", " ", s)`. -/
def collapseWsF : Nat → List Char → List Char
  | 0, _ => []
  | _ + 1, [] => []
  | fuel + 1, c :: rest =>
    if isPyWs c then ' ' :: collapseWsF fuel (rest.dropWhile isPyWs)
    else c :: collapseWsF fuel rest

/-- The whitespace collapse. -/
def collapseWs (l : List Char) : List Char :=
  collapseWsF (l.length + 1) l

/-- `_normalize_constraint` (lines 53-63). -/
def normalize_constraint (l : List Char) : Option (List Char) :=
  let s := trimC l
  if s = [] then none
  else some (trimC (collapseWs (bangRepl s)))

/-- `current_parent` (lines 90-95): the closest stack feature with a
smaller indent. -/
def current_parent : List (Nat × List Char) → Nat → Option (List Char)
  | [], _ => none
  | (i, n) :: rest, indent =>
    if i < indent then some n else current_parent rest indent

/-- Dictionary update `pending_group_kind[indent] = kind`. -/
def pending_set : List (Nat × List Char) → Nat → List Char →
    List (Nat × List Char)
  | [], i, k => [(i, k)]
  | (j, v) :: rest, i, k =>
    if j = i then (j, k) :: rest else (j, v) :: pending_set rest i k

/-- `nearest_pending_group_indent` plus the dictionary lookup
(lines 97-101, 167-169): the pending entry with the largest indent below
the child's indent. -/
def nearest_pending (l : List (Nat × List Char)) (indent : Nat) :
    Option (Nat × List Char) :=
  l.foldl
    (fun acc e =>
      if e.1 < indent then
        match acc with
        | none => some e
        | some a => if a.1 < e.1 then some e else acc
      else acc)
    none

/-- `add_child_to_group` (lines 103-109): the first group with matching
parent and kind receives the child (deduplicated); otherwise a new group
is appended. -/
def add_child_to_group (groups : List PGroup)
    (parent kind child : List Char) : List PGroup :=
  match groups with
  | [] => [{ parent := parent, kind := kind, children := [child] }]
  | g :: gs =>
    if g.parent = parent ∧ g.kind = kind then
      (if child ∈ g.children then g
       else { g with children := g.children ++ [child] }) :: gs
    else g :: add_child_to_group gs parent kind child

/-- Pop the stack to the correct depth (lines 152-153). -/
def pop_stack (indent : Nat) : List (Nat × List Char) →
    List (Nat × List Char)
  | [] => []
  | (i, n) :: rest =>
    if indent ≤ i then pop_stack indent rest else (i, n) :: rest

/-- Ordered-dictionary insert/update for the features map
(lines 156-163): a new name is appended; an existing entry has its
abstract flag set when the new line is abstract and its parent replaced
when a parent was found. -/
def update_features (fs : List PFeature) (name : List Char)
    (isAbs : Bool) (parent : Option (List Char)) : List PFeature :=
  match fs with
  | [] => [{ name := name, is_abstract := isAbs, parent := parent }]
  | f :: rest =>
    if f.name = name then
      { f with
        is_abstract := f.is_abstract || isAbs
        parent := match parent with
          | some q => some q
          | none => f.parent } :: rest
    else f :: update_features rest name isAbs parent

/-- Processing of one line of the file (the body of the `for raw in
lines` loop, lines 111-170). -/
def parse_line (st : PState) (raw : List Char) :
    Except (List Char) PState :=
  let stripped := trimC (strip_inline_comment raw)
  if stripped = [] then Except.ok st
  else if isPrefixC "namespace ".data (toLowerC stripped) then
    let value := trimC ((stripped.dropWhile (fun c => !isPyWs c)).dropWhile isPyWs)
    Except.ok { st with nspace := value }
  else if toLowerC stripped = "features".data then
    Except.ok { st with sect := PSect.features }
  else if toLowerC stripped = "constraints".data then
    Except.ok { st with sect := PSect.constraints }
  else if st.sect = PSect.constraints then
    let cs1 :=
      match normalize_constraint stripped with
      | some c => st.constraints ++ [c]
      | none => st.constraints
    Except.ok { st with constraints := cs1 }
  else if st.sect ≠ PSect.features then Except.ok st
  else
    let indent := (raw.takeWhile (fun c => c = ' ')).length
    if stripped ∈ GROUP_KINDS then
      Except.ok { st with pending := pending_set st.pending indent stripped }
    else
      match parse_feature_decl stripped with
      | none => Except.error ("Cannot parse feature declaration: ".data ++ stripped)
      | some (name, isAbs) =>
        let parent := current_parent st.stack indent
        let stack1 := (indent, name) :: pop_stack indent st.stack
        let features1 := update_features st.features name isAbs parent
        let groups1 :=
          match parent with
          | none => st.groups
          | some par =>
            match nearest_pending st.pending indent with
            | none => st.groups
            | some gi => add_child_to_group st.groups par gi.2 name
        Except.ok { st with stack := stack1, features := features1,
                            groups := groups1 }

/-- Sorted set of character lists (`sorted(set(...))`). -/
def insertSortedC (x : List Char) : List (List Char) → List (List Char)
  | [] => [x]
  | y :: ys => if leC x y then x :: y :: ys else y :: insertSortedC x ys

/-- Plain insertion sort for character lists. -/
def sortC (l : List (List Char)) : List (List Char) :=
  l.foldr insertSortedC []

/-- `sorted(set(children))` applied per group (lines 173-174). -/
def sortedSetC (l : List (List Char)) : List (List Char) :=
  sortC l.dedup

/-- `parse_uvl` (lines 66-176) over the file lines: fold the line
processor, then sort-deduplicate each group's children. -/
def parse_uvl (lines : List (List Char)) : Except (List Char) PState := do
  let st ← lines.foldlM parse_line initPState
  pure { st with groups :=
    st.groups.map (fun g => { g with children := sortedSetC g.children }) }

/-! ### KR fact emission (`emit_kr_facts`, lines 179-230)

A fact is modelled as structured data; the surrounding
`feature(...).`-style text rendering is injective and irrelevant to the
claims. -/

inductive Fact where
  | nsComment (ns : List Char)
  | feature (n : List Char)
  | abstractFact (n : List Char)
  | p (child parent : List Char)
  | group (parent kind : List Char) (children : List (List Char))
  | imp (lhs rhs : List Char)
  | equiv_or (lhs rhs : List Char)
  | constraint_raw (c : List Char)
deriving DecidableEq, Repr

/-- Split a character list at every `|` (Python `str.split("|")`). -/
def splitOnBar : List Char → List (List Char)
  | [] => [[]]
  | c :: rest =>
    if c = '|' then [] :: splitOnBar rest
    else
      match splitOnBar rest with
      | part :: parts => (c :: part) :: parts
      | [] => [[c]]

/-- Everything before and after the first occurrence of `sep`. -/
def splitFirst (sep : List Char) : List Char →
    Option (List Char × List Char)
  | [] => none
  | c :: rest =>
    if isPrefixC sep (c :: rest) then some ([], (c :: rest).drop sep.length)
    else
      match splitFirst sep rest with
      | some ab => some (c :: ab.1, ab.2)
      | none => none

/-- A literal of the imp regex: `not(ident)` or `ident`. -/
def isLitC (t : List Char) : Bool :=
  isIdentC t ||
    (isPrefixC "not(".data t && isSuffixC ")".data t &&
      isIdentC ((t.drop 4).take (t.length - 5)))

/-- The `A => B` regex of `emit_kr_facts` (lines 205-209) as a matcher:
both sides of the unique `=>` must be literals. -/
def parse_imp_fact (c : List Char) : Option (List Char × List Char) :=
  match splitFirst "=>".data c with
  | none => none
  | some ab =>
    let la := trimC ab.1
    let lb := trimC ab.2
    if isLitC la && isLitC lb then some (la, lb) else none

/-- The `A <=> (B | C | ...)` regex (lines 215-218) as a matcher. -/
def parse_equiv_fact (c : List Char) :
    Option (List Char × List (List Char)) :=
  match splitFirst "<=>".data c with
  | none => none
  | some ab =>
    let la := trimC ab.1
    let rb := trimC ab.2
    if isLitC la ∧ 3 ≤ rb.length ∧ isPrefixC "(".data rb ∧
        isSuffixC ")".data rb then
      some (la, ((splitOnBar ((rb.drop 1).take (rb.length - 2))).map
        trimC).filter (fun x => !(x == [])))
    else none

/-- The facts emitted for one normalized constraint (lines 203-228):
first the implication shape, then the equivalence shape, else a raw
fact. -/
def constraint_facts (c : List Char) : List Fact :=
  match parse_imp_fact c with
  | some lr => [Fact.imp lr.1 lr.2]
  | none =>
    match parse_equiv_fact c with
    | some lrs => lrs.2.map (fun r => Fact.equiv_or lrs.1 r)
    | none => [Fact.constraint_raw c]

/-- `emit_kr_facts` (lines 179-230): namespace comment, features (with
abstract facts) in sorted name order, parent links in sorted name order,
groups sorted by (parent, kind), then the constraint facts in order. -/
def emit_kr_facts (st : PState) : List Fact :=
  (if st.nspace = [] then [] else [Fact.nsComment st.nspace]) ++
  ((sortC (st.features.map (fun f => f.name))).map (fun n =>
    match st.features.find? (fun f => f.name = n) with
    | some f =>
      [Fact.feature n] ++ (if f.is_abstract then [Fact.abstractFact n] else [])
    | none => [])).flatten ++
  ((sortC (st.features.map (fun f => f.name))).map (fun n =>
    match st.features.find? (fun f => f.name = n) with
    | some f =>
      match f.parent with
      | some par => if par = [] then [] else [Fact.p n par]
      | none => []
    | none => [])).flatten ++
  ((st.groups.foldr (fun g acc => insertSortedByKey g acc) []).map
    (fun g => Fact.group g.parent g.kind g.children)) ++
  (st.constraints.map constraint_facts).flatten
where
  /-- Stable insertion for `sorted(groups, key=(parent, kind))`. -/
  insertSortedByKey (g : PGroup) : List PGroup → List PGroup
    | [] => [g]
    | h :: hs =>
      if (leC g.parent h.parent && !(g.parent == h.parent)) ||
          (g.parent == h.parent && leC g.kind h.kind) then g :: h :: hs
      else h :: insertSortedByKey g hs

/-! ### Hierarchical documents and their serialization

A well-formed hierarchical UVL text is the serialization of a feature
tree with group blocks and a constraints section, in the format of §4.2 /
§6 (4-space indentation, group keyword lines preceding their indented
child block, `name {abstract}` feature lines, `=>` and `<=> (· | ·)`
constraints with `!` negation — the exact shape `uvl_builder.py`
emits). -/

mutual
/-- A feature subtree: name, abstract flag, group blocks. -/
inductive FTree where
  | node (name : List Char) (isAbs : Bool) (gs : GList)
deriving DecidableEq, Repr

/-- The group blocks under one feature. -/
inductive GList where
  | nil
  | grp (kind : List Char) (cs : TList) (rest : GList)
deriving DecidableEq, Repr

/-- A list of child subtrees. -/
inductive TList where
  | nil
  | cons (t : FTree) (rest : TList)
deriving DecidableEq, Repr
end

/-- A textual constraint: implication or equivalence-or, over literals
`(polarity, name)`. -/
inductive DocConstraint where
  | imp (l r : Bool × List Char)
  | equiv (l : Bool × List Char) (rs : List (Bool × List Char))
deriving DecidableEq, Repr

/-- A hierarchical document: namespace, root feature tree,
constraints. -/
structure UVLDoc where
  nspace : List Char
  root : FTree
  constraints : List DocConstraint
deriving Repr

/-- Four spaces per depth level. -/
def indC (n : Nat) : List Char :=
  List.replicate (4 * n) ' '

mutual
/-- Serialize a feature subtree at depth `d`: the feature line, then the
group blocks (keyword at `d + 1`, children at `d + 2`). -/
def renderTree (d : Nat) : FTree → List (List Char)
  | .node n a gs =>
    (indC d ++ n ++ (if a then " {abstract}".data else [])) ::
      renderGroups d gs

/-- Serialize the group blocks of a feature at depth `d`. -/
def renderGroups (d : Nat) : GList → List (List Char)
  | .nil => []
  | .grp k cs rest =>
    ((indC (d + 1) ++ k) :: renderChildren d cs) ++ renderGroups d rest

/-- Serialize the children of a group block (the parent sits at depth
`d`). -/
def renderChildren (d : Nat) : TList → List (List Char)
  | .nil => []
  | .cons t rest => renderTree (d + 2) t ++ renderChildren d rest
end

/-- Render a literal: `name` or `!name`. -/
def renderLit (l : Bool × List Char) : List Char :=
  if l.1 then l.2 else '!' :: l.2

/-- The canonical normalized form of a literal: `name` or
`not(name)`. -/
def litCanon (l : Bool × List Char) : List Char :=
  if l.1 then l.2 else "not(".data ++ l.2 ++ ")".data

/-- `" | ".join` on character lists. -/
def joinBarC : List (List Char) → List Char
  | [] => []
  | [x] => x
  | x :: y :: ys => x ++ " | ".data ++ joinBarC (y :: ys)

/-- Serialize a constraint. -/
def renderConstraint : DocConstraint → List Char
  | .imp l r => renderLit l ++ " => ".data ++ renderLit r
  | .equiv l rs =>
    renderLit l ++ " <=> (".data ++ joinBarC (rs.map renderLit) ++ ")".data

/-- Serialize a whole document. -/
def renderDoc (doc : UVLDoc) : List (List Char) :=
  ["namespace ".data ++ doc.nspace, [], "features".data] ++
    renderTree 1 doc.root ++ [[], "constraints".data] ++
    doc.constraints.map (fun c => indC 1 ++ renderConstraint c)

mutual
/-- The features of a subtree with their abstract flags. -/
def treeFeatures : FTree → List (List Char × Bool)
  | .node n a gs => (n, a) :: groupsFeatures gs

def groupsFeatures : GList → List (List Char × Bool)
  | .nil => []
  | .grp _ cs rest => childrenFeatures cs ++ groupsFeatures rest

def childrenFeatures : TList → List (List Char × Bool)
  | .nil => []
  | .cons t rest => treeFeatures t ++ childrenFeatures rest
end

mutual
/-- The parent links of a subtree: `(child, parent)` for every edge. -/
def treeLinks : FTree → List (List Char × List Char)
  | .node n _ gs => groupsLinks n gs

def groupsLinks (par : List Char) : GList → List (List Char × List Char)
  | .nil => []
  | .grp _ cs rest => childrenLinks par cs ++ groupsLinks par rest

def childrenLinks (par : List Char) : TList → List (List Char × List Char)
  | .nil => []
  | .cons t rest =>
    match t with
    | .node n _ _ => (n, par) :: (treeLinks t ++ childrenLinks par rest)
end

mutual
/-- The group-membership triples of a subtree:
`(parent, kind, child)`. -/
def treeTriples : FTree → List (List Char × List Char × List Char)
  | .node n _ gs => groupsTriples n gs

def groupsTriples (par : List Char) : GList →
    List (List Char × List Char × List Char)
  | .nil => []
  | .grp k cs rest => childrenTriples par k cs ++ groupsTriples par rest

def childrenTriples (par k : List Char) : TList →
    List (List Char × List Char × List Char)
  | .nil => []
  | .cons t rest =>
    match t with
    | .node n _ _ => (par, k, n) :: (treeTriples t ++ childrenTriples par k rest)
end

/-- A good feature name: an identifier that cannot be mistaken for a
group keyword, a section header or a namespace declaration by the
parser. -/
def goodName (n : List Char) : Bool :=
  isIdentC n && n ∉ GROUP_KINDS &&
    toLowerC n ≠ "features".data && toLowerC n ≠ "constraints".data &&
    toLowerC n ≠ "namespace".data

mutual
/-- Well-formedness of a subtree: good names, known group kinds. -/
def wfTree : FTree → Bool
  | .node n _ gs => goodName n && wfGroups gs

def wfGroups : GList → Bool
  | .nil => true
  | .grp k cs rest => k ∈ GROUP_KINDS && wfChildren cs && wfGroups rest

def wfChildren : TList → Bool
  | .nil => true
  | .cons t rest => wfTree t && wfChildren rest
end

/-- A well-formed literal: an identifier name that cannot make its
constraint line look like a namespace declaration. -/
def wfLit (l : Bool × List Char) : Bool :=
  isIdentC l.2 && toLowerC l.2 ≠ "namespace".data

/-- Well-formedness of a constraint: identifier literals, and a
non-empty right-hand side for equivalences. -/
def wfConstraint : DocConstraint → Bool
  | .imp l r => wfLit l && wfLit r
  | .equiv l rs => wfLit l && !(rs == []) && rs.all wfLit

/-- Well-formedness of a document: identifier namespace, well-formed
tree and constraints. -/
def wfDoc (doc : UVLDoc) : Bool :=
  isIdentC doc.nspace && wfTree doc.root &&
    doc.constraints.all wfConstraint

/-! ### Character and list facts -/

theorem ws_cases {c : Char} (h : isPyWs c = true) :
    c = ' ' ∨ c = '\t' ∨ c = '\n' ∨ c = '\x0d' ∨ c = '\x0b' ∨ c = '\x0c' := by
  have h2 := h
  simp only [isPyWs, Bool.or_eq_true, decide_eq_true_eq] at h2
  tauto

theorem identChar_not_ws {c : Char} (h : isIdentChar c = true) :
    isPyWs c = false := by
  by_contra hws
  rcases ws_cases (by simpa using hws) with rfl | rfl | rfl | rfl | rfl | rfl <;>
    simp [isIdentChar] at h

theorem identStart_identChar {c : Char} (h : isIdentStart c = true) :
    isIdentChar c = true := by
  unfold isIdentStart at h
  unfold isIdentChar
  rcases Bool.or_eq_true_iff.mp h with h | h
  · simp [h]
  · simp [h]

theorem isIdentC_shape {n : List Char} (h : isIdentC n = true) :
    ∃ c rest, n = c :: rest ∧ isIdentStart c = true ∧
      rest.all isIdentChar = true := by
  cases n with
  | nil => simp [isIdentC] at h
  | cons c rest =>
    have h2 : isIdentStart c = true ∧ ∀ x ∈ rest, isIdentChar x = true := by
      simpa [isIdentC, Bool.and_eq_true, List.all_eq_true] using h
    exact ⟨c, rest, rfl, h2.1, List.all_eq_true.mpr h2.2⟩

theorem isIdentC_all {n : List Char} (h : isIdentC n = true) :
    ∀ x ∈ n, isIdentChar x = true := by
  obtain ⟨c, rest, rfl, hc, hrest⟩ := isIdentC_shape h
  intro x hx
  rcases List.mem_cons.mp hx with rfl | hx
  · exact identStart_identChar hc
  · exact (List.all_eq_true.mp hrest) x hx

theorem not_mem_of_not_identChar {n : List Char} {c : Char}
    (h : isIdentC n = true) (hc : isIdentChar c = false) : c ∉ n := by
  intro hmem
  rw [isIdentC_all h c hmem] at hc
  exact absurd hc (by simp)

theorem takeBefore_hash_eq_self {l : List Char} (h : '#' ∉ l) :
    takeBefore "#".data l = l := by
  induction l with
  | nil => rfl
  | cons c rest ih =>
    unfold takeBefore
    have hc : ¬ isPrefixC "#".data (c :: rest) = true := by
      show ¬ (('#' = c) && isPrefixC [] rest) = true
      simp only [Bool.and_eq_true, decide_eq_true_eq]
      rintro ⟨rfl, -⟩
      exact h (List.mem_cons_self _ _)
    rw [if_neg hc, ih (fun hm => h (List.mem_cons_of_mem c hm))]

theorem takeBefore_slash_eq_self {l : List Char} (h : '/' ∉ l) :
    takeBefore "//".data l = l := by
  induction l with
  | nil => rfl
  | cons c rest ih =>
    unfold takeBefore
    have hc : ¬ isPrefixC "//".data (c :: rest) = true := by
      show ¬ (('/' = c) && isPrefixC "/".data rest) = true
      simp only [Bool.and_eq_true, decide_eq_true_eq]
      rintro ⟨rfl, -⟩
      exact h (List.mem_cons_self _ _)
    rw [if_neg hc, ih (fun hm => h (List.mem_cons_of_mem c hm))]

theorem strip_inline_comment_eq_self {l : List Char}
    (h1 : '/' ∉ l) (h2 : '#' ∉ l) : strip_inline_comment l = l := by
  unfold strip_inline_comment
  rw [takeBefore_slash_eq_self h1, takeBefore_hash_eq_self h2]

theorem dropWhile_append_of_all {p : Char → Bool} {a b : List Char}
    (h : ∀ x ∈ a, p x = true) :
    List.dropWhile p (a ++ b) = List.dropWhile p b := by
  induction a with
  | nil => rfl
  | cons c rest ih =>
    rw [List.cons_append, List.dropWhile_cons,
      if_pos (h c (List.mem_cons_self _ _))]
    exact ih (fun x hx => h x (List.mem_cons_of_mem c hx))

theorem takeWhile_append_of_all {p : Char → Bool} {a b : List Char}
    (h : ∀ x ∈ a, p x = true) :
    List.takeWhile p (a ++ b) = a ++ List.takeWhile p b := by
  induction a with
  | nil => rfl
  | cons c rest ih =>
    rw [List.cons_append, List.takeWhile_cons,
      if_pos (h c (List.mem_cons_self _ _)), ih
      (fun x hx => h x (List.mem_cons_of_mem c hx)), List.cons_append]

theorem dropWhile_cons_of_neg {p : Char → Bool} {c : Char} {l : List Char}
    (h : p c = false) : List.dropWhile p (c :: l) = c :: l := by
  rw [List.dropWhile_cons, if_neg (by simp [h])]

theorem takeWhile_cons_of_neg {p : Char → Bool} {c : Char} {l : List Char}
    (h : p c = false) : List.takeWhile p (c :: l) = [] := by
  rw [List.takeWhile_cons, if_neg (by simp [h])]

/-- `trimC` fixes a list whose first and last characters are not
whitespace. -/
theorem trimC_eq_self {l : List Char}
    (hf : ∀ c, l.head? = some c → isPyWs c = false)
    (hb : ∀ c, l.getLast? = some c → isPyWs c = false) : trimC l = l := by
  unfold trimC
  cases l with
  | nil => rfl
  | cons c rest =>
    rw [dropWhile_cons_of_neg (hf c rfl)]
    cases hrev : (c :: rest).reverse with
    | nil => exact absurd (congrArg List.length hrev) (by simp)
    | cons d ds =>
      have hdws : isPyWs d = false := by
        apply hb
        rw [← List.head?_reverse, hrev]
        rfl
      rw [dropWhile_cons_of_neg hdws, ← hrev, List.reverse_reverse]

/-- Leading spaces are removed by `trimC`. -/
theorem trimC_indent {d : Nat} {l : List Char} :
    trimC (indC d ++ l) = trimC l := by
  unfold trimC indC
  rw [dropWhile_append_of_all (by
    intro x hx
    rw [List.eq_of_mem_replicate hx]
    rfl)]

theorem toLowerC_append (a b : List Char) :
    toLowerC (a ++ b) = toLowerC a ++ toLowerC b :=
  List.map_append _ a b

theorem isPrefixC_refl_append (p rest : List Char) :
    isPrefixC p (p ++ rest) = true := by
  induction p with
  | nil => rfl
  | cons c cs ih => simpa [isPrefixC] using ih

theorem mem_of_isPrefixC {p l : List Char} (h : isPrefixC p l = true) :
    ∀ c ∈ p, c ∈ l := by
  induction p generalizing l with
  | nil => simp
  | cons a as ih =>
    cases l with
    | nil => simp [isPrefixC] at h
    | cons b bs =>
      simp only [isPrefixC, Bool.and_eq_true, decide_eq_true_eq] at h
      intro c hc
      rcases List.mem_cons.mp hc with rfl | hc
      · rw [h.1]
        exact List.mem_cons_self _ _
      · exact List.mem_cons_of_mem b (ih h.2 c hc)


theorem toNat_ofNat_valid {m : Nat} (h1 : 97 ≤ m) (h2 : m ≤ 122) :
    (Char.ofNat m).toNat = m := by
  unfold Char.ofNat
  rw [dif_pos (by unfold Nat.isValidChar; omega)]
  show (Char.ofNatAux m _).toNat = m
  unfold Char.ofNatAux Char.toNat
  simp only [UInt32.toNat]
  exact BitVec.toNat_ofNatLt _ _

theorem ws_toNat_le {c : Char} (h : isPyWs c = true) : c.toNat ≤ 32 := by
  rcases ws_cases h with rfl | rfl | rfl | rfl | rfl | rfl <;> decide

theorem toLower_not_ws_of_identChar {c : Char} (h : isIdentChar c = true) :
    isPyWs (Char.toLower c) = false := by
  by_cases hu : 65 ≤ c.toNat ∧ c.toNat ≤ 90
  · by_contra hws
    have hws' : isPyWs (Char.toLower c) = true := by simpa using hws
    have h32 := ws_toNat_le hws'
    have heq : Char.toLower c = Char.ofNat (c.toNat + 32) := by
      unfold Char.toLower
      rw [if_pos ⟨hu.1, hu.2⟩]
    rw [heq, toNat_ofNat_valid (by omega) (by omega)] at h32
    omega
  · have heq : Char.toLower c = c := by
      unfold Char.toLower
      rw [if_neg (by omega)]
    rw [heq]
    exact identChar_not_ws h

theorem toLowerC_ws_not_mem {l : List Char}
    (hid : ∀ x ∈ l, isIdentChar x = true) {c : Char} (hc : isPyWs c = true) :
    c ∉ toLowerC l := by
  intro hmem
  obtain ⟨x, hx, hlx⟩ := List.mem_map.mp hmem
  have hf := toLower_not_ws_of_identChar (hid x hx)
  rw [hlx] at hf
  rw [hf] at hc
  exact absurd hc (by simp)

theorem isPrefixC_take {p l : List Char} (h : isPrefixC p l = true) :
    l.take p.length = p := by
  induction p generalizing l with
  | nil => rfl
  | cons a as ih =>
    cases l with
    | nil => simp [isPrefixC] at h
    | cons b bs =>
      simp only [isPrefixC, Bool.and_eq_true, decide_eq_true_eq] at h
      simp [List.take_cons, ih h.2, h.1.symm]

theorem not_namespace_pfx {n sfx : List Char}
    (hid : isIdentC n = true) (hlow : toLowerC n ≠ "namespace".data)
    (hsfx : sfx = [] ∨ sfx.head? = some ' ') :
    isPrefixC "namespace ".data (toLowerC (n ++ sfx)) = false := by
  by_contra hpre
  have hpre' : isPrefixC "namespace ".data (toLowerC (n ++ sfx)) = true := by
    simpa using hpre
  have htake := isPrefixC_take hpre'
  have h10 : ("namespace ".data).length = 10 := by decide
  rw [toLowerC_append, h10] at htake
  have hlenl : (toLowerC n).length = n.length := List.length_map _ _
  by_cases hlen : 10 ≤ n.length
  · rw [List.take_append_eq_append_take] at htake
    have h0 : 10 - (toLowerC n).length = 0 := by omega
    rw [h0, List.take_zero, List.append_nil] at htake
    have hmem : ' ' ∈ (toLowerC n).take 10 := by
      rw [htake]
      decide
    exact toLowerC_ws_not_mem (isIdentC_all hid) (by decide)
      (List.mem_of_mem_take hmem)
  · push_neg at hlen
    rcases hsfx with rfl | hhead
    · rw [show toLowerC ([] : List Char) = [] from rfl, List.append_nil] at htake
      have hl := congrArg List.length htake
      simp only [List.length_take, hlenl, h10] at hl
      omega
    · obtain ⟨sfx2, rfl⟩ : ∃ s, sfx = ' ' :: s := by
        cases sfx with
        | nil => simp at hhead
        | cons a s =>
          simp only [List.head?_cons, Option.some_inj] at hhead
          exact ⟨s, by rw [hhead]⟩
      have hlsp : toLowerC (' ' :: sfx2) = ' ' :: toLowerC sfx2 := by
        show Char.toLower ' ' :: List.map Char.toLower sfx2 = ' ' :: toLowerC sfx2
        rw [show Char.toLower ' ' = ' ' from by decide]
        rfl
      rw [hlsp, List.take_append_eq_append_take,
        List.take_all_of_le (by omega)] at htake
      obtain ⟨m, hm⟩ : ∃ m, 10 - (toLowerC n).length = m + 1 := by
        refine ⟨9 - (toLowerC n).length, by omega⟩
      rw [hm, List.take_succ_cons] at htake
      by_cases h9 : n.length = 9
      · have htake9 := congrArg (List.take 9) htake
        rw [List.take_append_eq_append_take,
          List.take_all_of_le (by omega)] at htake9
        have hz : 9 - (toLowerC n).length = 0 := by omega
        rw [hz, List.take_zero, List.append_nil] at htake9
        exact hlow (htake9.trans (by decide))
      · have hk := congrArg (fun l => l[n.length]?) htake
        simp only at hk
        rw [List.getElem?_append_right (by omega)] at hk
        have hz : n.length - (toLowerC n).length = 0 := by omega
        rw [hz] at hk
        have hval : ("namespace ".data)[n.length]? = some ' ' := by
          rw [← hk]
          simp
        have hsplit : ("namespace ".data)[n.length]? =
            ("namespace".data)[n.length]? := by
          show (("namespace".data) ++ [' '])[n.length]? = _
          rw [List.getElem?_append_left (by simp; omega)]
        rw [hsplit] at hval
        have hmem : ' ' ∈ "namespace".data := List.getElem?_mem hval
        exact absurd hmem (by decide)

end Medicare

namespace Medicare

theorem goodName_unpack {n : List Char} (h : goodName n = true) :
    isIdentC n = true ∧ n ∉ GROUP_KINDS ∧
      toLowerC n ≠ "features".data ∧ toLowerC n ≠ "constraints".data ∧
      toLowerC n ≠ "namespace".data := by
  unfold goodName at h
  simp only [Bool.and_eq_true, decide_eq_true_eq] at h
  tauto

theorem neq_of_mem_not_mem {a : Char} {l1 l2 : List Char}
    (h1 : a ∈ l1) (h2 : a ∉ l2) : l1 ≠ l2 := by
  rintro rfl
  exact h2 h1

theorem ident_not_space {c : Char} (h : isIdentChar c = true) :
    (c = ' ') = False := by
  simp only [eq_iff_iff, iff_false]
  rintro rfl
  simp [isIdentChar] at h

/-- The suffix of a feature line: nothing or the abstract marker. -/
def absSfx (abs : Bool) : List Char :=
  if abs then " {abstract}".data else []

theorem slash_not_mem_feature_raw {e : Nat} {n : List Char} {abs : Bool}
    (hid : isIdentC n = true) :
    '/' ∉ indC e ++ (n ++ absSfx abs) := by
  intro h
  rcases List.mem_append.mp h with h | h
  · exact absurd (List.eq_of_mem_replicate h) (by decide)
  · rcases List.mem_append.mp h with h | h
    · exact not_mem_of_not_identChar hid (by decide) h
    · unfold absSfx at h
      cases abs with
      | false => simp at h
      | true =>
        rw [if_pos rfl] at h
        exact absurd h (by decide)

theorem hash_not_mem_feature_raw {e : Nat} {n : List Char} {abs : Bool}
    (hid : isIdentC n = true) :
    '#' ∉ indC e ++ (n ++ absSfx abs) := by
  intro h
  rcases List.mem_append.mp h with h | h
  · exact absurd (List.eq_of_mem_replicate h) (by decide)
  · rcases List.mem_append.mp h with h | h
    · exact not_mem_of_not_identChar hid (by decide) h
    · unfold absSfx at h
      cases abs with
      | false => simp at h
      | true =>
        rw [if_pos rfl] at h
        exact absurd h (by decide)

theorem trim_name_sfx {n : List Char} {abs : Bool}
    (hid : isIdentC n = true) : trimC (n ++ absSfx abs) = n ++ absSfx abs := by
  obtain ⟨c, rest, rfl, hc, -⟩ := isIdentC_shape hid
  apply trimC_eq_self
  · intro d hd
    simp only [List.cons_append, List.head?_cons, Option.some_inj] at hd
    rw [← hd]
    exact identChar_not_ws (identStart_identChar hc)
  · intro d hd
    unfold absSfx at hd
    cases abs with
    | false =>
      rw [if_neg Bool.false_ne_true, List.append_nil] at hd
      have hmem := List.mem_of_mem_getLast? hd
      exact identChar_not_ws (isIdentC_all hid d hmem)
    | true =>
      rw [if_pos rfl, List.getLast?_append] at hd
      have : (" {abstract}".data).getLast? = some '}' := by decide
      rw [this] at hd
      simp only [Option.or_some, Option.some_inj] at hd
      rw [← hd]
      decide

end Medicare

namespace Medicare

theorem parse_feature_decl_name {n : List Char} {abs : Bool}
    (hid : isIdentC n = true) :
    parse_feature_decl (n ++ absSfx abs) = some (n, abs) := by
  obtain ⟨c, rest, rfl, hc, hrest⟩ := isIdentC_shape hid
  unfold parse_feature_decl
  rw [trim_name_sfx hid]
  have hall : ∀ x ∈ rest, isIdentChar x = true := List.all_eq_true.mp hrest
  cases abs with
  | false =>
    rw [show absSfx false = [] from rfl, List.append_nil]
    simp only [List.cons_append]  -- no-op shape
    rw [if_pos hc]
    have ht : rest.takeWhile isIdentChar = rest := List.takeWhile_eq_self_iff.mpr hall
    have hd : rest.dropWhile isIdentChar = [] := List.dropWhile_eq_nil_iff.mpr hall
    rw [ht, hd]
    rfl
  | true =>
    rw [show absSfx true = " {abstract}".data from rfl]
    simp only [List.cons_append]
    rw [if_pos hc]
    have ht : List.takeWhile isIdentChar (rest ++ " {abstract}".data) = rest := by
      rw [takeWhile_append_of_all hall, takeWhile_cons_of_neg (by decide)]
      simp
    have hd : List.dropWhile isIdentChar (rest ++ " {abstract}".data) =
        " {abstract}".data := by
      rw [dropWhile_append_of_all hall, dropWhile_cons_of_neg (by decide)]
    rw [ht, hd]
    have : List.dropWhile isPyWs " {abstract}".data = "{abstract}".data := by decide
    rw [this]
    rw [if_neg (by decide), if_pos (by decide)]

end Medicare

namespace Medicare

theorem indent_of_feature_raw {e : Nat} {n : List Char} {abs : Bool}
    (hid : isIdentC n = true) :
    ((indC e ++ (n ++ absSfx abs)).takeWhile (fun c => c = ' ')).length = 4 * e := by
  obtain ⟨c, rest, rfl, hc, -⟩ := isIdentC_shape hid
  have h1 : List.takeWhile (fun c => c = ' ') (indC e ++ (c :: rest ++ absSfx abs)) =
      indC e ++ List.takeWhile (fun c => c = ' ') (c :: rest ++ absSfx abs) := by
    apply takeWhile_append_of_all
    intro x hx
    rw [List.eq_of_mem_replicate hx]
    simp
  rw [h1, List.cons_append, takeWhile_cons_of_neg (by
    have hcs : (c = ' ') = False := ident_not_space (identStart_identChar hc)
    simp [hcs])]
  simp [indC]

theorem abstract_brace_mem {n : List Char} :
    '{' ∈ toLowerC (n ++ " {abstract}".data) := by
  rw [toLowerC_append]
  refine List.mem_append.mpr (Or.inr ?_)
  decide

theorem parse_line_feature {st : PState} {e : Nat} {n : List Char} {abs : Bool}
    (hg : goodName n = true) (hsect : st.sect = PSect.features) :
    parse_line st (indC e ++ (n ++ absSfx abs)) =
      Except.ok { st with
        stack := (4 * e, n) :: pop_stack (4 * e) st.stack
        features := update_features st.features n abs
          (current_parent st.stack (4 * e))
        groups :=
          match current_parent st.stack (4 * e) with
          | none => st.groups
          | some par =>
            match nearest_pending st.pending (4 * e) with
            | none => st.groups
            | some gi => add_child_to_group st.groups par gi.2 n } := by
  have hup := goodName_unpack hg
  obtain ⟨hid, hkinds, hfe, hco, hns⟩ := hup
  have hstrip : strip_inline_comment (indC e ++ (n ++ absSfx abs)) =
      indC e ++ (n ++ absSfx abs) :=
    strip_inline_comment_eq_self (slash_not_mem_feature_raw hid)
      (hash_not_mem_feature_raw hid)
  have htrim : trimC (indC e ++ (n ++ absSfx abs)) = n ++ absSfx abs := by
    rw [trimC_indent, trim_name_sfx hid]
  have hne : ¬ n ++ absSfx abs = [] := by
    obtain ⟨c, rest, rfl, -, -⟩ := isIdentC_shape hid
    simp
  have hnspre : ¬ isPrefixC "namespace ".data (toLowerC (n ++ absSfx abs)) = true := by
    rw [not_namespace_pfx hid hns (by
      unfold absSfx
      cases abs with
      | false => exact Or.inl (by simp)
      | true => exact Or.inr (by rw [if_pos rfl]; rfl))]
    simp
  have hnfe : ¬ toLowerC (n ++ absSfx abs) = "features".data := by
    cases abs with
    | false => simpa [absSfx] using hfe
    | true =>
      rw [show absSfx true = " {abstract}".data from rfl]
      exact neq_of_mem_not_mem abstract_brace_mem (by decide)
  have hnco : ¬ toLowerC (n ++ absSfx abs) = "constraints".data := by
    cases abs with
    | false => simpa [absSfx] using hco
    | true =>
      rw [show absSfx true = " {abstract}".data from rfl]
      exact neq_of_mem_not_mem abstract_brace_mem (by decide)
  have hsc : ¬ st.sect = PSect.constraints := by
    rw [hsect]
    simp
  have hsf : ¬ st.sect ≠ PSect.features := by
    rw [hsect]
    simp
  have hgk : n ++ absSfx abs ∉ GROUP_KINDS := by
    cases abs with
    | false => simpa [absSfx] using hkinds
    | true =>
      rw [show absSfx true = " {abstract}".data from rfl]
      intro hmem
      have hbr : '{' ∈ n ++ " {abstract}".data :=
        List.mem_append.mpr (Or.inr (by decide))
      simp only [GROUP_KINDS, List.mem_cons, List.not_mem_nil, or_false] at hmem
      rcases hmem with h | h | h | h <;>
        · rw [h] at hbr
          exact absurd hbr (by decide)
  unfold parse_line
  rw [hstrip, htrim]
  rw [if_neg hne, if_neg hnspre, if_neg hnfe, if_neg hnco, if_neg hsc,
    if_neg hsf, indent_of_feature_raw hid]
  rw [if_neg hgk, parse_feature_decl_name hid]

end Medicare

namespace Medicare

theorem parse_line_blank (st : PState) : parse_line st [] = Except.ok st := rfl

theorem parse_line_features_header (st : PState) :
    parse_line st "features".data = Except.ok { st with sect := PSect.features } := by
  unfold parse_line
  rw [show strip_inline_comment "features".data = "features".data from by decide]
  rw [show trimC "features".data = "features".data from by decide]
  rw [if_neg (by decide), if_neg (by decide), if_pos (by decide)]

theorem parse_line_constraints_header (st : PState) :
    parse_line st "constraints".data =
      Except.ok { st with sect := PSect.constraints } := by
  unfold parse_line
  rw [show strip_inline_comment "constraints".data = "constraints".data from by decide]
  rw [show trimC "constraints".data = "constraints".data from by decide]
  rw [if_neg (by decide), if_neg (by decide), if_neg (by decide), if_pos (by decide)]

theorem parse_line_namespace (st : PState) {ns : List Char}
    (hns : isIdentC ns = true) :
    parse_line st ("namespace ".data ++ ns) =
      Except.ok { st with nspace := ns } := by
  obtain ⟨c, rest, hrfl, hc, hrest⟩ := isIdentC_shape hns
  have hstrip : strip_inline_comment ("namespace ".data ++ ns) =
      "namespace ".data ++ ns := by
    apply strip_inline_comment_eq_self
    · intro h
      rcases List.mem_append.mp h with h | h
      · exact absurd h (by decide)
      · exact not_mem_of_not_identChar hns (by decide) h
    · intro h
      rcases List.mem_append.mp h with h | h
      · exact absurd h (by decide)
      · exact not_mem_of_not_identChar hns (by decide) h
  have htrim : trimC ("namespace ".data ++ ns) = "namespace ".data ++ ns := by
    apply trimC_eq_self
    · intro d hd
      rw [show ("namespace ".data ++ ns).head? = some 'n' from rfl] at hd
      rw [← Option.some_inj.mp hd]
      decide
    · intro d hd
      rw [List.getLast?_append] at hd
      rw [hrfl, show (c :: rest).getLast? = some ((c :: rest).getLast (by simp)) from
        List.getLast?_eq_getLast _ _] at hd
      simp only [Option.or_some, Option.some_inj] at hd
      rw [← hd]
      exact identChar_not_ws (isIdentC_all hns _ (by
        rw [hrfl]
        exact List.getLast_mem _))
  have hne : ¬ "namespace ".data ++ ns = [] := by simp
  have hpre : isPrefixC "namespace ".data (toLowerC ("namespace ".data ++ ns)) = true := by
    rw [toLowerC_append,
      show toLowerC "namespace ".data = "namespace ".data from by decide]
    exact isPrefixC_refl_append _ _
  have hval : trimC ((("namespace ".data ++ ns).dropWhile
      (fun c => !isPyWs c)).dropWhile isPyWs) = ns := by
    rw [show "namespace ".data ++ ns = "namespace".data ++ (' ' :: ns) from by simp]
    rw [dropWhile_append_of_all (by decide)]
    rw [show List.dropWhile (fun c => !isPyWs c) (' ' :: ns) = ' ' :: ns from
      dropWhile_cons_of_neg (by decide)]
    rw [show List.dropWhile isPyWs (' ' :: ns) = List.dropWhile isPyWs ns from by
      rw [List.dropWhile_cons, if_pos (by decide)]]
    rw [hrfl, dropWhile_cons_of_neg (identChar_not_ws (identStart_identChar hc)),
      ← hrfl]
    have := @trim_name_sfx ns false hns
    simpa [absSfx] using this
  unfold parse_line
  rw [hstrip, htrim, if_neg hne, if_pos hpre, hval]

end Medicare

namespace Medicare

theorem stripped_of_ident_line {e : Nat} {t : List Char}
    (hid : isIdentC t = true) :
    trimC (strip_inline_comment (indC e ++ t)) = t := by
  have h0 : indC e ++ t = indC e ++ (t ++ absSfx false) := by simp [absSfx]
  rw [h0, strip_inline_comment_eq_self (slash_not_mem_feature_raw hid)
    (hash_not_mem_feature_raw hid), trimC_indent]
  have h1 := @trim_name_sfx t false hid
  simpa [absSfx] using h1

theorem indent_of_ident_line {e : Nat} {t : List Char}
    (hid : isIdentC t = true) :
    ((indC e ++ t).takeWhile (fun c => c = ' ')).length = 4 * e := by
  have h0 : indC e ++ t = indC e ++ (t ++ absSfx false) := by simp [absSfx]
  rw [h0]
  exact indent_of_feature_raw hid

theorem parse_line_group_kw {st : PState} {e : Nat} {k : List Char}
    (hk : k ∈ GROUP_KINDS) (hsect : st.sect = PSect.features) :
    parse_line st (indC e ++ k) =
      Except.ok { st with pending := pending_set st.pending (4 * e) k } := by
  have hsc : ¬ st.sect = PSect.constraints := by
    rw [hsect]
    simp
  have hsf : ¬ st.sect ≠ PSect.features := by
    rw [hsect]
    simp
  simp only [GROUP_KINDS, List.mem_cons, List.not_mem_nil, or_false] at hk
  rcases hk with rfl | rfl | rfl | rfl <;>
  · unfold parse_line
    rw [stripped_of_ident_line (by decide), indent_of_ident_line (by decide)]
    rw [if_neg (by decide), if_neg (by decide), if_neg (by decide),
      if_neg (by decide), if_neg hsc, if_neg hsf, if_pos (by decide)]

end Medicare

namespace Medicare

/-- The canonical normalized form of a rendered constraint, exactly as
`_normalize_constraint` rewrites it. -/
def canonC : DocConstraint → List Char
  | .imp l r => litCanon l ++ " => ".data ++ litCanon r
  | .equiv l rs =>
    litCanon l ++ " <=> (".data ++ joinBarC (rs.map litCanon) ++ ")".data

theorem head?_append_left {a b : List Char} {c : Char}
    (ha : a.head? = some c) : (a ++ b).head? = some c := by
  cases a with
  | nil => simp at ha
  | cons x xs => simpa using ha

theorem ne_nil_of_head? {l : List Char} {d : Char}
    (h : l.head? = some d) : ¬ l = [] := by
  cases l with
  | nil => simp at h
  | cons x xs => simp

theorem getLast?_append_right {a b : List Char} {c : Char}
    (hb : b.getLast? = some c) : (a ++ b).getLast? = some c := by
  rw [List.getLast?_append, hb]
  rfl

theorem length_dropWhile_le_self (p : Char → Bool) (l : List Char) :
    (l.dropWhile p).length ≤ l.length :=
  ((List.dropWhile_suffix p).sublist).length_le

theorem wfLit_unpack {x : Bool × List Char} (h : wfLit x = true) :
    isIdentC x.2 = true ∧ toLowerC x.2 ≠ "namespace".data := by
  unfold wfLit at h
  simpa [Bool.and_eq_true, decide_eq_true_eq] using h

theorem wfConstraint_imp_unpack {l r : Bool × List Char}
    (h : wfConstraint (.imp l r) = true) :
    wfLit l = true ∧ wfLit r = true := by
  simpa [wfConstraint, Bool.and_eq_true] using h

theorem wfConstraint_equiv_unpack {l : Bool × List Char}
    {rs : List (Bool × List Char)}
    (h : wfConstraint (.equiv l rs) = true) :
    wfLit l = true ∧ rs ≠ [] ∧ ∀ x ∈ rs, wfLit x = true := by
  simp only [wfConstraint, Bool.and_eq_true, List.all_eq_true,
    Bool.not_eq_true', beq_eq_false_iff_ne, ne_eq] at h
  tauto

theorem bangReplF_succ_cons (fuel : Nat) (c : Char) (rest : List Char) :
    bangReplF (fuel + 1) (c :: rest) =
      if c = '!' then
        match rest.dropWhile isPyWs with
        | d :: rest2 =>
          if isIdentStart d then
            "not(".data ++ (d :: rest2.takeWhile isIdentChar) ++ ")".data ++
              bangReplF fuel (rest2.dropWhile isIdentChar)
          else c :: bangReplF fuel rest
        | [] => c :: bangReplF fuel rest
      else c :: bangReplF fuel rest := rfl

theorem bangReplF_succ_bang (fuel : Nat) (rest : List Char) {d : Char}
    {rest2 : List Char} (hdw : rest.dropWhile isPyWs = d :: rest2)
    (hd : isIdentStart d = true) :
    bangReplF (fuel + 1) ('!' :: rest) =
      "not(".data ++ (d :: rest2.takeWhile isIdentChar) ++ ")".data ++
        bangReplF fuel (rest2.dropWhile isIdentChar) := by
  rw [bangReplF_succ_cons, if_pos rfl, hdw]
  simp only [hd, if_true]

theorem bangReplF_succ_bang_nil (fuel : Nat) {rest : List Char}
    (hdw : rest.dropWhile isPyWs = []) :
    bangReplF (fuel + 1) ('!' :: rest) = '!' :: bangReplF fuel rest := by
  rw [bangReplF_succ_cons, if_pos rfl, hdw]

theorem bangReplF_succ_bang_noident (fuel : Nat) {rest : List Char} {d : Char}
    {rest2 : List Char} (hdw : rest.dropWhile isPyWs = d :: rest2)
    (hd : ¬ isIdentStart d = true) :
    bangReplF (fuel + 1) ('!' :: rest) = '!' :: bangReplF fuel rest := by
  rw [bangReplF_succ_cons, if_pos rfl, hdw]
  simp only [if_neg hd]

theorem bangReplF_succ_nobang (fuel : Nat) {c : Char} (rest : List Char)
    (hc : ¬ c = '!') :
    bangReplF (fuel + 1) (c :: rest) = c :: bangReplF fuel rest := by
  rw [bangReplF_succ_cons, if_neg hc]

theorem bangReplF_congr : ∀ (f1 f2 : Nat) (l : List Char),
    l.length < f1 → l.length < f2 → bangReplF f1 l = bangReplF f2 l := by
  intro f1
  induction f1 with
  | zero => intro f2 l h1 h2; exact absurd h1 (by omega)
  | succ f ih =>
    intro f2 l h1 h2
    cases l with
    | nil =>
      cases f2 with
      | zero => exact absurd h2 (by omega)
      | succ g => rfl
    | cons c rest =>
      cases f2 with
      | zero => exact absurd h2 (by omega)
      | succ g =>
        have hr1 : rest.length < f := by
          simp only [List.length_cons] at h1
          omega
        have hr2 : rest.length < g := by
          simp only [List.length_cons] at h2
          omega
        by_cases hc : c = '!'
        · subst hc
          cases hdw : List.dropWhile isPyWs rest with
          | nil =>
            rw [bangReplF_succ_bang_nil f hdw, bangReplF_succ_bang_nil g hdw,
              ih g rest hr1 hr2]
          | cons d rest2 =>
            have hlen2 : rest2.length < rest.length := by
              have a2 := length_dropWhile_le_self isPyWs rest
              rw [hdw] at a2
              simp only [List.length_cons] at a2
              omega
            by_cases hd : isIdentStart d = true
            · have a1 := length_dropWhile_le_self isIdentChar rest2
              rw [bangReplF_succ_bang f rest hdw hd,
                bangReplF_succ_bang g rest hdw hd,
                ih g (List.dropWhile isIdentChar rest2) (by omega) (by omega)]
            · rw [bangReplF_succ_bang_noident f hdw hd,
                bangReplF_succ_bang_noident g hdw hd, ih g rest hr1 hr2]
        · rw [bangReplF_succ_nobang f rest hc, bangReplF_succ_nobang g rest hc,
            ih g rest hr1 hr2]

theorem bangRepl_nil : bangRepl [] = [] := rfl

theorem bangRepl_cons_skip {c : Char} {l : List Char} (hc : ¬ c = '!') :
    bangRepl (c :: l) = c :: bangRepl l := by
  unfold bangRepl
  rw [List.length_cons, bangReplF_succ_nobang (l.length + 1) l hc]

theorem bangRepl_append_skip (a : List Char) {l : List Char}
    (h : ∀ x ∈ a, ¬ x = '!') :
    bangRepl (a ++ l) = a ++ bangRepl l := by
  induction a with
  | nil => rfl
  | cons c rest ih =>
    rw [List.cons_append, bangRepl_cons_skip (h c (List.mem_cons_self _ _)),
      ih (fun x hx => h x (List.mem_cons_of_mem c hx)), List.cons_append]

theorem bangRepl_bang {n tail : List Char} (hid : isIdentC n = true)
    (htail : ∀ d, tail.head? = some d → isIdentChar d = false) :
    bangRepl ('!' :: (n ++ tail)) =
      "not(".data ++ n ++ ")".data ++ bangRepl tail := by
  obtain ⟨c, cs, rfl, hc, hcs⟩ := isIdentC_shape hid
  have hall : ∀ x ∈ cs, isIdentChar x = true := List.all_eq_true.mp hcs
  have htw : List.takeWhile isIdentChar (cs ++ tail) = cs := by
    rw [takeWhile_append_of_all hall]
    cases tail with
    | nil => simp
    | cons d t =>
      rw [takeWhile_cons_of_neg (htail d rfl)]
      simp
  have hdw2 : List.dropWhile isIdentChar (cs ++ tail) = tail := by
    rw [dropWhile_append_of_all hall]
    cases tail with
    | nil => rfl
    | cons d t => exact dropWhile_cons_of_neg (htail d rfl)
  have hdw : List.dropWhile isPyWs ((c :: cs) ++ tail) = c :: (cs ++ tail) := by
    rw [List.cons_append]
    exact dropWhile_cons_of_neg (identChar_not_ws (identStart_identChar hc))
  unfold bangRepl
  rw [List.length_cons,
    bangReplF_succ_bang (((c :: cs) ++ tail).length + 1) ((c :: cs) ++ tail) hdw hc,
    htw, hdw2,
    bangReplF_congr (((c :: cs) ++ tail).length + 1) (tail.length + 1) tail
      (by simp only [List.length_append, List.length_cons]; omega) (by omega)]

theorem bangRepl_lit (x : Bool × List Char) (tail : List Char)
    (h : wfLit x = true)
    (htail : ∀ d, tail.head? = some d → isIdentChar d = false) :
    bangRepl (renderLit x ++ tail) = litCanon x ++ bangRepl tail := by
  obtain ⟨hid, -⟩ := wfLit_unpack h
  by_cases hx : x.1 = true
  · rw [show renderLit x = x.2 from by unfold renderLit; rw [if_pos hx]]
    rw [show litCanon x = x.2 from by unfold litCanon; rw [if_pos hx]]
    exact bangRepl_append_skip x.2 (fun c hc => by
      have h1 := isIdentC_all hid c hc
      rintro rfl
      exact absurd h1 (by decide))
  · rw [show renderLit x = '!' :: x.2 from by unfold renderLit; rw [if_neg hx]]
    rw [show litCanon x = "not(".data ++ x.2 ++ ")".data from by
      unfold litCanon; rw [if_neg hx]]
    rw [List.cons_append, bangRepl_bang hid htail]

end Medicare

namespace Medicare

theorem litCanon_head {x : Bool × List Char} (h : wfLit x = true) :
    ∃ d, (litCanon x).head? = some d ∧ isPyWs d = false := by
  obtain ⟨hid, -⟩ := wfLit_unpack h
  obtain ⟨c, cs, hx2, hc, -⟩ := isIdentC_shape hid
  unfold litCanon
  by_cases hx : x.1 = true
  · rw [if_pos hx, hx2]
    exact ⟨c, rfl, identChar_not_ws (identStart_identChar hc)⟩
  · rw [if_neg hx]
    exact ⟨'n', head?_append_left (head?_append_left (by decide)), by decide⟩

theorem litCanon_last {x : Bool × List Char} (h : wfLit x = true) :
    ∃ d, (litCanon x).getLast? = some d ∧ isPyWs d = false := by
  obtain ⟨hid, -⟩ := wfLit_unpack h
  obtain ⟨c, cs, hx2, hc, -⟩ := isIdentC_shape hid
  have hne : x.2 ≠ [] := by rw [hx2]; simp
  have hlast : x.2.getLast? = some (x.2.getLast hne) :=
    List.getLast?_eq_getLast _ _
  have hwslast : isPyWs (x.2.getLast hne) = false :=
    identChar_not_ws (isIdentC_all hid _ (List.getLast_mem _))
  unfold litCanon
  by_cases hx : x.1 = true
  · rw [if_pos hx]
    exact ⟨_, hlast, hwslast⟩
  · rw [if_neg hx]
    exact ⟨')', getLast?_append_right (by decide), by decide⟩

theorem renderLit_head {x : Bool × List Char} (h : wfLit x = true) :
    ∃ d, (renderLit x).head? = some d ∧ isPyWs d = false := by
  obtain ⟨hid, -⟩ := wfLit_unpack h
  obtain ⟨c, cs, hx2, hc, -⟩ := isIdentC_shape hid
  unfold renderLit
  by_cases hx : x.1 = true
  · rw [if_pos hx, hx2]
    exact ⟨c, rfl, identChar_not_ws (identStart_identChar hc)⟩
  · rw [if_neg hx]
    exact ⟨'!', rfl, by decide⟩

theorem renderLit_last {x : Bool × List Char} (h : wfLit x = true) :
    ∃ d, (renderLit x).getLast? = some d ∧ isPyWs d = false := by
  obtain ⟨hid, -⟩ := wfLit_unpack h
  obtain ⟨c, cs, hx2, hc, -⟩ := isIdentC_shape hid
  have hne : x.2 ≠ [] := by rw [hx2]; simp
  have hlast : x.2.getLast? = some (x.2.getLast hne) :=
    List.getLast?_eq_getLast _ _
  have hwslast : isPyWs (x.2.getLast hne) = false :=
    identChar_not_ws (isIdentC_all hid _ (List.getLast_mem _))
  unfold renderLit
  by_cases hx : x.1 = true
  · rw [if_pos hx]
    exact ⟨_, hlast, hwslast⟩
  · rw [if_neg hx]
    refine ⟨_, ?_, hwslast⟩
    rw [show ('!' :: x.2) = ['!'] ++ x.2 from rfl]
    exact getLast?_append_right hlast

theorem joinBar_head {x : Bool × List Char} {L : List (List Char)}
    (hx : wfLit x = true) :
    ∃ d, (joinBarC (litCanon x :: L) ++ ")".data).head? = some d ∧
      isPyWs d = false := by
  obtain ⟨d, hd, hws⟩ := litCanon_head hx
  cases L with
  | nil =>
    refine ⟨d, ?_, hws⟩
    show (litCanon x ++ ")".data).head? = some d
    exact head?_append_left hd
  | cons y ys =>
    refine ⟨d, ?_, hws⟩
    show (litCanon x ++ " | ".data ++ joinBarC (y :: ys) ++
      ")".data).head? = some d
    exact head?_append_left (head?_append_left (head?_append_left hd))

theorem bangRepl_joinBar {rs : List (Bool × List Char)}
    (h : ∀ x ∈ rs, wfLit x = true) :
    bangRepl (joinBarC (rs.map renderLit) ++ ")".data) =
      joinBarC (rs.map litCanon) ++ ")".data := by
  induction rs with
  | nil => decide
  | cons r rest ih =>
    have hr := h r (List.mem_cons_self _ _)
    have hrest : ∀ x ∈ rest, wfLit x = true :=
      fun x hx => h x (List.mem_cons_of_mem r hx)
    cases rest with
    | nil =>
      simp only [List.map_cons, List.map_nil]
      show bangRepl (renderLit r ++ ")".data) = litCanon r ++ ")".data
      rw [bangRepl_lit r (")".data) hr (by
        intro d hd
        rw [show ((")".data : List Char)).head? = some ')' from by decide] at hd
        rw [← Option.some_inj.mp hd]
        decide)]
      rw [show bangRepl (")".data : List Char) = ")".data from by decide]
    | cons s ss =>
      simp only [List.map_cons] at ih ⊢
      rw [show joinBarC (renderLit r :: renderLit s :: List.map renderLit ss) =
        renderLit r ++ " | ".data ++
          joinBarC (renderLit s :: List.map renderLit ss) from rfl]
      rw [show joinBarC (litCanon r :: litCanon s :: List.map litCanon ss) =
        litCanon r ++ " | ".data ++
          joinBarC (litCanon s :: List.map litCanon ss) from rfl]
      simp only [List.append_assoc]
      rw [bangRepl_lit r (" | ".data ++
        (joinBarC (renderLit s :: List.map renderLit ss) ++ ")".data)) hr (by
        intro d hd
        rw [head?_append_left
          (show ((" | ".data : List Char)).head? = some ' ' from by decide)] at hd
        rw [← Option.some_inj.mp hd]
        decide)]
      rw [bangRepl_append_skip " | ".data (by decide)]
      rw [ih hrest]

theorem bangRepl_renderConstraint {dc : DocConstraint}
    (h : wfConstraint dc = true) :
    bangRepl (renderConstraint dc) = canonC dc := by
  cases dc with
  | imp l r =>
    obtain ⟨hl, hr⟩ := wfConstraint_imp_unpack h
    show bangRepl (renderLit l ++ " => ".data ++ renderLit r) =
      litCanon l ++ " => ".data ++ litCanon r
    simp only [List.append_assoc]
    rw [bangRepl_lit l (" => ".data ++ renderLit r) hl (by
      intro d hd
      rw [head?_append_left
        (show ((" => ".data : List Char)).head? = some ' ' from by decide)] at hd
      rw [← Option.some_inj.mp hd]
      decide)]
    rw [bangRepl_append_skip " => ".data (by decide)]
    have h2 := bangRepl_lit r [] hr (by intro d hd; simp at hd)
    rw [List.append_nil] at h2
    rw [bangRepl_nil, List.append_nil] at h2
    rw [h2]
  | equiv l rs =>
    obtain ⟨hl, -, hall⟩ := wfConstraint_equiv_unpack h
    show bangRepl (renderLit l ++ " <=> (".data ++
        joinBarC (rs.map renderLit) ++ ")".data) =
      litCanon l ++ " <=> (".data ++ joinBarC (rs.map litCanon) ++ ")".data
    simp only [List.append_assoc]
    rw [bangRepl_lit l (" <=> (".data ++
      (joinBarC (rs.map renderLit) ++ ")".data)) hl (by
      intro d hd
      rw [head?_append_left
        (show ((" <=> (".data : List Char)).head? = some ' ' from by decide)] at hd
      rw [← Option.some_inj.mp hd]
      decide)]
    rw [bangRepl_append_skip " <=> (".data (by decide)]
    rw [bangRepl_joinBar hall]

end Medicare

namespace Medicare

theorem collapseWsF_succ_cons (fuel : Nat) (c : Char) (rest : List Char) :
    collapseWsF (fuel + 1) (c :: rest) =
      if isPyWs c then ' ' :: collapseWsF fuel (rest.dropWhile isPyWs)
      else c :: collapseWsF fuel rest := rfl

theorem collapseWsF_congr : ∀ (f1 f2 : Nat) (l : List Char),
    l.length < f1 → l.length < f2 → collapseWsF f1 l = collapseWsF f2 l := by
  intro f1
  induction f1 with
  | zero => intro f2 l h1 h2; exact absurd h1 (by omega)
  | succ f ih =>
    intro f2 l h1 h2
    cases l with
    | nil =>
      cases f2 with
      | zero => exact absurd h2 (by omega)
      | succ g => rfl
    | cons c rest =>
      cases f2 with
      | zero => exact absurd h2 (by omega)
      | succ g =>
        have hr1 : rest.length < f := by
          simp only [List.length_cons] at h1
          omega
        have hr2 : rest.length < g := by
          simp only [List.length_cons] at h2
          omega
        rw [collapseWsF_succ_cons, collapseWsF_succ_cons]
        by_cases hc : isPyWs c = true
        · have a2 := length_dropWhile_le_self isPyWs rest
          rw [if_pos hc, if_pos hc,
            ih g (List.dropWhile isPyWs rest) (by omega) (by omega)]
        · rw [if_neg hc, if_neg hc, ih g rest hr1 hr2]

theorem collapseWs_nil : collapseWs [] = [] := rfl

theorem collapseWs_cons_skip {c : Char} {l : List Char}
    (hc : isPyWs c = false) :
    collapseWs (c :: l) = c :: collapseWs l := by
  unfold collapseWs
  rw [List.length_cons, collapseWsF_succ_cons, if_neg (by simp [hc])]

theorem collapseWs_append_skip (a : List Char) {l : List Char}
    (h : ∀ x ∈ a, isPyWs x = false) :
    collapseWs (a ++ l) = a ++ collapseWs l := by
  induction a with
  | nil => rfl
  | cons c rest ih =>
    rw [List.cons_append, collapseWs_cons_skip (h c (List.mem_cons_self _ _)),
      ih (fun x hx => h x (List.mem_cons_of_mem c hx)), List.cons_append]

theorem collapseWs_space {tail : List Char}
    (htail : ∀ d, tail.head? = some d → isPyWs d = false) :
    collapseWs (' ' :: tail) = ' ' :: collapseWs tail := by
  have hdw : List.dropWhile isPyWs tail = tail := by
    cases tail with
    | nil => rfl
    | cons d t => exact dropWhile_cons_of_neg (htail d rfl)
  unfold collapseWs
  rw [List.length_cons, collapseWsF_succ_cons, if_pos (by decide), hdw]

theorem mem_litCanon {x : Bool × List Char} (h : wfLit x = true) :
    ∀ c ∈ litCanon x, isIdentChar c = true ∨ c = '(' ∨ c = ')' := by
  obtain ⟨hid, -⟩ := wfLit_unpack h
  intro c hc
  unfold litCanon at hc
  by_cases hx : x.1 = true
  · rw [if_pos hx] at hc
    exact Or.inl (isIdentC_all hid c hc)
  · rw [if_neg hx] at hc
    rcases List.mem_append.mp hc with hc | hc
    · rcases List.mem_append.mp hc with hc | hc
      · have h4 : ∀ y ∈ ("not(".data : List Char),
            isIdentChar y = true ∨ y = '(' ∨ y = ')' := by decide
        exact h4 c hc
      · exact Or.inl (isIdentC_all hid c hc)
    · have h4 : ∀ y ∈ (")".data : List Char),
          isIdentChar y = true ∨ y = '(' ∨ y = ')' := by decide
      exact h4 c hc

theorem litCanon_no_ws {x : Bool × List Char} (h : wfLit x = true) :
    ∀ c ∈ litCanon x, isPyWs c = false := by
  intro c hc
  rcases mem_litCanon h c hc with h1 | rfl | rfl
  · exact identChar_not_ws h1
  · decide
  · decide

theorem collapseWs_joinBar {rs : List (Bool × List Char)}
    (h : ∀ x ∈ rs, wfLit x = true) :
    collapseWs (joinBarC (rs.map litCanon) ++ ")".data) =
      joinBarC (rs.map litCanon) ++ ")".data := by
  induction rs with
  | nil => decide
  | cons r rest ih =>
    have hr := h r (List.mem_cons_self _ _)
    have hrest : ∀ x ∈ rest, wfLit x = true :=
      fun x hx => h x (List.mem_cons_of_mem r hx)
    cases rest with
    | nil =>
      simp only [List.map_cons, List.map_nil]
      show collapseWs (litCanon r ++ ")".data) = litCanon r ++ ")".data
      rw [collapseWs_append_skip (litCanon r) (litCanon_no_ws hr)]
      rw [show collapseWs (")".data : List Char) = ")".data from by decide]
    | cons s ss =>
      simp only [List.map_cons] at ih ⊢
      obtain ⟨d0, hdh, hdws⟩ := joinBar_head (L := List.map litCanon ss)
        (h s (List.mem_cons_of_mem r (List.mem_cons_self _ _)))
      rw [show joinBarC (litCanon r :: litCanon s :: List.map litCanon ss) =
        litCanon r ++ " | ".data ++
          joinBarC (litCanon s :: List.map litCanon ss) from rfl]
      simp only [List.append_assoc]
      rw [collapseWs_append_skip (litCanon r) (litCanon_no_ws hr)]
      congr 1
      rw [show (" | ".data : List Char) ++
          (joinBarC (litCanon s :: List.map litCanon ss) ++ ")".data) =
          ' ' :: '|' :: ' ' ::
            (joinBarC (litCanon s :: List.map litCanon ss) ++ ")".data) from by
        rw [show (" | ".data : List Char) = [' ', '|', ' '] from by decide]
        simp only [List.cons_append, List.nil_append]]
      rw [collapseWs_space (by
        intro d2 hd2
        simp only [List.head?_cons, Option.some_inj] at hd2
        rw [← hd2]
        decide)]
      rw [collapseWs_cons_skip (by decide)]
      rw [collapseWs_space (by
        intro d2 hd2
        rw [hdh] at hd2
        rw [← Option.some_inj.mp hd2]
        exact hdws)]
      rw [ih hrest]

theorem collapseWs_canonC {dc : DocConstraint} (h : wfConstraint dc = true) :
    collapseWs (canonC dc) = canonC dc := by
  cases dc with
  | imp l r =>
    obtain ⟨hl, hr⟩ := wfConstraint_imp_unpack h
    obtain ⟨d0, hdh, hdws⟩ := litCanon_head hr
    show collapseWs (litCanon l ++ " => ".data ++ litCanon r) =
      litCanon l ++ " => ".data ++ litCanon r
    simp only [List.append_assoc]
    rw [collapseWs_append_skip (litCanon l) (litCanon_no_ws hl)]
    congr 1
    rw [show (" => ".data : List Char) ++ litCanon r =
        ' ' :: '=' :: '>' :: ' ' :: litCanon r from by
      rw [show (" => ".data : List Char) = [' ', '=', '>', ' '] from by decide]
      simp only [List.cons_append, List.nil_append]]
    rw [collapseWs_space (by
      intro d2 hd2
      simp only [List.head?_cons, Option.some_inj] at hd2
      rw [← hd2]
      decide)]
    rw [collapseWs_cons_skip (by decide), collapseWs_cons_skip (by decide)]
    rw [collapseWs_space (by
      intro d2 hd2
      rw [hdh] at hd2
      rw [← Option.some_inj.mp hd2]
      exact hdws)]
    have h2 := collapseWs_append_skip (litCanon r) (l := [])
      (litCanon_no_ws hr)
    rw [List.append_nil] at h2
    rw [collapseWs_nil, List.append_nil] at h2
    rw [h2]
  | equiv l rs =>
    obtain ⟨hl, -, hall⟩ := wfConstraint_equiv_unpack h
    show collapseWs (litCanon l ++ " <=> (".data ++
        joinBarC (rs.map litCanon) ++ ")".data) =
      litCanon l ++ " <=> (".data ++ joinBarC (rs.map litCanon) ++ ")".data
    simp only [List.append_assoc]
    rw [collapseWs_append_skip (litCanon l) (litCanon_no_ws hl)]
    congr 1
    rw [show (" <=> (".data : List Char) ++
        (joinBarC (rs.map litCanon) ++ ")".data) =
        ' ' :: '<' :: '=' :: '>' :: ' ' :: '(' ::
          (joinBarC (rs.map litCanon) ++ ")".data) from by
      rw [show (" <=> (".data : List Char) = [' ', '<', '=', '>', ' ', '('] from
        by decide]
      simp only [List.cons_append, List.nil_append]]
    rw [collapseWs_space (by
      intro d2 hd2
      simp only [List.head?_cons, Option.some_inj] at hd2
      rw [← hd2]
      decide)]
    rw [collapseWs_cons_skip (by decide), collapseWs_cons_skip (by decide),
      collapseWs_cons_skip (by decide)]
    rw [collapseWs_space (by
      intro d2 hd2
      simp only [List.head?_cons, Option.some_inj] at hd2
      rw [← hd2]
      decide)]
    rw [collapseWs_cons_skip (by decide)]
    rw [collapseWs_joinBar hall]

end Medicare

namespace Medicare

theorem trimC_canonC {dc : DocConstraint} (h : wfConstraint dc = true) :
    trimC (canonC dc) = canonC dc := by
  cases dc with
  | imp l r =>
    obtain ⟨hl, hr⟩ := wfConstraint_imp_unpack h
    obtain ⟨d1, hd1, hw1⟩ := litCanon_head hl
    obtain ⟨d2, hd2, hw2⟩ := litCanon_last hr
    apply trimC_eq_self
    · intro c hc
      rw [show canonC (.imp l r) =
        litCanon l ++ " => ".data ++ litCanon r from rfl,
        head?_append_left (head?_append_left hd1)] at hc
      rw [← Option.some_inj.mp hc]
      exact hw1
    · intro c hc
      rw [show canonC (.imp l r) =
        litCanon l ++ " => ".data ++ litCanon r from rfl,
        getLast?_append_right hd2] at hc
      rw [← Option.some_inj.mp hc]
      exact hw2
  | equiv l rs =>
    obtain ⟨hl, -, -⟩ := wfConstraint_equiv_unpack h
    obtain ⟨d1, hd1, hw1⟩ := litCanon_head hl
    apply trimC_eq_self
    · intro c hc
      rw [show canonC (.equiv l rs) = litCanon l ++ " <=> (".data ++
          joinBarC (rs.map litCanon) ++ ")".data from rfl,
        head?_append_left (head?_append_left (head?_append_left hd1))] at hc
      rw [← Option.some_inj.mp hc]
      exact hw1
    · intro c hc
      rw [show canonC (.equiv l rs) = litCanon l ++ " <=> (".data ++
          joinBarC (rs.map litCanon) ++ ")".data from rfl,
        getLast?_append_right
          (show ((")".data : List Char)).getLast? = some ')' from by decide)] at hc
      rw [← Option.some_inj.mp hc]
      decide

theorem renderConstraint_head {dc : DocConstraint}
    (h : wfConstraint dc = true) :
    ∃ d, (renderConstraint dc).head? = some d ∧ isPyWs d = false := by
  cases dc with
  | imp l r =>
    obtain ⟨d, hd, hws⟩ := renderLit_head (wfConstraint_imp_unpack h).1
    refine ⟨d, ?_, hws⟩
    show (renderLit l ++ " => ".data ++ renderLit r).head? = some d
    exact head?_append_left (head?_append_left hd)
  | equiv l rs =>
    obtain ⟨d, hd, hws⟩ := renderLit_head (wfConstraint_equiv_unpack h).1
    refine ⟨d, ?_, hws⟩
    show (renderLit l ++ " <=> (".data ++ joinBarC (rs.map renderLit) ++
      ")".data).head? = some d
    exact head?_append_left (head?_append_left (head?_append_left hd))

theorem renderConstraint_last {dc : DocConstraint}
    (h : wfConstraint dc = true) :
    ∃ d, (renderConstraint dc).getLast? = some d ∧ isPyWs d = false := by
  cases dc with
  | imp l r =>
    obtain ⟨d, hd, hws⟩ := renderLit_last (wfConstraint_imp_unpack h).2
    refine ⟨d, ?_, hws⟩
    show (renderLit l ++ " => ".data ++ renderLit r).getLast? = some d
    exact getLast?_append_right hd
  | equiv l rs =>
    refine ⟨')', ?_, by decide⟩
    show (renderLit l ++ " <=> (".data ++ joinBarC (rs.map renderLit) ++
      ")".data).getLast? = some ')'
    exact getLast?_append_right (by decide)

theorem trimC_renderConstraint {dc : DocConstraint}
    (h : wfConstraint dc = true) :
    trimC (renderConstraint dc) = renderConstraint dc := by
  obtain ⟨d1, hd1, hw1⟩ := renderConstraint_head h
  obtain ⟨d2, hd2, hw2⟩ := renderConstraint_last h
  apply trimC_eq_self
  · intro c hc
    rw [hd1] at hc
    rw [← Option.some_inj.mp hc]
    exact hw1
  · intro c hc
    rw [hd2] at hc
    rw [← Option.some_inj.mp hc]
    exact hw2

theorem mem_renderLit {x : Bool × List Char} (h : wfLit x = true) :
    ∀ c ∈ renderLit x, isIdentChar c = true ∨ c = '!' := by
  obtain ⟨hid, -⟩ := wfLit_unpack h
  intro c hc
  unfold renderLit at hc
  by_cases hx : x.1 = true
  · rw [if_pos hx] at hc
    exact Or.inl (isIdentC_all hid c hc)
  · rw [if_neg hx] at hc
    rcases List.mem_cons.mp hc with rfl | hc
    · exact Or.inr rfl
    · exact Or.inl (isIdentC_all hid c hc)

theorem mem_joinBar_render {rs : List (Bool × List Char)}
    (h : ∀ x ∈ rs, wfLit x = true) :
    ∀ c ∈ joinBarC (rs.map renderLit),
      isIdentChar c = true ∨ c = '!' ∨ c = ' ' ∨ c = '|' := by
  induction rs with
  | nil =>
    intro c hc
    simp only [List.map_nil] at hc
    rw [show joinBarC [] = [] from rfl] at hc
    exact absurd hc (List.not_mem_nil c)
  | cons r rest ih =>
    intro c hc
    have hr := h r (List.mem_cons_self _ _)
    have hrest : ∀ x ∈ rest, wfLit x = true :=
      fun x hx => h x (List.mem_cons_of_mem r hx)
    cases rest with
    | nil =>
      simp only [List.map_cons, List.map_nil] at hc
      rw [show joinBarC [renderLit r] = renderLit r from rfl] at hc
      rcases mem_renderLit hr c hc with h1 | h1
      · exact Or.inl h1
      · exact Or.inr (Or.inl h1)
    | cons s ss =>
      simp only [List.map_cons] at hc ih
      rw [show joinBarC (renderLit r :: renderLit s :: List.map renderLit ss) =
        renderLit r ++ " | ".data ++
          joinBarC (renderLit s :: List.map renderLit ss) from rfl] at hc
      rcases List.mem_append.mp hc with hc | hc
      · rcases List.mem_append.mp hc with hc | hc
        · rcases mem_renderLit hr c hc with h1 | h1
          · exact Or.inl h1
          · exact Or.inr (Or.inl h1)
        · have h4 : ∀ y ∈ (" | ".data : List Char), y = ' ' ∨ y = '|' := by
            decide
          rcases h4 c hc with rfl | rfl
          · exact Or.inr (Or.inr (Or.inl rfl))
          · exact Or.inr (Or.inr (Or.inr rfl))
      · exact ih hrest c hc

theorem renderConstraint_chars {dc : DocConstraint}
    (h : wfConstraint dc = true) :
    ∀ c ∈ renderConstraint dc, isIdentChar c = true ∨
      c ∈ [' ', '!', '=', '>', '<', '|', '(', ')'] := by
  cases dc with
  | imp l r =>
    obtain ⟨hl, hr⟩ := wfConstraint_imp_unpack h
    intro c hc
    rw [show renderConstraint (.imp l r) =
      renderLit l ++ " => ".data ++ renderLit r from rfl] at hc
    rcases List.mem_append.mp hc with hc | hc
    · rcases List.mem_append.mp hc with hc | hc
      · rcases mem_renderLit hl c hc with h1 | rfl
        · exact Or.inl h1
        · exact Or.inr (by decide)
      · refine Or.inr ?_
        have h4 : ∀ y ∈ (" => ".data : List Char),
            y ∈ [' ', '!', '=', '>', '<', '|', '(', ')'] := by decide
        exact h4 c hc
    · rcases mem_renderLit hr c hc with h1 | rfl
      · exact Or.inl h1
      · exact Or.inr (by decide)
  | equiv l rs =>
    obtain ⟨hl, -, hall⟩ := wfConstraint_equiv_unpack h
    intro c hc
    rw [show renderConstraint (.equiv l rs) = renderLit l ++ " <=> (".data ++
      joinBarC (rs.map renderLit) ++ ")".data from rfl] at hc
    rcases List.mem_append.mp hc with hc | hc
    · rcases List.mem_append.mp hc with hc | hc
      · rcases List.mem_append.mp hc with hc | hc
        · rcases mem_renderLit hl c hc with h1 | rfl
          · exact Or.inl h1
          · exact Or.inr (by decide)
        · refine Or.inr ?_
          have h4 : ∀ y ∈ (" <=> (".data : List Char),
              y ∈ [' ', '!', '=', '>', '<', '|', '(', ')'] := by decide
          exact h4 c hc
      · rcases mem_joinBar_render hall c hc with h1 | rfl | rfl | rfl
        · exact Or.inl h1
        · exact Or.inr (by decide)
        · exact Or.inr (by decide)
        · exact Or.inr (by decide)
    · refine Or.inr ?_
      have h4 : ∀ y ∈ ((")".data : List Char)),
          y ∈ [' ', '!', '=', '>', '<', '|', '(', ')'] := by decide
      exact h4 c hc

theorem renderConstraint_no_slash {dc : DocConstraint}
    (h : wfConstraint dc = true) : '/' ∉ renderConstraint dc := by
  intro hm
  rcases renderConstraint_chars h '/' hm with h1 | h1
  · exact absurd h1 (by decide)
  · exact absurd h1 (by decide)

theorem renderConstraint_no_hash {dc : DocConstraint}
    (h : wfConstraint dc = true) : '#' ∉ renderConstraint dc := by
  intro hm
  rcases renderConstraint_chars h '#' hm with h1 | h1
  · exact absurd h1 (by decide)
  · exact absurd h1 (by decide)

theorem space_mem_renderConstraint (dc : DocConstraint) :
    ' ' ∈ renderConstraint dc := by
  cases dc with
  | imp l r =>
    rw [show renderConstraint (.imp l r) =
      renderLit l ++ " => ".data ++ renderLit r from rfl]
    exact List.mem_append.mpr (Or.inl (List.mem_append.mpr (Or.inr (by decide))))
  | equiv l rs =>
    rw [show renderConstraint (.equiv l rs) = renderLit l ++ " <=> (".data ++
      joinBarC (rs.map renderLit) ++ ")".data from rfl]
    exact List.mem_append.mpr (Or.inl (List.mem_append.mpr (Or.inl
      (List.mem_append.mpr (Or.inr (by decide))))))

theorem isPrefixC_cons_false {a b : Char} {p l : List Char} (hne : ¬ a = b) :
    isPrefixC (a :: p) (b :: l) = false := by
  show (decide (a = b) && isPrefixC p l) = false
  simp [hne]

theorem not_namespace_pfx_bang {z : List Char} :
    isPrefixC "namespace ".data (toLowerC ('!' :: z)) = false := by
  have h1 : toLowerC ('!' :: z) = '!' :: toLowerC z := by
    show Char.toLower '!' :: List.map Char.toLower z = '!' :: toLowerC z
    rw [show Char.toLower '!' = '!' from by decide]
    rfl
  rw [h1, show ("namespace ".data : List Char) =
    'n' :: "amespace ".data from by decide]
  exact isPrefixC_cons_false (by decide)

theorem renderConstraint_not_namespace {dc : DocConstraint}
    (h : wfConstraint dc = true) :
    isPrefixC "namespace ".data (toLowerC (renderConstraint dc)) = false := by
  have hlit : ∀ (x : Bool × List Char) (tail : List Char), wfLit x = true →
      tail.head? = some ' ' →
      isPrefixC "namespace ".data (toLowerC (renderLit x ++ tail)) = false := by
    intro x tail hx htail
    obtain ⟨hid, hlow⟩ := wfLit_unpack hx
    by_cases h1 : x.1 = true
    · rw [show renderLit x = x.2 from by unfold renderLit; rw [if_pos h1]]
      exact not_namespace_pfx hid hlow (Or.inr htail)
    · rw [show renderLit x = '!' :: x.2 from by unfold renderLit; rw [if_neg h1],
        List.cons_append]
      exact not_namespace_pfx_bang
  cases dc with
  | imp l r =>
    rw [show renderConstraint (.imp l r) =
      renderLit l ++ (" => ".data ++ renderLit r) from by
        show renderLit l ++ " => ".data ++ renderLit r = _
        rw [List.append_assoc]]
    exact hlit l _ (wfConstraint_imp_unpack h).1 (head?_append_left (by decide))
  | equiv l rs =>
    rw [show renderConstraint (.equiv l rs) =
      renderLit l ++ (" <=> (".data ++
        (joinBarC (rs.map renderLit) ++ ")".data)) from by
        show renderLit l ++ " <=> (".data ++ joinBarC (rs.map renderLit) ++
          ")".data = _
        simp only [List.append_assoc]]
    exact hlit l _ (wfConstraint_equiv_unpack h).1
      (head?_append_left (by decide))

theorem normalize_renderConstraint {dc : DocConstraint}
    (h : wfConstraint dc = true) :
    normalize_constraint (renderConstraint dc) = some (canonC dc) := by
  obtain ⟨d1, hd1, -⟩ := renderConstraint_head h
  unfold normalize_constraint
  rw [trimC_renderConstraint h, if_neg (ne_nil_of_head? hd1),
    bangRepl_renderConstraint h, collapseWs_canonC h, trimC_canonC h]

theorem parse_line_constraint {st : PState} {e : Nat} {dc : DocConstraint}
    (h : wfConstraint dc = true) (hsect : st.sect = PSect.constraints) :
    parse_line st (indC e ++ renderConstraint dc) =
      Except.ok { st with constraints := st.constraints ++ [canonC dc] } := by
  obtain ⟨d1, hd1, -⟩ := renderConstraint_head h
  have hstrip : strip_inline_comment (indC e ++ renderConstraint dc) =
      indC e ++ renderConstraint dc := by
    apply strip_inline_comment_eq_self
    · intro hm
      rcases List.mem_append.mp hm with hm | hm
      · exact absurd (List.eq_of_mem_replicate hm) (by decide)
      · exact renderConstraint_no_slash h hm
    · intro hm
      rcases List.mem_append.mp hm with hm | hm
      · exact absurd (List.eq_of_mem_replicate hm) (by decide)
      · exact renderConstraint_no_hash h hm
  have htrim : trimC (indC e ++ renderConstraint dc) = renderConstraint dc := by
    rw [trimC_indent, trimC_renderConstraint h]
  have hne : ¬ renderConstraint dc = [] := ne_nil_of_head? hd1
  have hnspre : ¬ isPrefixC "namespace ".data
      (toLowerC (renderConstraint dc)) = true := by
    rw [renderConstraint_not_namespace h]
    simp
  have hspace : ' ' ∈ toLowerC (renderConstraint dc) :=
    List.mem_map.mpr ⟨' ', space_mem_renderConstraint dc, by decide⟩
  have hnfe : ¬ toLowerC (renderConstraint dc) = "features".data :=
    neq_of_mem_not_mem hspace (by decide)
  have hnco : ¬ toLowerC (renderConstraint dc) = "constraints".data :=
    neq_of_mem_not_mem hspace (by decide)
  unfold parse_line
  rw [hstrip, htrim, if_neg hne, if_neg hnspre, if_neg hnfe, if_neg hnco,
    if_pos hsect, normalize_renderConstraint h]

end Medicare

namespace Medicare

/-- The root name of a subtree. -/
def treeName : FTree → List Char
  | .node n _ _ => n

mutual
/-- The feature records the parser accumulates for a subtree whose root
receives parent `par` (fresh names assumed). -/
def treePF (par : Option (List Char)) : FTree → List PFeature
  | .node n a gs =>
    { name := n, is_abstract := a, parent := par } :: groupsPF n gs

def groupsPF (n : List Char) : GList → List PFeature
  | .nil => []
  | .grp _ cs rest => childrenPF n cs ++ groupsPF n rest

def childrenPF (n : List Char) : TList → List PFeature
  | .nil => []
  | .cons t rest => treePF (some n) t ++ childrenPF n rest
end

/-- All (parent, kind, child) triples stored in a group list. -/
def triplesOf (gs : List PGroup) :
    List (List Char × List Char × List Char) :=
  (gs.map (fun g => g.children.map (fun c => (g.parent, g.kind, c)))).flatten

/-- The optional membership edge a feature line contributes. -/
def edgeOpt (par : Option (List Char)) (gi : Option (Nat × List Char))
    (n : List Char) : List (List Char × List Char × List Char) :=
  match par, gi with
  | some p, some jk => [(p, jk.2, n)]
  | _, _ => []

/-- Invariant of the pending-group dictionary: keys are indents
(multiples of 4) and distinct. -/
def pendInv (P : List (Nat × List Char)) : Prop :=
  (∀ p ∈ P, 4 ∣ p.1) ∧ (P.map Prod.fst).Nodup

/-- All stack entries at or above an indent bound. -/
def stackBig (junk : List (Nat × List Char)) (m : Nat) : Prop :=
  ∀ p ∈ junk, m ≤ p.1

theorem pop_stack_cons_ge {ind i : Nat} {n : List Char}
    {s : List (Nat × List Char)} (h : ind ≤ i) :
    pop_stack ind ((i, n) :: s) = pop_stack ind s := by
  show (if ind ≤ i then pop_stack ind s else (i, n) :: s) = pop_stack ind s
  rw [if_pos h]

theorem pop_stack_cons_lt {ind i : Nat} {n : List Char}
    {s : List (Nat × List Char)} (h : i < ind) :
    pop_stack ind ((i, n) :: s) = (i, n) :: s := by
  show (if ind ≤ i then pop_stack ind s else (i, n) :: s) = (i, n) :: s
  rw [if_neg (by omega)]

theorem pop_stack_append {ind : Nat} {junk s : List (Nat × List Char)}
    (h : stackBig junk ind) :
    pop_stack ind (junk ++ s) = pop_stack ind s := by
  induction junk with
  | nil => rfl
  | cons p rest ih =>
    rw [List.cons_append,
      show pop_stack ind ((p.1, p.2) :: (rest ++ s)) = pop_stack ind (rest ++ s)
        from pop_stack_cons_ge (h p (List.mem_cons_self _ _))]
    exact ih (fun q hq => h q (List.mem_cons_of_mem p hq))

theorem current_parent_cons_lt {ind i : Nat} {n : List Char}
    {s : List (Nat × List Char)} (h : i < ind) :
    current_parent ((i, n) :: s) ind = some n := by
  show (if i < ind then some n else current_parent s ind) = some n
  rw [if_pos h]

theorem current_parent_cons_ge {ind i : Nat} {n : List Char}
    {s : List (Nat × List Char)} (h : ind ≤ i) :
    current_parent ((i, n) :: s) ind = current_parent s ind := by
  show (if i < ind then some n else current_parent s ind) = current_parent s ind
  rw [if_neg (by omega)]

theorem current_parent_append {ind : Nat} {junk s : List (Nat × List Char)}
    (h : stackBig junk ind) :
    current_parent (junk ++ s) ind = current_parent s ind := by
  induction junk with
  | nil => rfl
  | cons p rest ih =>
    rw [List.cons_append,
      show current_parent ((p.1, p.2) :: (rest ++ s)) ind =
        current_parent (rest ++ s) ind
        from current_parent_cons_ge (h p (List.mem_cons_self _ _))]
    exact ih (fun q hq => h q (List.mem_cons_of_mem p hq))

theorem mem_pending_set_self (P : List (Nat × List Char)) (i : Nat)
    (k : List Char) : (i, k) ∈ pending_set P i k := by
  induction P with
  | nil => exact List.mem_cons_self _ _
  | cons p rest ih =>
    unfold pending_set
    by_cases hp : p.1 = i
    · rw [if_pos hp, hp]
      exact List.mem_cons_self _ _
    · rw [if_neg hp]
      exact List.mem_cons_of_mem _ ih

theorem mem_pending_set_other {P : List (Nat × List Char)} {i j : Nat}
    {k v : List Char} (h : ¬ j = i) :
    (j, v) ∈ pending_set P i k ↔ (j, v) ∈ P := by
  induction P with
  | nil =>
    constructor
    · intro hm
      rcases List.mem_cons.mp hm with hm | hm
      · exact absurd (congrArg Prod.fst hm) h
      · exact absurd hm (List.not_mem_nil _)
    · intro hm
      exact absurd hm (List.not_mem_nil _)
  | cons p rest ih =>
    unfold pending_set
    by_cases hp : p.1 = i
    · rw [if_pos hp]
      constructor
      · intro hm
        rcases List.mem_cons.mp hm with hm | hm
        · have hji : j = p.1 := congrArg Prod.fst hm
          rw [hp] at hji
          exact absurd hji h
        · exact List.mem_cons_of_mem _ hm
      · intro hm
        rcases List.mem_cons.mp hm with hm | hm
        · have hji : j = p.1 := congrArg Prod.fst hm
          rw [hp] at hji
          exact absurd hji h
        · exact List.mem_cons_of_mem _ hm
    · rw [if_neg hp]
      constructor
      · intro hm
        rcases List.mem_cons.mp hm with hm | hm
        · rw [hm]
          exact List.mem_cons_self _ _
        · exact List.mem_cons_of_mem _ (ih.mp hm)
      · intro hm
        rcases List.mem_cons.mp hm with hm | hm
        · rw [hm]
          exact List.mem_cons_self _ _
        · exact List.mem_cons_of_mem _ (ih.mpr hm)

theorem pending_set_keys (P : List (Nat × List Char)) (i : Nat)
    (k : List Char) :
    (pending_set P i k).map Prod.fst =
      if i ∈ P.map Prod.fst then P.map Prod.fst
      else P.map Prod.fst ++ [i] := by
  induction P with
  | nil => simp [pending_set]
  | cons p rest ih =>
    unfold pending_set
    by_cases hp : p.1 = i
    · rw [if_pos hp]
      simp only [List.map_cons]
      rw [if_pos (by rw [hp]; exact List.mem_cons_self _ _), hp]
    · rw [if_neg hp]
      simp only [List.map_cons, ih]
      by_cases hmem : i ∈ rest.map Prod.fst
      · rw [if_pos hmem, if_pos (List.mem_cons_of_mem _ hmem)]
      · rw [if_neg hmem, if_neg (by
          intro hx
          rcases List.mem_cons.mp hx with hx | hx
          · exact hp hx.symm
          · exact hmem hx)]
        simp

theorem pendInv_pending_set {P : List (Nat × List Char)} {i : Nat}
    {k : List Char} (h4 : 4 ∣ i) (h : pendInv P) :
    pendInv (pending_set P i k) := by
  obtain ⟨hdvd, hnd⟩ := h
  constructor
  · intro p hp
    by_cases hpi : p.1 = i
    · rw [hpi]
      exact h4
    · obtain ⟨j, v⟩ := p
      have : ¬ j = i := hpi
      exact hdvd _ ((mem_pending_set_other this).mp hp)
  · rw [pending_set_keys]
    by_cases hmem : i ∈ P.map Prod.fst
    · rw [if_pos hmem]
      exact hnd
    · rw [if_neg hmem]
      simp [List.nodup_append, hnd, hmem]

end Medicare

namespace Medicare

/-- One step of the `nearest_pending` fold. -/
def nearStep (ind : Nat) (acc : Option (Nat × List Char))
    (e : Nat × List Char) : Option (Nat × List Char) :=
  if e.1 < ind then
    match acc with
    | none => some e
    | some a => if a.1 < e.1 then some e else acc
  else acc

theorem nearest_pending_eq (P : List (Nat × List Char)) (ind : Nat) :
    nearest_pending P ind = P.foldl (nearStep ind) none := rfl

theorem nearStep_ge {ind : Nat} {acc : Option (Nat × List Char)}
    {e : Nat × List Char} (h : ¬ e.1 < ind) : nearStep ind acc e = acc := by
  unfold nearStep
  rw [if_neg h]

theorem nearStep_none {ind : Nat} {e : Nat × List Char} (h : e.1 < ind) :
    nearStep ind none e = some e := by
  unfold nearStep
  rw [if_pos h]

theorem nearStep_take {ind : Nat} {a e : Nat × List Char} (h : e.1 < ind)
    (h2 : a.1 < e.1) : nearStep ind (some a) e = some e := by
  unfold nearStep
  rw [if_pos h]
  show (if a.1 < e.1 then some e else some a) = some e
  rw [if_pos h2]

theorem nearStep_keep {ind : Nat} {a e : Nat × List Char} (h2 : ¬ a.1 < e.1) :
    nearStep ind (some a) e = some a := by
  unfold nearStep
  by_cases h : e.1 < ind
  · rw [if_pos h]
    show (if a.1 < e.1 then some e else some a) = some a
    rw [if_neg h2]
  · rw [if_neg h]

theorem nearest_stable {ind : Nat} {b : Nat × List Char} :
    ∀ P : List (Nat × List Char), (∀ q ∈ P, q.1 < ind → q.1 ≤ b.1) →
    P.foldl (nearStep ind) (some b) = some b := by
  intro P
  induction P with
  | nil => intro h; rfl
  | cons e P ih =>
    intro h
    rw [List.foldl_cons]
    have hstep : nearStep ind (some b) e = some b := by
      by_cases he : e.1 < ind
      · exact nearStep_keep (by have := h e (List.mem_cons_self _ _) he; omega)
      · exact nearStep_ge he
    rw [hstep]
    exact ih (fun q hq hlt => h q (List.mem_cons_of_mem e hq) hlt)

theorem nearest_run {ind j : Nat} {k : List Char} :
    ∀ (P : List (Nat × List Char)) (acc : Option (Nat × List Char)),
    (j, k) ∈ P → j < ind →
    (∀ q ∈ P, q.1 < ind → q.1 ≤ j) →
    (∀ v, (j, v) ∈ P → v = k) →
    (acc = none ∨ ∃ b, acc = some b ∧ b.1 < ind ∧ b.1 ≤ j ∧
      (b.1 = j → b = (j, k))) →
    P.foldl (nearStep ind) acc = some (j, k) := by
  intro P
  induction P with
  | nil => intro acc hmem; exact absurd hmem (List.not_mem_nil _)
  | cons e P ih =>
    intro acc hmem hj hmax huniq hinv
    rw [List.foldl_cons]
    by_cases hekj : e = (j, k)
    · have hstep : nearStep ind acc e = some (j, k) := by
        rcases hinv with rfl | ⟨b, rfl, hblt, hble, hbj⟩
        · rw [hekj]
          exact nearStep_none hj
        · by_cases hlt : b.1 < e.1
          · rw [nearStep_take (by rw [hekj]; exact hj) hlt, hekj]
          · have hbje : b.1 = j := by
              rw [hekj] at hlt
              omega
            rw [nearStep_keep hlt, hbj hbje]
      rw [hstep]
      exact nearest_stable P (fun q hq hlt => hmax q (List.mem_cons_of_mem e hq) hlt)
    · have hmem2 : (j, k) ∈ P := by
        rcases List.mem_cons.mp hmem with hm | hm
        · exact absurd hm.symm hekj
        · exact hm
      apply ih (nearStep ind acc e) hmem2 hj
        (fun q hq hlt => hmax q (List.mem_cons_of_mem e hq) hlt)
        (fun v hv => huniq v (List.mem_cons_of_mem e hv))
      by_cases he : e.1 < ind
      · have hej : e.1 ≤ j := hmax e (List.mem_cons_self _ _) he
        have henj : ¬ e.1 = j := by
          intro hx
          have : e = (j, e.2) := by
            rw [← hx]
          rw [this] at hekj
          have := huniq e.2 (by rw [← this]; exact List.mem_cons_self _ _)
          rw [this] at hekj
          exact hekj rfl
        rcases hinv with rfl | ⟨b, rfl, hblt, hble, hbj⟩
        · refine Or.inr ⟨e, nearStep_none he, he, hej, fun hx => absurd hx henj⟩
        · by_cases hlt : b.1 < e.1
          · refine Or.inr ⟨e, nearStep_take he hlt, he, hej,
              fun hx => absurd hx henj⟩
          · exact Or.inr ⟨b, nearStep_keep hlt, hblt, hble, hbj⟩
      · rw [nearStep_ge he]
        exact hinv

theorem keys_nodup_functional {P : List (Nat × List Char)}
    (h : (P.map Prod.fst).Nodup) {j : Nat} {v w : List Char}
    (hv : (j, v) ∈ P) (hw : (j, w) ∈ P) : v = w := by
  induction P with
  | nil => exact absurd hv (List.not_mem_nil _)
  | cons p rest ih =>
    simp only [List.map_cons, List.nodup_cons] at h
    rcases List.mem_cons.mp hv with hv1 | hv1 <;>
      rcases List.mem_cons.mp hw with hw1 | hw1
    · rw [← hv1] at hw1
      exact (congrArg Prod.snd hw1).symm
    · exfalso
      apply h.1
      rw [← congrArg Prod.fst hv1]
      exact List.mem_map.mpr ⟨(j, w), hw1, rfl⟩
    · exfalso
      apply h.1
      rw [← congrArg Prod.fst hw1]
      exact List.mem_map.mpr ⟨(j, v), hv1, rfl⟩
    · exact ih h.2 hv1 hw1

theorem nearest_pending_spec {P : List (Nat × List Char)} {k : List Char}
    {j ind : Nat} (hmem : (j, k) ∈ P) (hlt : j < ind)
    (hmax : ∀ q ∈ P, q.1 < ind → q.1 ≤ j)
    (hnodup : (P.map Prod.fst).Nodup) :
    nearest_pending P ind = some (j, k) := by
  rw [nearest_pending_eq]
  exact nearest_run P none hmem hlt hmax
    (fun v hv => keys_nodup_functional hnodup hv hmem) (Or.inl rfl)

theorem update_features_fresh {fs : List PFeature} {n : List Char} {a : Bool}
    {par : Option (List Char)} (h : n ∉ fs.map PFeature.name) :
    update_features fs n a par =
      fs ++ [{ name := n, is_abstract := a, parent := par }] := by
  induction fs with
  | nil => rfl
  | cons f rest ih =>
    unfold update_features
    rw [if_neg (by
      intro hx
      exact h (List.mem_map.mpr ⟨f, List.mem_cons_self _ _, hx⟩)),
      ih (fun hx => h (List.mem_cons_of_mem _ hx)), List.cons_append]

theorem triplesOf_cons (g : PGroup) (gs : List PGroup) :
    triplesOf (g :: gs) =
      g.children.map (fun c => (g.parent, g.kind, c)) ++ triplesOf gs := rfl

theorem add_child_triples (gs : List PGroup) (par k c : List Char) :
    ∀ tr, tr ∈ triplesOf (add_child_to_group gs par k c) ↔
      tr ∈ triplesOf gs ∨ tr = (par, k, c) := by
  induction gs with
  | nil =>
    intro tr
    simp [add_child_to_group, triplesOf]
  | cons g gs ih =>
    intro tr
    unfold add_child_to_group
    by_cases hm : g.parent = par ∧ g.kind = k
    · rw [if_pos hm]
      by_cases hc : c ∈ g.children
      · rw [if_pos hc]
        rw [triplesOf_cons]
        constructor
        · intro hx
          exact Or.inl hx
        · intro hx
          rcases hx with hx | rfl
          · exact hx
          · refine List.mem_append.mpr (Or.inl ?_)
            refine List.mem_map.mpr ⟨c, hc, ?_⟩
            rw [hm.1, hm.2]
      · rw [if_neg hc]
        rw [show triplesOf ({ g with children := g.children ++ [c] } :: gs) =
          (g.children ++ [c]).map (fun x => (g.parent, g.kind, x)) ++
            triplesOf gs from rfl]
        rw [List.map_append, triplesOf_cons]
        constructor
        · intro hx
          rcases List.mem_append.mp hx with hx | hx
          · rcases List.mem_append.mp hx with hx | hx
            · exact Or.inl (List.mem_append.mpr (Or.inl hx))
            · simp only [List.map_cons, List.map_nil, List.mem_cons,
                List.not_mem_nil, or_false] at hx
              rw [hx, hm.1, hm.2]
              exact Or.inr rfl
          · exact Or.inl (List.mem_append.mpr (Or.inr hx))
        · intro hx
          rcases hx with hx | rfl
          · rcases List.mem_append.mp hx with hx | hx
            · exact List.mem_append.mpr (Or.inl (List.mem_append.mpr (Or.inl hx)))
            · exact List.mem_append.mpr (Or.inr hx)
          · refine List.mem_append.mpr (Or.inl (List.mem_append.mpr (Or.inr ?_)))
            simp only [List.map_cons, List.map_nil, List.mem_cons]
            rw [hm.1, hm.2]
            exact Or.inl rfl
    · rw [if_neg hm, triplesOf_cons, triplesOf_cons]
      constructor
      · intro hx
        rcases List.mem_append.mp hx with hx | hx
        · exact Or.inl (List.mem_append.mpr (Or.inl hx))
        · rcases (ih tr).mp hx with hx | rfl
          · exact Or.inl (List.mem_append.mpr (Or.inr hx))
          · exact Or.inr rfl
      · intro hx
        rcases hx with hx | rfl
        · rcases List.mem_append.mp hx with hx | hx
          · exact List.mem_append.mpr (Or.inl hx)
          · exact List.mem_append.mpr (Or.inr ((ih tr).mpr (Or.inl hx)))
        · exact List.mem_append.mpr (Or.inr ((ih _).mpr (Or.inr rfl)))

theorem mem_insertSortedC {x y : List Char} :
    ∀ l, y ∈ insertSortedC x l ↔ y = x ∨ y ∈ l := by
  intro l
  induction l with
  | nil => simp [insertSortedC]
  | cons z zs ih =>
    unfold insertSortedC
    by_cases hle : leC x z = true
    · rw [if_pos hle]
      simp only [List.mem_cons]
    · rw [if_neg hle]
      simp only [List.mem_cons, ih]
      tauto

theorem mem_sortC {x : List Char} : ∀ l, x ∈ sortC l ↔ x ∈ l := by
  intro l
  induction l with
  | nil => simp [sortC]
  | cons z zs ih =>
    show x ∈ insertSortedC z (sortC zs) ↔ _
    rw [mem_insertSortedC]
    simp only [List.mem_cons, ih]

theorem mem_sortedSetC {x : List Char} {l : List (List Char)} :
    x ∈ sortedSetC l ↔ x ∈ l := by
  unfold sortedSetC
  rw [mem_sortC, List.mem_dedup]

theorem triplesOf_sortedSet (gs : List PGroup) :
    ∀ tr, tr ∈ triplesOf
        (gs.map (fun g => { g with children := sortedSetC g.children })) ↔
      tr ∈ triplesOf gs := by
  induction gs with
  | nil => intro tr; simp
  | cons g gs ih =>
    intro tr
    rw [List.map_cons, triplesOf_cons, triplesOf_cons]
    constructor
    · intro hx
      rcases List.mem_append.mp hx with hx | hx
      · obtain ⟨cx, hcx, hval⟩ := List.mem_map.mp hx
        refine List.mem_append.mpr (Or.inl (List.mem_map.mpr ⟨cx, ?_, hval⟩))
        exact mem_sortedSetC.mp hcx
      · exact List.mem_append.mpr (Or.inr ((ih tr).mp hx))
    · intro hx
      rcases List.mem_append.mp hx with hx | hx
      · obtain ⟨cx, hcx, hval⟩ := List.mem_map.mp hx
        refine List.mem_append.mpr (Or.inl (List.mem_map.mpr ⟨cx, ?_, hval⟩))
        exact mem_sortedSetC.mpr hcx
      · exact List.mem_append.mpr (Or.inr ((ih tr).mpr hx))

end Medicare

namespace Medicare

theorem foldlM_parse_cons {line : List Char} {st st1 : PState}
    (rest : List (List Char)) (h : parse_line st line = Except.ok st1) :
    (line :: rest).foldlM parse_line st = rest.foldlM parse_line st1 := by
  rw [List.foldlM_cons, h]
  rfl

theorem foldlM_parse_append {a : List (List Char)} {st st1 : PState}
    (b : List (List Char)) (h : a.foldlM parse_line st = Except.ok st1) :
    (a ++ b).foldlM parse_line st = b.foldlM parse_line st1 := by
  rw [List.foldlM_append, h]
  rfl

mutual
theorem treePF_names (par : Option (List Char)) (t : FTree) :
    (treePF par t).map PFeature.name = (treeFeatures t).map Prod.fst := by
  cases t with
  | node n a gs =>
    show n :: (groupsPF n gs).map PFeature.name =
      n :: (groupsFeatures gs).map Prod.fst
    rw [groupsPF_names n gs]

theorem groupsPF_names (n : List Char) (gs : GList) :
    (groupsPF n gs).map PFeature.name = (groupsFeatures gs).map Prod.fst := by
  cases gs with
  | nil => rfl
  | grp k cs rest =>
    show (childrenPF n cs ++ groupsPF n rest).map PFeature.name =
      (childrenFeatures cs ++ groupsFeatures rest).map Prod.fst
    rw [List.map_append, List.map_append, childrenPF_names n cs,
      groupsPF_names n rest]

theorem childrenPF_names (n : List Char) (cs : TList) :
    (childrenPF n cs).map PFeature.name =
      (childrenFeatures cs).map Prod.fst := by
  cases cs with
  | nil => rfl
  | cons t rest =>
    show (treePF (some n) t ++ childrenPF n rest).map PFeature.name =
      (treeFeatures t ++ childrenFeatures rest).map Prod.fst
    rw [List.map_append, List.map_append, treePF_names (some n) t,
      childrenPF_names n rest]
end

mutual
theorem mem_treePF_features {f : PFeature} (par : Option (List Char))
    (t : FTree) (h : f ∈ treePF par t) :
    (f.name, f.is_abstract) ∈ treeFeatures t := by
  cases t with
  | node n a gs =>
    rcases List.mem_cons.mp h with rfl | h2
    · exact List.mem_cons_self _ _
    · exact List.mem_cons_of_mem _ (mem_groupsPF_features n gs h2)

theorem mem_groupsPF_features {f : PFeature} (n : List Char) (gs : GList)
    (h : f ∈ groupsPF n gs) :
    (f.name, f.is_abstract) ∈ groupsFeatures gs := by
  cases gs with
  | nil => exact absurd h (List.not_mem_nil _)
  | grp k cs rest =>
    rcases List.mem_append.mp h with h2 | h2
    · exact List.mem_append.mpr (Or.inl (mem_childrenPF_features n cs h2))
    · exact List.mem_append.mpr (Or.inr (mem_groupsPF_features n rest h2))

theorem mem_childrenPF_features {f : PFeature} (n : List Char) (cs : TList)
    (h : f ∈ childrenPF n cs) :
    (f.name, f.is_abstract) ∈ childrenFeatures cs := by
  cases cs with
  | nil => exact absurd h (List.not_mem_nil _)
  | cons t rest =>
    rcases List.mem_append.mp h with h2 | h2
    · exact List.mem_append.mpr (Or.inl (mem_treePF_features (some n) t h2))
    · exact List.mem_append.mpr (Or.inr (mem_childrenPF_features n rest h2))
end

mutual
theorem treeFeatures_mem_PF {n : List Char} {a : Bool}
    (par : Option (List Char)) (t : FTree) (h : (n, a) ∈ treeFeatures t) :
    ∃ p, ({ name := n, is_abstract := a, parent := p } : PFeature) ∈
      treePF par t := by
  cases t with
  | node m b gs =>
    rcases List.mem_cons.mp h with h2 | h2
    · refine ⟨par, ?_⟩
      rw [show n = m from congrArg Prod.fst h2,
        show a = b from congrArg Prod.snd h2]
      exact List.mem_cons_self _ _
    · obtain ⟨p, hp⟩ := groupsFeatures_mem_PF m gs h2
      exact ⟨p, List.mem_cons_of_mem _ hp⟩

theorem groupsFeatures_mem_PF {n : List Char} {a : Bool} (m : List Char)
    (gs : GList) (h : (n, a) ∈ groupsFeatures gs) :
    ∃ p, ({ name := n, is_abstract := a, parent := p } : PFeature) ∈
      groupsPF m gs := by
  cases gs with
  | nil => exact absurd h (List.not_mem_nil _)
  | grp k cs rest =>
    rcases List.mem_append.mp h with h2 | h2
    · obtain ⟨p, hp⟩ := childrenFeatures_mem_PF m cs h2
      exact ⟨p, List.mem_append.mpr (Or.inl hp)⟩
    · obtain ⟨p, hp⟩ := groupsFeatures_mem_PF m rest h2
      exact ⟨p, List.mem_append.mpr (Or.inr hp)⟩

theorem childrenFeatures_mem_PF {n : List Char} {a : Bool} (m : List Char)
    (cs : TList) (h : (n, a) ∈ childrenFeatures cs) :
    ∃ p, ({ name := n, is_abstract := a, parent := p } : PFeature) ∈
      childrenPF m cs := by
  cases cs with
  | nil => exact absurd h (List.not_mem_nil _)
  | cons t rest =>
    rcases List.mem_append.mp h with h2 | h2
    · obtain ⟨p, hp⟩ := treeFeatures_mem_PF (some m) t h2
      exact ⟨p, List.mem_append.mpr (Or.inl hp)⟩
    · obtain ⟨p, hp⟩ := childrenFeatures_mem_PF m rest h2
      exact ⟨p, List.mem_append.mpr (Or.inr hp)⟩
end

mutual
theorem mem_treePF_parent {f : PFeature} {q : List Char}
    (par : Option (List Char)) (t : FTree) (h : f ∈ treePF par t)
    (hq : f.parent = some q) :
    (par = some q ∧ f.name = treeName t) ∨ (f.name, q) ∈ treeLinks t := by
  cases t with
  | node n a gs =>
    rcases List.mem_cons.mp h with rfl | h2
    · exact Or.inl ⟨hq, rfl⟩
    · exact Or.inr (mem_groupsPF_parent n gs h2 hq)

theorem mem_groupsPF_parent {f : PFeature} {q : List Char} (n : List Char)
    (gs : GList) (h : f ∈ groupsPF n gs) (hq : f.parent = some q) :
    (f.name, q) ∈ groupsLinks n gs := by
  cases gs with
  | nil => exact absurd h (List.not_mem_nil _)
  | grp k cs rest =>
    rcases List.mem_append.mp h with h2 | h2
    · exact List.mem_append.mpr (Or.inl (mem_childrenPF_parent n cs h2 hq))
    · exact List.mem_append.mpr (Or.inr (mem_groupsPF_parent n rest h2 hq))

theorem mem_childrenPF_parent {f : PFeature} {q : List Char} (n : List Char)
    (cs : TList) (h : f ∈ childrenPF n cs) (hq : f.parent = some q) :
    (f.name, q) ∈ childrenLinks n cs := by
  cases cs with
  | nil => exact absurd h (List.not_mem_nil _)
  | cons t rest =>
    rcases List.mem_append.mp h with h2 | h2
    · rcases mem_treePF_parent (some n) t h2 hq with ⟨hsome, hname⟩ | h3
      · cases t with
        | node m b gs =>
          rw [show childrenLinks n (.cons (.node m b gs) rest) =
            (m, n) :: (treeLinks (.node m b gs) ++ childrenLinks n rest)
            from rfl]
          rw [show q = n from by injection hsome.symm, hname]
          exact List.mem_cons_self _ _
      · cases t with
        | node m b gs =>
          rw [show childrenLinks n (.cons (.node m b gs) rest) =
            (m, n) :: (treeLinks (.node m b gs) ++ childrenLinks n rest)
            from rfl]
          exact List.mem_cons_of_mem _ (List.mem_append.mpr (Or.inl h3))
    · cases t with
      | node m b gs =>
        rw [show childrenLinks n (.cons (.node m b gs) rest) =
          (m, n) :: (treeLinks (.node m b gs) ++ childrenLinks n rest)
          from rfl]
        exact List.mem_cons_of_mem _
          (List.mem_append.mpr (Or.inr (mem_childrenPF_parent n rest h2 hq)))
end

mutual
theorem treeLinks_mem_PF {c q : List Char} (par : Option (List Char))
    (t : FTree) (h : (c, q) ∈ treeLinks t) :
    ∃ a, ({ name := c, is_abstract := a, parent := some q } : PFeature) ∈
      treePF par t := by
  cases t with
  | node n b gs =>
    obtain ⟨a, ha⟩ := groupsLinks_mem_PF n gs h
    exact ⟨a, List.mem_cons_of_mem _ ha⟩

theorem groupsLinks_mem_PF {c q : List Char} (n : List Char) (gs : GList)
    (h : (c, q) ∈ groupsLinks n gs) :
    ∃ a, ({ name := c, is_abstract := a, parent := some q } : PFeature) ∈
      groupsPF n gs := by
  cases gs with
  | nil => exact absurd h (List.not_mem_nil _)
  | grp k cs rest =>
    rcases List.mem_append.mp h with h2 | h2
    · obtain ⟨a, ha⟩ := childrenLinks_mem_PF n cs h2
      exact ⟨a, List.mem_append.mpr (Or.inl ha)⟩
    · obtain ⟨a, ha⟩ := groupsLinks_mem_PF n rest h2
      exact ⟨a, List.mem_append.mpr (Or.inr ha)⟩

theorem childrenLinks_mem_PF {c q : List Char} (n : List Char) (cs : TList)
    (h : (c, q) ∈ childrenLinks n cs) :
    ∃ a, ({ name := c, is_abstract := a, parent := some q } : PFeature) ∈
      childrenPF n cs := by
  cases cs with
  | nil => exact absurd h (List.not_mem_nil _)
  | cons t rest =>
    cases t with
    | node m b gs =>
      rw [show childrenLinks n (.cons (.node m b gs) rest) =
        (m, n) :: (treeLinks (.node m b gs) ++ childrenLinks n rest)
        from rfl] at h
      rcases List.mem_cons.mp h with h2 | h2
      · refine ⟨b, List.mem_append.mpr (Or.inl ?_)⟩
        rw [show c = m from congrArg Prod.fst h2,
          show q = n from congrArg Prod.snd h2]
        exact List.mem_cons_self _ _
      · rcases List.mem_append.mp h2 with h3 | h3
        · obtain ⟨a, ha⟩ := treeLinks_mem_PF (some n) (.node m b gs) h3
          exact ⟨a, List.mem_append.mpr (Or.inl ha)⟩
        · obtain ⟨a, ha⟩ := childrenLinks_mem_PF n rest h3
          exact ⟨a, List.mem_append.mpr (Or.inr ha)⟩
end

end Medicare

namespace Medicare

theorem wfTree_unpack {n : List Char} {a : Bool} {gs : GList}
    (h : wfTree (.node n a gs) = true) :
    goodName n = true ∧ wfGroups gs = true := by
  simpa [wfTree, Bool.and_eq_true] using h

theorem wfGroups_unpack {k : List Char} {cs : TList} {rest : GList}
    (h : wfGroups (.grp k cs rest) = true) :
    k ∈ GROUP_KINDS ∧ wfChildren cs = true ∧ wfGroups rest = true := by
  simp only [wfGroups, Bool.and_eq_true, decide_eq_true_eq] at h
  tauto

theorem wfChildren_unpack {t : FTree} {rest : TList}
    (h : wfChildren (.cons t rest) = true) :
    wfTree t = true ∧ wfChildren rest = true := by
  simpa [wfChildren, Bool.and_eq_true] using h

theorem stackBig_mono {junk : List (Nat × List Char)} {m1 m2 : Nat}
    (h : stackBig junk m2) (hle : m1 ≤ m2) : stackBig junk m1 :=
  fun p hp => le_trans hle (h p hp)

theorem stackBig_nil {m : Nat} : stackBig [] m :=
  fun p hp => absurd hp (List.not_mem_nil p)

theorem nodup_append_right_fresh {A B : List (List Char)}
    (h : (A ++ B).Nodup) : ∀ x ∈ B, x ∉ A := by
  intro x hxB hxA
  exact (List.nodup_append.mp h).2.2 hxA hxB

set_option maxHeartbeats 2000000

mutual
theorem parse_renderTree (d : Nat) (t : FTree) (st : PState)
    (hw : wfTree t = true) (hsect : st.sect = PSect.features)
    (hpinv : pendInv st.pending)
    (hfresh : ∀ x ∈ (treeFeatures t).map Prod.fst,
      x ∉ st.features.map PFeature.name)
    (hnd : ((treeFeatures t).map Prod.fst).Nodup) :
    ∃ st' junk,
      (renderTree d t).foldlM parse_line st = Except.ok st' ∧
      st'.nspace = st.nspace ∧ st'.sect = PSect.features ∧
      st'.constraints = st.constraints ∧
      st'.features = st.features ++
        treePF (current_parent st.stack (4 * d)) t ∧
      st'.stack = junk ++ (4 * d, treeName t) :: pop_stack (4 * d) st.stack ∧
      stackBig junk (4 * (d + 1)) ∧
      pendInv st'.pending ∧
      (∀ p : Nat × List Char, p.1 ≤ 4 * d →
        (p ∈ st'.pending ↔ p ∈ st.pending)) ∧
      (∀ tr, tr ∈ triplesOf st'.groups ↔ tr ∈ triplesOf st.groups ∨
        tr ∈ edgeOpt (current_parent st.stack (4 * d))
          (nearest_pending st.pending (4 * d)) (treeName t) ∨
        tr ∈ treeTriples t) := by
  cases t with
  | node n a gs =>
    obtain ⟨hgn, hwgs⟩ := wfTree_unpack hw
    have hline : renderTree d (.node n a gs) =
        (indC d ++ (n ++ absSfx a)) :: renderGroups d gs := by
      show (indC d ++ n ++ (if a then " {abstract}".data else [])) ::
        renderGroups d gs = _
      rw [List.append_assoc,
        show (if a then " {abstract}".data else ([] : List Char)) = absSfx a
          from rfl]
    have hnfresh : n ∉ st.features.map PFeature.name :=
      hfresh n (by
        rw [show treeFeatures (.node n a gs) = (n, a) :: groupsFeatures gs
          from rfl, List.map_cons]
        exact List.mem_cons_self _ _)
    have hfeat : update_features st.features n a
        (current_parent st.stack (4 * d)) =
        st.features ++ [(⟨n, a, current_parent st.stack (4 * d)⟩ : PFeature)] :=
      update_features_fresh hnfresh
    obtain ⟨G1, hG1, htrG⟩ : ∃ G1,
        (match current_parent st.stack (4 * d) with
          | none => st.groups
          | some par => match nearest_pending st.pending (4 * d) with
            | none => st.groups
            | some gi => add_child_to_group st.groups par gi.2 n) = G1 ∧
        ∀ tr, tr ∈ triplesOf G1 ↔ tr ∈ triplesOf st.groups ∨
          tr ∈ edgeOpt (current_parent st.stack (4 * d))
            (nearest_pending st.pending (4 * d)) n := by
      refine ⟨_, rfl, ?_⟩
      intro tr
      cases hcp : current_parent st.stack (4 * d) with
      | none => simp [edgeOpt]
      | some par =>
        cases hnp : nearest_pending st.pending (4 * d) with
        | none => simp [edgeOpt]
        | some gi =>
          rw [add_child_triples st.groups par gi.2 n tr]
          simp [edgeOpt]
    have hstep := @parse_line_feature st d n a hgn hsect
    rw [hfeat, hG1] at hstep
    have hndg : ((groupsFeatures gs).map Prod.fst).Nodup := by
      have hnd2 := hnd
      rw [show treeFeatures (.node n a gs) = (n, a) :: groupsFeatures gs
        from rfl, List.map_cons, List.nodup_cons] at hnd2
      exact hnd2.2
    have hnmem : n ∉ (groupsFeatures gs).map Prod.fst := by
      have hnd2 := hnd
      rw [show treeFeatures (.node n a gs) = (n, a) :: groupsFeatures gs
        from rfl, List.map_cons, List.nodup_cons] at hnd2
      exact hnd2.1
    obtain ⟨st2, junk2, hfold2, hns2, hsect2, hcon2, hfeat2, hstack2, hbig2,
      hpinv2, hpres2, htr2⟩ :=
      parse_renderGroups d n gs
        { st with
          stack := (4 * d, n) :: pop_stack (4 * d) st.stack
          features := st.features ++ [(⟨n, a, current_parent st.stack (4 * d)⟩ : PFeature)]
          groups := G1 }
        [] (pop_stack (4 * d) st.stack) hwgs hsect hpinv
        (by
          intro x hx
          show x ∉ (st.features ++
            [(⟨n, a, current_parent st.stack (4 * d)⟩ : PFeature)]).map PFeature.name
          rw [List.map_append]
          intro hmem
          rcases List.mem_append.mp hmem with hm | hm
          · exact hfresh x (by
              rw [show treeFeatures (.node n a gs) = (n, a) :: groupsFeatures gs
                from rfl, List.map_cons]
              exact List.mem_cons_of_mem _ hx) hm
          · simp only [List.map_cons, List.map_nil, List.mem_cons,
              List.not_mem_nil, or_false] at hm
            rw [hm] at hx
            exact hnmem hx)
        hndg
        (by rw [List.nil_append]) stackBig_nil
    refine ⟨st2, junk2, ?_, hns2, hsect2, hcon2, ?_, hstack2, ?_, hpinv2,
      ?_, ?_⟩
    · rw [hline, foldlM_parse_cons (renderGroups d gs) hstep]
      exact hfold2
    · rw [hfeat2]
      show (st.features ++
        [(⟨n, a, current_parent st.stack (4 * d)⟩ : PFeature)]) ++ groupsPF n gs =
        st.features ++ treePF (current_parent st.stack (4 * d)) (.node n a gs)
      rw [List.append_assoc]
      rfl
    · exact stackBig_mono hbig2 (by omega)
    · intro p hp
      exact hpres2 p hp
    · intro tr
      rw [htr2 tr]
      show tr ∈ triplesOf G1 ∨ tr ∈ groupsTriples n gs ↔ _
      rw [htrG tr,
        show treeTriples (.node n a gs) = groupsTriples n gs from rfl]
      tauto

theorem parse_renderGroups (d : Nat) (n : List Char) (gs : GList)
    (st : PState) (junk base : List (Nat × List Char))
    (hw : wfGroups gs = true) (hsect : st.sect = PSect.features)
    (hpinv : pendInv st.pending)
    (hfresh : ∀ x ∈ (groupsFeatures gs).map Prod.fst,
      x ∉ st.features.map PFeature.name)
    (hnd : ((groupsFeatures gs).map Prod.fst).Nodup)
    (hstack : st.stack = junk ++ (4 * d, n) :: base)
    (hbig : stackBig junk (4 * (d + 2))) :
    ∃ st' junk',
      (renderGroups d gs).foldlM parse_line st = Except.ok st' ∧
      st'.nspace = st.nspace ∧ st'.sect = PSect.features ∧
      st'.constraints = st.constraints ∧
      st'.features = st.features ++ groupsPF n gs ∧
      st'.stack = junk' ++ (4 * d, n) :: base ∧
      stackBig junk' (4 * (d + 2)) ∧
      pendInv st'.pending ∧
      (∀ p : Nat × List Char, p.1 ≤ 4 * d →
        (p ∈ st'.pending ↔ p ∈ st.pending)) ∧
      (∀ tr, tr ∈ triplesOf st'.groups ↔ tr ∈ triplesOf st.groups ∨
        tr ∈ groupsTriples n gs) := by
  cases gs with
  | nil =>
    refine ⟨st, junk, rfl, rfl, hsect, rfl, (List.append_nil _).symm, hstack,
      hbig, hpinv, fun p hp => Iff.rfl, ?_⟩
    intro tr
    rw [show groupsTriples n GList.nil = [] from rfl]
    simp
  | grp k cs rest =>
    obtain ⟨hk, hwcs, hwrest⟩ := wfGroups_unpack hw
    have hstep := @parse_line_group_kw st (d + 1) k hk hsect
    have hndsplit := hnd
    rw [show groupsFeatures (.grp k cs rest) =
      childrenFeatures cs ++ groupsFeatures rest from rfl,
      List.map_append] at hndsplit
    obtain ⟨st2, junk2, hfold2, hns2, hsect2, hcon2, hfeat2, hstack2, hbig2,
      hpinv2, hpres2, htr2⟩ :=
      parse_renderChildren d n k cs
        { st with pending := pending_set st.pending (4 * (d + 1)) k }
        junk base hwcs hsect
        (pendInv_pending_set ⟨d + 1, by omega⟩ hpinv)
        (mem_pending_set_self st.pending (4 * (d + 1)) k)
        (by
          intro x hx
          exact hfresh x (by
            rw [show groupsFeatures (.grp k cs rest) =
              childrenFeatures cs ++ groupsFeatures rest from rfl,
              List.map_append]
            exact List.mem_append.mpr (Or.inl hx)))
        (List.nodup_append.mp hndsplit).1
        hstack hbig
    obtain ⟨st3, junk3, hfold3, hns3, hsect3, hcon3, hfeat3, hstack3, hbig3,
      hpinv3, hpres3, htr3⟩ :=
      parse_renderGroups d n rest st2 junk2 base hwrest hsect2 hpinv2
        (by
          intro x hx
          rw [hfeat2]
          show x ∉ (st.features ++ childrenPF n cs).map PFeature.name
          rw [List.map_append]
          intro hmem
          rcases List.mem_append.mp hmem with hm | hm
          · exact hfresh x (by
              rw [show groupsFeatures (.grp k cs rest) =
                childrenFeatures cs ++ groupsFeatures rest from rfl,
                List.map_append]
              exact List.mem_append.mpr (Or.inr hx)) hm
          · rw [childrenPF_names n cs] at hm
            exact nodup_append_right_fresh hndsplit x hx hm)
        (List.nodup_append.mp hndsplit).2.1
        hstack2 hbig2
    refine ⟨st3, junk3, ?_, ?_, hsect3, ?_, ?_, hstack3, hbig3, hpinv3,
      ?_, ?_⟩
    · rw [show renderGroups d (.grp k cs rest) =
        ((indC (d + 1) ++ k) :: renderChildren d cs) ++ renderGroups d rest
        from rfl]
      rw [foldlM_parse_append (renderGroups d rest)
        (by
          rw [foldlM_parse_cons (renderChildren d cs) hstep]
          exact hfold2)]
      exact hfold3
    · rw [hns3, hns2]
    · rw [hcon3, hcon2]
    · rw [hfeat3, hfeat2]
      show (st.features ++ childrenPF n cs) ++ groupsPF n rest =
        st.features ++ groupsPF n (.grp k cs rest)
      rw [List.append_assoc]
      rfl
    · intro p hp
      rw [hpres3 p hp, hpres2 p (by omega)]
      obtain ⟨pj, pv⟩ := p
      show (pj, pv) ∈ pending_set st.pending (4 * (d + 1)) k ↔ _
      exact mem_pending_set_other (by
        simp only at hp
        omega)
    · intro tr
      rw [htr3 tr, htr2 tr]
      show (tr ∈ triplesOf st.groups ∨ tr ∈ childrenTriples n k cs) ∨
        tr ∈ groupsTriples n rest ↔ _
      rw [show groupsTriples n (.grp k cs rest) =
        childrenTriples n k cs ++ groupsTriples n rest from rfl]
      simp only [List.mem_append]
      tauto

theorem parse_renderChildren (d : Nat) (n k : List Char) (cs : TList)
    (st : PState) (junk base : List (Nat × List Char))
    (hw : wfChildren cs = true) (hsect : st.sect = PSect.features)
    (hpinv : pendInv st.pending)
    (hk : (4 * (d + 1), k) ∈ st.pending)
    (hfresh : ∀ x ∈ (childrenFeatures cs).map Prod.fst,
      x ∉ st.features.map PFeature.name)
    (hnd : ((childrenFeatures cs).map Prod.fst).Nodup)
    (hstack : st.stack = junk ++ (4 * d, n) :: base)
    (hbig : stackBig junk (4 * (d + 2))) :
    ∃ st' junk',
      (renderChildren d cs).foldlM parse_line st = Except.ok st' ∧
      st'.nspace = st.nspace ∧ st'.sect = PSect.features ∧
      st'.constraints = st.constraints ∧
      st'.features = st.features ++ childrenPF n cs ∧
      st'.stack = junk' ++ (4 * d, n) :: base ∧
      stackBig junk' (4 * (d + 2)) ∧
      pendInv st'.pending ∧
      (∀ p : Nat × List Char, p.1 ≤ 4 * (d + 2) →
        (p ∈ st'.pending ↔ p ∈ st.pending)) ∧
      (∀ tr, tr ∈ triplesOf st'.groups ↔ tr ∈ triplesOf st.groups ∨
        tr ∈ childrenTriples n k cs) := by
  cases cs with
  | nil =>
    refine ⟨st, junk, rfl, rfl, hsect, rfl, (List.append_nil _).symm, hstack,
      hbig, hpinv, fun p hp => Iff.rfl, ?_⟩
    intro tr
    rw [show childrenTriples n k TList.nil = [] from rfl]
    simp
  | cons t rest =>
    obtain ⟨hwt, hwrest⟩ := wfChildren_unpack hw
    cases t with
    | node m b mgs =>
    have hndsplit := hnd
    rw [show childrenFeatures (.cons (.node m b mgs) rest) =
      treeFeatures (.node m b mgs) ++ childrenFeatures rest from rfl,
      List.map_append] at hndsplit
    have hcp : current_parent st.stack (4 * (d + 2)) = some n := by
      rw [hstack, current_parent_append hbig]
      exact current_parent_cons_lt (by omega)
    have hnp : nearest_pending st.pending (4 * (d + 2)) =
        some (4 * (d + 1), k) := by
      apply nearest_pending_spec hk (by omega) ?_ hpinv.2
      intro q hq hlt
      obtain ⟨mq, hmq⟩ := hpinv.1 q hq
      omega
    obtain ⟨st2, junk2, hfold2, hns2, hsect2, hcon2, hfeat2, hstack2, hbig2,
      hpinv2, hpres2, htr2⟩ :=
      parse_renderTree (d + 2) (.node m b mgs) st hwt hsect hpinv
        (by
          intro x hx
          exact hfresh x (by
            rw [show childrenFeatures (.cons (.node m b mgs) rest) =
              treeFeatures (.node m b mgs) ++ childrenFeatures rest from rfl,
              List.map_append]
            exact List.mem_append.mpr (Or.inl hx)))
        (List.nodup_append.mp hndsplit).1
    have hpop : pop_stack (4 * (d + 2)) st.stack = (4 * d, n) :: base := by
      rw [hstack, pop_stack_append hbig]
      exact pop_stack_cons_lt (by omega)
    obtain ⟨st3, junk3, hfold3, hns3, hsect3, hcon3, hfeat3, hstack3, hbig3,
      hpinv3, hpres3, htr3⟩ :=
      parse_renderChildren d n k rest st2 (junk2 ++ [(4 * (d + 2), m)]) base
        hwrest hsect2 hpinv2
        ((hpres2 (4 * (d + 1), k) (by simp only; omega)).mpr hk)
        (by
          intro x hx
          rw [hfeat2, hcp]
          show x ∉ (st.features ++ treePF (some n) (.node m b mgs)).map
            PFeature.name
          rw [List.map_append]
          intro hmem
          rcases List.mem_append.mp hmem with hm | hm
          · exact hfresh x (by
              rw [show childrenFeatures (.cons (.node m b mgs) rest) =
                treeFeatures (.node m b mgs) ++ childrenFeatures rest
                from rfl, List.map_append]
              exact List.mem_append.mpr (Or.inr hx)) hm
          · rw [treePF_names (some n) (.node m b mgs)] at hm
            exact nodup_append_right_fresh hndsplit x hx hm)
        (List.nodup_append.mp hndsplit).2.1
        (by
          rw [hstack2, hpop, show treeName (.node m b mgs) = m from rfl]
          exact List.append_cons junk2 (4 * (d + 2), m) ((4 * d, n) :: base))
        (by
          intro p hp
          rcases List.mem_append.mp hp with hm | hm
          · exact le_trans (by omega) (hbig2 p hm)
          · simp only [List.mem_cons, List.not_mem_nil, or_false] at hm
            rw [hm])
    refine ⟨st3, junk3, ?_, ?_, hsect3, ?_, ?_, hstack3, hbig3, hpinv3,
      ?_, ?_⟩
    · rw [show renderChildren d (.cons (.node m b mgs) rest) =
        renderTree (d + 2) (.node m b mgs) ++ renderChildren d rest from rfl,
        foldlM_parse_append (renderChildren d rest) hfold2]
      exact hfold3
    · rw [hns3, hns2]
    · rw [hcon3, hcon2]
    · rw [hfeat3, hfeat2, hcp]
      show (st.features ++ treePF (some n) (.node m b mgs)) ++
        childrenPF n rest = st.features ++
          childrenPF n (.cons (.node m b mgs) rest)
      rw [List.append_assoc]
      rfl
    · intro p hp
      rw [hpres3 p hp, hpres2 p hp]
    · intro tr
      rw [htr3 tr, htr2 tr, hcp, hnp]
      rw [show childrenTriples n k (.cons (.node m b mgs) rest) =
        (n, k, m) :: (treeTriples (.node m b mgs) ++ childrenTriples n k rest)
        from rfl]
      rw [show edgeOpt (some n) (some (4 * (d + 1), k)) (treeName
        (.node m b mgs)) = [(n, k, m)] from rfl]
      simp only [List.mem_cons, List.mem_append, List.not_mem_nil, or_false]
      tauto
end

end Medicare

namespace Medicare

theorem parse_constraint_lines : ∀ (cs : List DocConstraint) (st : PState),
    (∀ c ∈ cs, wfConstraint c = true) → st.sect = PSect.constraints →
    (cs.map (fun c => indC 1 ++ renderConstraint c)).foldlM parse_line st =
      Except.ok { st with constraints := st.constraints ++ cs.map canonC } := by
  intro cs
  induction cs with
  | nil =>
    intro st h hsect
    show Except.ok st = Except.ok { st with
      constraints := st.constraints ++ List.map canonC [] }
    rw [show List.map canonC ([] : List DocConstraint) = [] from rfl,
      List.append_nil]
  | cons c cs ih =>
    intro st h hsect
    rw [List.map_cons, foldlM_parse_cons _
      (parse_line_constraint (h c (List.mem_cons_self _ _)) hsect),
      ih { st with constraints := st.constraints ++ [canonC c] }
        (fun x hx => h x (List.mem_cons_of_mem c hx)) hsect]
    show Except.ok { st with
      constraints := (st.constraints ++ [canonC c]) ++ List.map canonC cs } =
      Except.ok { st with
        constraints := st.constraints ++ canonC c :: List.map canonC cs }
    rw [List.append_assoc]
    rfl

theorem parse_uvl_renderDoc (doc : UVLDoc) (hw : wfDoc doc = true)
    (hnd : ((treeFeatures doc.root).map Prod.fst).Nodup) :
    ∃ stf,
      parse_uvl (renderDoc doc) = Except.ok stf ∧
      stf.nspace = doc.nspace ∧
      stf.features = treePF none doc.root ∧
      stf.constraints = doc.constraints.map canonC ∧
      (∀ tr, tr ∈ triplesOf stf.groups ↔ tr ∈ treeTriples doc.root) := by
  have hw3 : isIdentC doc.nspace = true ∧ wfTree doc.root = true ∧
      ∀ c ∈ doc.constraints, wfConstraint c = true := by
    simp only [wfDoc, Bool.and_eq_true, List.all_eq_true] at hw
    tauto
  obtain ⟨hns, hwt, hwcs⟩ := hw3
  obtain ⟨st1, junk1, hfold1, hns1, hsect1, hcon1, hfeat1, hstack1, hbig1,
    hpinv1, hpres1, htr1⟩ :=
    parse_renderTree 1 doc.root
      { initPState with nspace := doc.nspace, sect := PSect.features }
      hwt rfl ⟨fun p hp => absurd hp (List.not_mem_nil p), by simp [initPState]⟩
      (fun x hx => by simp [initPState])
      hnd
  have hA : (["namespace ".data ++ doc.nspace, [],
      "features".data]).foldlM parse_line initPState = Except.ok
      { initPState with nspace := doc.nspace, sect := PSect.features } := by
    rw [foldlM_parse_cons _ (parse_line_namespace initPState hns),
      foldlM_parse_cons _ (parse_line_blank _),
      foldlM_parse_cons _ (parse_line_features_header _)]
    rfl
  have h2 : ((["namespace ".data ++ doc.nspace, [], "features".data] :
      List (List Char)) ++ renderTree 1 doc.root).foldlM parse_line
      initPState = Except.ok st1 := by
    rw [foldlM_parse_append _ hA]
    exact hfold1
  have hB : ([[], "constraints".data] : List (List Char)).foldlM parse_line
      st1 = Except.ok { st1 with sect := PSect.constraints } := by
    rw [foldlM_parse_cons _ (parse_line_blank _),
      foldlM_parse_cons _ (parse_line_constraints_header _)]
    rfl
  have h3 : (((["namespace ".data ++ doc.nspace, [], "features".data] :
      List (List Char)) ++ renderTree 1 doc.root) ++
      [[], "constraints".data]).foldlM parse_line initPState =
      Except.ok { st1 with sect := PSect.constraints } := by
    rw [foldlM_parse_append _ h2]
    exact hB
  have hC := parse_constraint_lines doc.constraints
    { st1 with sect := PSect.constraints } hwcs rfl
  have hfold : (renderDoc doc).foldlM parse_line initPState =
      Except.ok { st1 with
        sect := PSect.constraints
        constraints := st1.constraints ++ doc.constraints.map canonC } := by
    show ((((["namespace ".data ++ doc.nspace, [], "features".data] :
      List (List Char)) ++ renderTree 1 doc.root) ++
      [[], "constraints".data]) ++ doc.constraints.map
        (fun c => indC 1 ++ renderConstraint c)).foldlM parse_line
        initPState = Except.ok { st1 with
          sect := PSect.constraints
          constraints := st1.constraints ++ doc.constraints.map canonC }
    rw [foldlM_parse_append _ h3]
    exact hC
  refine ⟨{ st1 with
      sect := PSect.constraints
      constraints := st1.constraints ++ doc.constraints.map canonC
      groups := st1.groups.map (fun g => { g with children := sortedSetC g.children }) },
    ?_, ?_, ?_, ?_, ?_⟩
  · unfold parse_uvl
    rw [hfold]
    rfl
  · show st1.nspace = doc.nspace
    exact hns1
  · show st1.features = treePF none doc.root
    rw [hfeat1]
    show [] ++ treePF (current_parent [] (4 * 1)) doc.root =
      treePF none doc.root
    rw [List.nil_append]
    rfl
  · show st1.constraints ++ doc.constraints.map canonC =
      doc.constraints.map canonC
    rw [hcon1]
    show ([] : List (List Char)) ++ doc.constraints.map canonC =
      doc.constraints.map canonC
    exact List.nil_append _
  · intro tr
    show tr ∈ triplesOf (st1.groups.map (fun g => { g with children := sortedSetC g.children })) ↔ _
    rw [triplesOf_sortedSet st1.groups tr, htr1 tr]
    show tr ∈ triplesOf ([] : List PGroup) ∨
      tr ∈ edgeOpt none (nearest_pending [] (4 * 1)) (treeName doc.root) ∨
      tr ∈ treeTriples doc.root ↔ tr ∈ treeTriples doc.root
    simp [triplesOf, edgeOpt]

end Medicare

namespace Medicare

theorem trimC_cons_space (l : List Char) : trimC (' ' :: l) = trimC l := by
  unfold trimC
  rw [List.dropWhile_cons, if_pos (by decide)]

theorem trimC_concat_space {A : List Char}
    (hf : ∀ c, A.head? = some c → isPyWs c = false)
    (hb : ∀ c, A.getLast? = some c → isPyWs c = false) :
    trimC (A ++ [' ']) = A := by
  cases A with
  | nil => decide
  | cons c cs =>
    unfold trimC
    rw [List.cons_append, dropWhile_cons_of_neg (hf c rfl)]
    rw [show (c :: (cs ++ [' '])) = (c :: cs) ++ [' '] from by
      rw [List.cons_append]]
    rw [List.reverse_append, show ([' '] : List Char).reverse = [' '] from rfl]
    rw [show ([' '] : List Char) ++ (c :: cs).reverse =
      ' ' :: (c :: cs).reverse from by rw [List.cons_append, List.nil_append]]
    rw [List.dropWhile_cons, if_pos (by decide)]
    cases hrev : (c :: cs).reverse with
    | nil => exact absurd (congrArg List.length hrev) (by simp)
    | cons d ds =>
      have hdws : isPyWs d = false := by
        apply hb
        rw [← List.head?_reverse, hrev]
        rfl
      rw [dropWhile_cons_of_neg hdws, ← hrev, List.reverse_reverse]

theorem litCanon_trim {x : Bool × List Char} (h : wfLit x = true) :
    trimC (litCanon x) = litCanon x := by
  obtain ⟨dh, hdh, hwh⟩ := litCanon_head h
  obtain ⟨dl, hdl, hwl⟩ := litCanon_last h
  apply trimC_eq_self
  · intro c hc
    rw [hdh] at hc
    rw [← Option.some_inj.mp hc]
    exact hwh
  · intro c hc
    rw [hdl] at hc
    rw [← Option.some_inj.mp hc]
    exact hwl

theorem litCanon_concat_trim {x : Bool × List Char} (h : wfLit x = true) :
    trimC (litCanon x ++ [' ']) = litCanon x := by
  obtain ⟨dh, hdh, hwh⟩ := litCanon_head h
  obtain ⟨dl, hdl, hwl⟩ := litCanon_last h
  apply trimC_concat_space
  · intro c hc
    rw [hdh] at hc
    rw [← Option.some_inj.mp hc]
    exact hwh
  · intro c hc
    rw [hdl] at hc
    rw [← Option.some_inj.mp hc]
    exact hwl

theorem splitFirst_cons_yes {sep : List Char} {c : Char} {rest : List Char}
    (h : isPrefixC sep (c :: rest) = true) :
    splitFirst sep (c :: rest) = some ([], (c :: rest).drop sep.length) := by
  show (if isPrefixC sep (c :: rest) = true then
      some (([] : List Char), (c :: rest).drop sep.length)
    else match splitFirst sep rest with
      | some ab => some (c :: ab.1, ab.2)
      | none => none) = some ([], (c :: rest).drop sep.length)
  rw [if_pos h]

theorem splitFirst_cons_no {sep : List Char} {c : Char} {rest : List Char}
    (h : isPrefixC sep (c :: rest) = false) :
    splitFirst sep (c :: rest) =
      match splitFirst sep rest with
      | some ab => some (c :: ab.1, ab.2)
      | none => none := by
  show (if isPrefixC sep (c :: rest) = true then
      some (([] : List Char), (c :: rest).drop sep.length)
    else match splitFirst sep rest with
      | some ab => some (c :: ab.1, ab.2)
      | none => none) = _
  rw [if_neg (by simp [h])]

theorem splitFirst_append_no_head {s0 : Char} {stail : List Char} :
    ∀ (a : List Char) {b : List Char}, (∀ c ∈ a, ¬ s0 = c) →
    splitFirst (s0 :: stail) (a ++ b) =
      match splitFirst (s0 :: stail) b with
      | some ab => some (a ++ ab.1, ab.2)
      | none => none := by
  intro a
  induction a with
  | nil =>
    intro b h
    rw [List.nil_append]
    cases hs : splitFirst (s0 :: stail) b with
    | none => rfl
    | some ab => simp
  | cons c a2 ih =>
    intro b h
    rw [List.cons_append, splitFirst_cons_no
      (isPrefixC_cons_false (h c (List.mem_cons_self _ _))),
      ih (fun x hx => h x (List.mem_cons_of_mem c hx))]
    cases hs : splitFirst (s0 :: stail) b with
    | none => rfl
    | some ab => rfl

theorem splitOnBar_cons_bar (rest : List Char) :
    splitOnBar ('|' :: rest) = [] :: splitOnBar rest := rfl

theorem splitOnBar_cons_nobar {c : Char} (rest : List Char) (hc : ¬ c = '|') :
    splitOnBar (c :: rest) =
      match splitOnBar rest with
      | part :: parts => (c :: part) :: parts
      | [] => [[c]] := by
  show (if c = '|' then [] :: splitOnBar rest
    else match splitOnBar rest with
      | part :: parts => (c :: part) :: parts
      | [] => [[c]]) = _
  rw [if_neg hc]

theorem splitOnBar_ne_nil : ∀ l : List Char, splitOnBar l ≠ [] := by
  intro l
  induction l with
  | nil => simp [show splitOnBar [] = [[]] from rfl]
  | cons c rest ih =>
    by_cases hc : c = '|'
    · rw [hc, splitOnBar_cons_bar]
      simp
    · rw [splitOnBar_cons_nobar rest hc]
      cases hs : splitOnBar rest with
      | nil => exact absurd hs ih
      | cons p ps => simp

theorem splitOnBar_append_nobar : ∀ (a : List Char) {b : List Char},
    '|' ∉ a → ∃ p ps, splitOnBar b = p :: ps ∧
      splitOnBar (a ++ b) = (a ++ p) :: ps := by
  intro a
  induction a with
  | nil =>
    intro b h
    cases hs : splitOnBar b with
    | nil => exact absurd hs (splitOnBar_ne_nil b)
    | cons p ps => exact ⟨p, ps, rfl, by simp [hs]⟩
  | cons c a2 ih =>
    intro b h
    have hc : ¬ c = '|' := fun hx => h (by rw [hx]; exact List.mem_cons_self _ _)
    obtain ⟨p, ps, hs, hsplit⟩ := ih (fun hx => h (List.mem_cons_of_mem c hx))
    refine ⟨p, ps, hs, ?_⟩
    rw [List.cons_append, splitOnBar_cons_nobar (a2 ++ b) hc, hsplit]
    rfl

theorem bar_not_mem_litCanon {x : Bool × List Char} (h : wfLit x = true) :
    '|' ∉ litCanon x := by
  intro hm
  rcases mem_litCanon h _ hm with h1 | h1 | h1
  · exact absurd h1 (by decide)
  · exact absurd h1 (by decide)
  · exact absurd h1 (by decide)

theorem eq_not_mem_litCanon {x : Bool × List Char} (h : wfLit x = true) :
    ∀ c ∈ litCanon x, ¬ '=' = c := by
  intro c hc hx
  rcases mem_litCanon h c hc with h1 | h1 | h1
  · rw [← hx] at h1
    exact absurd h1 (by decide)
  · rw [h1] at hx
    exact absurd hx (by decide)
  · rw [h1] at hx
    exact absurd hx (by decide)

theorem lt_not_mem_litCanon {x : Bool × List Char} (h : wfLit x = true) :
    ∀ c ∈ litCanon x, ¬ '<' = c := by
  intro c hc hx
  rcases mem_litCanon h c hc with h1 | h1 | h1
  · rw [← hx] at h1
    exact absurd h1 (by decide)
  · rw [h1] at hx
    exact absurd hx (by decide)
  · rw [h1] at hx
    exact absurd hx (by decide)

theorem isLitC_litCanon {x : Bool × List Char} (h : wfLit x = true) :
    isLitC (litCanon x) = true := by
  obtain ⟨hid, -⟩ := wfLit_unpack h
  unfold litCanon
  by_cases hx : x.1 = true
  · rw [if_pos hx]
    unfold isLitC
    rw [hid]
    rfl
  · rw [if_neg hx]
    have hpre : isPrefixC "not(".data ("not(".data ++ x.2 ++ ")".data) = true := by
      rw [List.append_assoc]
      exact isPrefixC_refl_append _ _
    have hsuf : isSuffixC ")".data ("not(".data ++ x.2 ++ ")".data) = true := by
      unfold isSuffixC
      rw [List.reverse_append,
        show ((")".data : List Char)).reverse = [')'] from by decide]
      show (decide (')' = ')') &&
        isPrefixC [] (("not(".data ++ x.2).reverse)) = true
      rfl
    have hmid : ((("not(".data ++ x.2 ++ ")".data)).drop 4).take
        (("not(".data ++ x.2 ++ ")".data).length - 5) = x.2 := by
      rw [List.append_assoc, show (4 : Nat) = ("not(".data : List Char).length
        from by decide, List.drop_left]
      have hlen : ("not(".data ++ (x.2 ++ ")".data)).length -
          ("not(".data : List Char).length - 1 = x.2.length := by
        rw [List.length_append, List.length_append,
          show (("not(".data : List Char)).length = 4 from by decide,
          show (((")".data : List Char))).length = 1 from by decide]
        omega
      rw [show ("not(".data ++ (x.2 ++ ")".data)).length - 5 =
        x.2.length from by
          rw [List.length_append, List.length_append,
            show (("not(".data : List Char)).length = 4 from by decide,
            show (((")".data : List Char))).length = 1 from by decide]
          omega]
      exact List.take_left x.2 _
    unfold isLitC
    rw [hpre, hsuf, hmid, hid]
    simp

end Medicare

namespace Medicare

theorem parse_imp_canonC_imp {l r : Bool × List Char}
    (h : wfConstraint (.imp l r) = true) :
    parse_imp_fact (canonC (.imp l r)) = some (litCanon l, litCanon r) := by
  obtain ⟨hl, hr⟩ := wfConstraint_imp_unpack h
  have hshape : canonC (.imp l r) =
      (litCanon l ++ [' ']) ++ ('=' :: '>' :: (' ' :: litCanon r)) := by
    show litCanon l ++ " => ".data ++ litCanon r = _
    rw [show (" => ".data : List Char) =
      [' '] ++ ('=' :: '>' :: [' ']) from by decide]
    simp [List.append_assoc]
  have hno : ∀ c ∈ litCanon l ++ [' '], ¬ '=' = c := by
    intro c hc
    rcases List.mem_append.mp hc with hc | hc
    · exact eq_not_mem_litCanon hl c hc
    · simp only [List.mem_cons, List.not_mem_nil, or_false] at hc
      rw [hc]
      decide
  have hsplit : splitFirst "=>".data (canonC (.imp l r)) =
      some (litCanon l ++ [' '], ' ' :: litCanon r) := by
    rw [hshape, show ("=>".data : List Char) = '=' :: ['>'] from by decide,
      splitFirst_append_no_head (litCanon l ++ [' ']) hno,
      show splitFirst ('=' :: ['>']) ('=' :: '>' :: (' ' :: litCanon r)) =
        some ([], ' ' :: litCanon r) from by
        rw [splitFirst_cons_yes (by simp [isPrefixC])]
        rfl]
    simp
  unfold parse_imp_fact
  rw [hsplit]
  show (if (isLitC (trimC (litCanon l ++ [' '])) &&
      isLitC (trimC (' ' :: litCanon r))) = true then
      some (trimC (litCanon l ++ [' ']), trimC (' ' :: litCanon r))
    else none) = some (litCanon l, litCanon r)
  rw [litCanon_concat_trim hl, trimC_cons_space, litCanon_trim hr,
    if_pos (by rw [isLitC_litCanon hl, isLitC_litCanon hr]; rfl)]

theorem parse_imp_canonC_equiv {l : Bool × List Char}
    {rs : List (Bool × List Char)}
    (h : wfConstraint (.equiv l rs) = true) :
    parse_imp_fact (canonC (.equiv l rs)) = none := by
  obtain ⟨hl, hne, hall⟩ := wfConstraint_equiv_unpack h
  obtain ⟨dh, hdh, hwh⟩ := litCanon_head hl
  have hshape : canonC (.equiv l rs) = (litCanon l ++ [' ', '<']) ++
      ('=' :: '>' :: (' ' :: '(' ::
        (joinBarC (rs.map litCanon) ++ ")".data))) := by
    show litCanon l ++ " <=> (".data ++ joinBarC (rs.map litCanon) ++
      ")".data = _
    rw [show (" <=> (".data : List Char) =
      [' ', '<'] ++ ('=' :: '>' :: [' ', '(']) from by decide]
    simp [List.append_assoc]
  have hno : ∀ c ∈ litCanon l ++ [' ', '<'], ¬ '=' = c := by
    intro c hc
    rcases List.mem_append.mp hc with hc | hc
    · exact eq_not_mem_litCanon hl c hc
    · simp only [List.mem_cons, List.not_mem_nil, or_false] at hc
      rcases hc with rfl | rfl
      · decide
      · decide
  have hsplit : splitFirst "=>".data (canonC (.equiv l rs)) =
      some (litCanon l ++ [' ', '<'], ' ' :: '(' ::
        (joinBarC (rs.map litCanon) ++ ")".data)) := by
    rw [hshape, show ("=>".data : List Char) = '=' :: ['>'] from by decide,
      splitFirst_append_no_head (litCanon l ++ [' ', '<']) hno,
      show splitFirst ('=' :: ['>']) ('=' :: '>' :: (' ' :: '(' ::
        (joinBarC (rs.map litCanon) ++ ")".data))) = some ([], ' ' :: '(' ::
          (joinBarC (rs.map litCanon) ++ ")".data)) from by
        rw [splitFirst_cons_yes (by simp [isPrefixC])]
        rfl]
    simp
  have hla : trimC (litCanon l ++ [' ', '<']) = litCanon l ++ [' ', '<'] := by
    apply trimC_eq_self
    · intro c hc
      rw [head?_append_left hdh] at hc
      rw [← Option.some_inj.mp hc]
      exact hwh
    · intro c hc
      rw [getLast?_append_right (show ([' ', '<'] : List Char).getLast? =
        some '<' from by decide)] at hc
      rw [← Option.some_inj.mp hc]
      decide
  have hlit : isLitC (litCanon l ++ [' ', '<']) = false := by
    have h1 : isIdentC (litCanon l ++ [' ', '<']) = false := by
      by_contra hx
      have hx2 : isIdentC (litCanon l ++ [' ', '<']) = true := by simpa using hx
      have h3 := isIdentC_all hx2 ' '
        (List.mem_append.mpr (Or.inr (by decide)))
      exact absurd h3 (by decide)
    have h2 : isSuffixC ")".data (litCanon l ++ [' ', '<']) = false := by
      unfold isSuffixC
      rw [List.reverse_append,
        show ([' ', '<'] : List Char).reverse = ['<', ' '] from by decide,
        show ((")".data : List Char)).reverse = [')'] from by decide]
      simp only [List.cons_append]
      exact isPrefixC_cons_false (by decide)
    unfold isLitC
    rw [h1, h2]
    simp
  unfold parse_imp_fact
  rw [hsplit]
  show (if (isLitC (trimC (litCanon l ++ [' ', '<'])) &&
      isLitC (trimC (' ' :: '(' ::
        (joinBarC (rs.map litCanon) ++ ")".data)))) = true then
      some (trimC (litCanon l ++ [' ', '<']), trimC (' ' :: '(' ::
        (joinBarC (rs.map litCanon) ++ ")".data)))
    else none) = none
  rw [hla, if_neg (by rw [hlit]; simp)]

theorem joinBar_ne_nil {x : Bool × List Char} {L : List (List Char)}
    (hx : wfLit x = true) : ¬ joinBarC (litCanon x :: L) = [] := by
  obtain ⟨d, hd, -⟩ := litCanon_head hx
  cases L with
  | nil =>
    show ¬ litCanon x = []
    exact ne_nil_of_head? hd
  | cons y ys =>
    show ¬ litCanon x ++ " | ".data ++ joinBarC (y :: ys) = []
    exact ne_nil_of_head? (head?_append_left (head?_append_left hd))

theorem filter_ne_nil_cons {a : List Char} {l : List (List Char)}
    (h : ¬ a = []) :
    (a :: l).filter (fun x => !(x == [])) =
      a :: l.filter (fun x => !(x == [])) := by
  rw [List.filter_cons, if_pos (by simp [h])]

theorem splitBar_joinBar : ∀ (rs : List (Bool × List Char)),
    (∀ x ∈ rs, wfLit x = true) → rs ≠ [] →
    ((splitOnBar (joinBarC (rs.map litCanon))).map trimC).filter
      (fun x => !(x == [])) = rs.map litCanon := by
  intro rs
  induction rs with
  | nil => intro h hne; exact absurd rfl hne
  | cons r rest ih =>
    intro h hne
    have hr := h r (List.mem_cons_self _ _)
    obtain ⟨dh, hdh, -⟩ := litCanon_head hr
    have hrne : ¬ litCanon r = [] := ne_nil_of_head? hdh
    cases rest with
    | nil =>
      simp only [List.map_cons, List.map_nil]
      rw [show joinBarC [litCanon r] = litCanon r from rfl]
      obtain ⟨p, ps, hs, hsplit⟩ :=
        splitOnBar_append_nobar (litCanon r) (b := [])
          (bar_not_mem_litCanon hr)
      rw [show splitOnBar ([] : List Char) = [[]] from rfl] at hs
      have hp : p = [] := (List.cons.injEq _ _ _ _ ▸ hs).1.symm
      have hps : ps = [] := by
        have := (List.cons.injEq _ _ _ _ ▸ hs).2
        exact this.symm
      rw [hp, hps, List.append_nil] at hsplit
      rw [hsplit]
      simp only [List.map_cons, List.map_nil, litCanon_trim hr]
      rw [filter_ne_nil_cons hrne]
      rfl
    | cons s ss =>
      have hih := ih (fun x hx => h x (List.mem_cons_of_mem r hx)) (by simp)
      simp only [List.map_cons] at hih ⊢
      rw [show joinBarC (litCanon r :: litCanon s :: List.map litCanon ss) =
        litCanon r ++ " | ".data ++
          joinBarC (litCanon s :: List.map litCanon ss) from rfl]
      rw [show litCanon r ++ " | ".data ++
          joinBarC (litCanon s :: List.map litCanon ss) =
        (litCanon r ++ [' ']) ++ ('|' :: (' ' ::
          joinBarC (litCanon s :: List.map litCanon ss))) from by
        rw [show (" | ".data : List Char) = [' '] ++ ('|' :: [' '])
          from by decide]
        simp [List.append_assoc]]
      obtain ⟨p, ps, hs, hsplit⟩ :=
        splitOnBar_append_nobar (litCanon r ++ [' '])
          (by
            intro hm
            rcases List.mem_append.mp hm with hm | hm
            · exact bar_not_mem_litCanon hr hm
            · simp only [List.mem_cons, List.not_mem_nil, or_false] at hm
              exact absurd hm (by decide))
      rw [splitOnBar_cons_bar] at hs
      have hp : p = [] := (List.cons.injEq _ _ _ _ ▸ hs).1.symm
      have hps : ps = splitOnBar (' ' ::
          joinBarC (litCanon s :: List.map litCanon ss)) := by
        have := (List.cons.injEq _ _ _ _ ▸ hs).2
        exact this.symm
      rw [hp, List.append_nil] at hsplit
      obtain ⟨q, qs, hq, hsplit2⟩ :=
        splitOnBar_append_nobar [' ']
          (b := joinBarC (litCanon s :: List.map litCanon ss))
          (by decide)
      rw [show ([' '] : List Char) ++
        joinBarC (litCanon s :: List.map litCanon ss) =
        ' ' :: joinBarC (litCanon s :: List.map litCanon ss) from by
          rw [List.cons_append, List.nil_append]] at hsplit2
      rw [hps, hsplit2] at hsplit
      rw [hsplit]
      simp only [List.map_cons, litCanon_concat_trim hr]
      rw [filter_ne_nil_cons hrne]
      rw [show ([' '] : List Char) ++ q = ' ' :: q from by
        rw [List.cons_append, List.nil_append]]
      rw [show trimC (' ' :: q) = trimC q from trimC_cons_space q]
      rw [hq] at hih
      simp only [List.map_cons] at hih
      rw [hih]

end Medicare

namespace Medicare

theorem parse_equiv_canonC {l : Bool × List Char} {rs : List (Bool × List Char)}
    (h : wfConstraint (.equiv l rs) = true) :
    parse_equiv_fact (canonC (.equiv l rs)) =
      some (litCanon l, rs.map litCanon) := by
  obtain ⟨hl, hne, hall⟩ := wfConstraint_equiv_unpack h
  obtain ⟨r1, rest, rfl⟩ : ∃ r1 rest, rs = r1 :: rest := by
    cases rs with
    | nil => exact absurd rfl hne
    | cons a b => exact ⟨a, b, rfl⟩
  have hr1 := hall r1 (List.mem_cons_self _ _)
  have hshape : canonC (.equiv l (r1 :: rest)) = (litCanon l ++ [' ']) ++
      ('<' :: '=' :: '>' :: (' ' :: '(' ::
        (joinBarC ((r1 :: rest).map litCanon) ++ ")".data))) := by
    show litCanon l ++ " <=> (".data ++
      joinBarC ((r1 :: rest).map litCanon) ++ ")".data = _
    rw [show (" <=> (".data : List Char) =
      [' '] ++ ('<' :: '=' :: '>' :: [' ', '(']) from by decide]
    simp [List.append_assoc]
  have hno : ∀ c ∈ litCanon l ++ [' '], ¬ '<' = c := by
    intro c hc
    rcases List.mem_append.mp hc with hc | hc
    · exact lt_not_mem_litCanon hl c hc
    · simp only [List.mem_cons, List.not_mem_nil, or_false] at hc
      rw [hc]
      decide
  have hsplit : splitFirst "<=>".data (canonC (.equiv l (r1 :: rest))) =
      some (litCanon l ++ [' '], ' ' :: '(' ::
        (joinBarC ((r1 :: rest).map litCanon) ++ ")".data)) := by
    rw [hshape,
      show ("<=>".data : List Char) = '<' :: ['=', '>'] from by decide,
      splitFirst_append_no_head (litCanon l ++ [' ']) hno,
      show splitFirst ('<' :: ['=', '>']) ('<' :: '=' :: '>' :: (' ' :: '(' ::
        (joinBarC ((r1 :: rest).map litCanon) ++ ")".data))) =
        some ([], ' ' :: '(' ::
          (joinBarC ((r1 :: rest).map litCanon) ++ ")".data)) from by
        rw [splitFirst_cons_yes (by simp [isPrefixC])]
        rfl]
    simp
  have hrb : trimC (' ' :: '(' :: (joinBarC ((r1 :: rest).map litCanon) ++
      ")".data)) = '(' :: (joinBarC ((r1 :: rest).map litCanon) ++
      ")".data) := by
    rw [trimC_cons_space]
    apply trimC_eq_self
    · intro c hc
      simp only [List.head?_cons, Option.some_inj] at hc
      rw [← hc]
      decide
    · intro c hc
      rw [show ('(' :: (joinBarC ((r1 :: rest).map litCanon) ++ ")".data)) =
        ['('] ++ (joinBarC ((r1 :: rest).map litCanon) ++ ")".data) from rfl,
        getLast?_append_right (getLast?_append_right
          (show ((")".data : List Char)).getLast? = some ')' from
            by decide))] at hc
      rw [← Option.some_inj.mp hc]
      decide
  have hpre2 : isPrefixC "(".data ('(' ::
      (joinBarC ((r1 :: rest).map litCanon) ++ ")".data)) = true := by
    rw [show ("(".data : List Char) = ['('] from by decide]
    simp [isPrefixC]
  have hsuf2 : isSuffixC ")".data ('(' ::
      (joinBarC ((r1 :: rest).map litCanon) ++ ")".data)) = true := by
    unfold isSuffixC
    rw [show ('(' :: (joinBarC ((r1 :: rest).map litCanon) ++
        ")".data)).reverse = ')' ::
        ((joinBarC ((r1 :: rest).map litCanon)).reverse ++ ['(']) from by
      rw [List.reverse_cons, List.reverse_append,
        show ((")".data : List Char)).reverse = [')'] from by decide]
      simp]
    rw [show ((")".data : List Char)).reverse = [')'] from by decide]
    simp [isPrefixC]
  have hlen3 : 3 ≤ ('(' :: (joinBarC ((r1 :: rest).map litCanon) ++
      ")".data)).length := by
    have hJne : ¬ joinBarC ((r1 :: rest).map litCanon) = [] := by
      simp only [List.map_cons]
      exact joinBar_ne_nil hr1
    have hlen1 : 1 ≤ (joinBarC ((r1 :: rest).map litCanon)).length := by
      cases hJ : joinBarC ((r1 :: rest).map litCanon) with
      | nil => exact absurd hJ hJne
      | cons a b => simp
    simp only [List.length_cons, List.length_append,
      show (((")".data : List Char))).length = 1 from by decide]
    omega
  have hlen2 : ('(' :: (joinBarC ((r1 :: rest).map litCanon) ++
      ")".data)).length - 2 =
      (joinBarC ((r1 :: rest).map litCanon)).length := by
    simp only [List.length_cons, List.length_append,
      show (((")".data : List Char))).length = 1 from by decide]
    omega
  unfold parse_equiv_fact
  rw [hsplit]
  simp only [litCanon_concat_trim hl, hrb]
  rw [if_pos ⟨isLitC_litCanon hl, hlen3, hpre2, hsuf2⟩]
  rw [show (('(' :: (joinBarC ((r1 :: rest).map litCanon) ++
    ")".data)).drop 1) = joinBarC ((r1 :: rest).map litCanon) ++ ")".data
    from rfl, hlen2, List.take_left]
  rw [splitBar_joinBar (r1 :: rest) hall (by simp)]

theorem constraint_facts_imp {l r : Bool × List Char}
    (h : wfConstraint (.imp l r) = true) :
    constraint_facts (canonC (.imp l r)) =
      [Fact.imp (litCanon l) (litCanon r)] := by
  unfold constraint_facts
  rw [parse_imp_canonC_imp h]

theorem constraint_facts_equiv {l : Bool × List Char}
    {rs : List (Bool × List Char)}
    (h : wfConstraint (.equiv l rs) = true) :
    constraint_facts (canonC (.equiv l rs)) =
      rs.map (fun x => Fact.equiv_or (litCanon l) (litCanon x)) := by
  unfold constraint_facts
  rw [parse_imp_canonC_equiv h, parse_equiv_canonC h]
  show (rs.map litCanon).map (fun x => Fact.equiv_or (litCanon l) x) =
    rs.map (fun x => Fact.equiv_or (litCanon l) (litCanon x))
  rw [List.map_map]
  rfl

end Medicare

namespace Medicare

/-- The namespace-comment block of `emit_kr_facts`. -/
def nsBlock (st : PState) : List Fact :=
  if st.nspace = [] then [] else [Fact.nsComment st.nspace]

/-- The feature/abstract block of `emit_kr_facts`. -/
def featBlock (st : PState) : List Fact :=
  ((sortC (st.features.map (fun f => f.name))).map (fun n =>
    match st.features.find? (fun f => f.name = n) with
    | some f =>
      [Fact.feature n] ++ (if f.is_abstract then [Fact.abstractFact n] else [])
    | none => [])).flatten

/-- The parent-link block of `emit_kr_facts`. -/
def parentBlock (st : PState) : List Fact :=
  ((sortC (st.features.map (fun f => f.name))).map (fun n =>
    match st.features.find? (fun f => f.name = n) with
    | some f =>
      match f.parent with
      | some par => if par = [] then [] else [Fact.p n par]
      | none => []
    | none => [])).flatten

/-- The group block of `emit_kr_facts`. -/
def groupBlock (st : PState) : List Fact :=
  (st.groups.foldr (fun g acc => emit_kr_facts.insertSortedByKey g acc)
    []).map (fun g => Fact.group g.parent g.kind g.children)

/-- The constraint block of `emit_kr_facts`. -/
def constraintBlock (st : PState) : List Fact :=
  (st.constraints.map constraint_facts).flatten

theorem emit_split (st : PState) : emit_kr_facts st =
    nsBlock st ++ featBlock st ++ parentBlock st ++ groupBlock st ++
      constraintBlock st := rfl

theorem emit_mem {st : PState} {fa : Fact} :
    fa ∈ emit_kr_facts st ↔ fa ∈ nsBlock st ∨ fa ∈ featBlock st ∨
      fa ∈ parentBlock st ∨ fa ∈ groupBlock st ∨ fa ∈ constraintBlock st := by
  rw [emit_split]
  simp [List.mem_append, or_assoc]

theorem mem_flatten_map {α β : Type} {f : α → List β} {l : List α} {y : β} :
    y ∈ (l.map f).flatten ↔ ∃ a ∈ l, y ∈ f a := by
  rw [List.mem_flatten]
  constructor
  · rintro ⟨x, hx, hy⟩
    obtain ⟨a, ha, rfl⟩ := List.mem_map.mp hx
    exact ⟨a, ha, hy⟩
  · rintro ⟨a, ha, hy⟩
    exact ⟨f a, List.mem_map.mpr ⟨a, ha, rfl⟩, hy⟩

theorem mem_insertSortedByKey {g y : PGroup} :
    ∀ l, y ∈ emit_kr_facts.insertSortedByKey g l ↔ y = g ∨ y ∈ l := by
  intro l
  induction l with
  | nil => simp [emit_kr_facts.insertSortedByKey]
  | cons h2 hs ih =>
    unfold emit_kr_facts.insertSortedByKey
    by_cases hc : ((leC g.parent h2.parent && !(g.parent == h2.parent)) ||
        (g.parent == h2.parent && leC g.kind h2.kind)) = true
    · rw [if_pos hc]
      simp only [List.mem_cons]
    · rw [if_neg hc]
      simp only [List.mem_cons, ih]
      tauto

theorem mem_sortGroups {y : PGroup} : ∀ gs : List PGroup,
    y ∈ gs.foldr (fun g acc => emit_kr_facts.insertSortedByKey g acc) [] ↔
      y ∈ gs := by
  intro gs
  induction gs with
  | nil => simp
  | cons g gs ih =>
    rw [List.foldr_cons, mem_insertSortedByKey]
    simp only [List.mem_cons, ih]

theorem groupBlock_mem {st : PState} {p k : List Char}
    {ch : List (List Char)} :
    Fact.group p k ch ∈ groupBlock st ↔
      ∃ g ∈ st.groups, g.parent = p ∧ g.kind = k ∧ g.children = ch := by
  unfold groupBlock
  rw [List.mem_map]
  constructor
  · rintro ⟨g, hg, heq⟩
    injection heq with h1 h2 h3
    exact ⟨g, (mem_sortGroups st.groups).mp hg, h1, h2, h3⟩
  · rintro ⟨g, hg, h1, h2, h3⟩
    refine ⟨g, (mem_sortGroups st.groups).mpr hg, ?_⟩
    rw [h1, h2, h3]

theorem groupBlock_shape {st : PState} :
    ∀ fa ∈ groupBlock st, ∃ p k ch, fa = Fact.group p k ch := by
  intro fa hfa
  unfold groupBlock at hfa
  obtain ⟨g, hg, heq⟩ := List.mem_map.mp hfa
  exact ⟨g.parent, g.kind, g.children, heq.symm⟩

theorem nsBlock_shape {st : PState} :
    ∀ fa ∈ nsBlock st, ∃ x, fa = Fact.nsComment x := by
  intro fa hfa
  unfold nsBlock at hfa
  by_cases hn : st.nspace = []
  · rw [if_pos hn] at hfa
    exact absurd hfa (List.not_mem_nil fa)
  · rw [if_neg hn] at hfa
    simp only [List.mem_cons, List.not_mem_nil, or_false] at hfa
    exact ⟨st.nspace, hfa⟩

theorem featBlock_shape {st : PState} :
    ∀ fa ∈ featBlock st, (∃ n, fa = Fact.feature n) ∨
      ∃ n, fa = Fact.abstractFact n := by
  intro fa hfa
  unfold featBlock at hfa
  obtain ⟨n, hn, hfa2⟩ := mem_flatten_map.mp hfa
  cases hfind : st.features.find? (fun f => f.name = n) with
  | none =>
    rw [hfind] at hfa2
    exact absurd hfa2 (List.not_mem_nil fa)
  | some f =>
    rw [hfind] at hfa2
    rcases List.mem_append.mp hfa2 with hm | hm
    · simp only [List.mem_cons, List.not_mem_nil, or_false] at hm
      exact Or.inl ⟨n, hm⟩
    · by_cases habs : f.is_abstract = true
      · rw [if_pos habs] at hm
        simp only [List.mem_cons, List.not_mem_nil, or_false] at hm
        exact Or.inr ⟨n, hm⟩
      · rw [if_neg habs] at hm
        exact absurd hm (List.not_mem_nil fa)

theorem parentBlock_shape {st : PState} :
    ∀ fa ∈ parentBlock st, ∃ c q, fa = Fact.p c q := by
  intro fa hfa
  unfold parentBlock at hfa
  obtain ⟨n, hn, hfa2⟩ := mem_flatten_map.mp hfa
  cases hfind : st.features.find? (fun f => f.name = n) with
  | none =>
    rw [hfind] at hfa2
    exact absurd hfa2 (List.not_mem_nil fa)
  | some f =>
    rw [hfind] at hfa2
    have hfa3 : fa ∈ (match f.parent with
        | some par => if par = [] then [] else [Fact.p n par]
        | none => []) := hfa2
    cases hpar : f.parent with
    | none =>
      rw [hpar] at hfa3
      exact absurd hfa3 (List.not_mem_nil fa)
    | some par =>
      rw [hpar] at hfa3
      have hfa4 : fa ∈ (if par = [] then []
          else [Fact.p n par]) := hfa3
      by_cases hnil : par = []
      · rw [if_pos hnil] at hfa4
        exact absurd hfa4 (List.not_mem_nil fa)
      · rw [if_neg hnil] at hfa4
        simp only [List.mem_cons, List.not_mem_nil, or_false] at hfa4
        exact ⟨n, par, hfa4⟩

theorem mem_name_unique {fs : List PFeature}
    (h : (fs.map PFeature.name).Nodup) {f g : PFeature} (hf : f ∈ fs)
    (hg : g ∈ fs) (hfg : f.name = g.name) : f = g := by
  induction fs with
  | nil => exact absurd hf (List.not_mem_nil _)
  | cons a rest ih =>
    simp only [List.map_cons, List.nodup_cons] at h
    rcases List.mem_cons.mp hf with rfl | hf2 <;>
      rcases List.mem_cons.mp hg with h3 | h3
    · exact h3.symm
    · exfalso
      apply h.1
      rw [hfg]
      exact List.mem_map.mpr ⟨g, h3, rfl⟩
    · exfalso
      apply h.1
      rw [h3] at hfg
      rw [← hfg]
      exact List.mem_map.mpr ⟨f, hf2, rfl⟩
    · exact ih h.2 hf2 h3

theorem find?_name_eq {fs : List PFeature} {n : List Char} {f : PFeature}
    (h : fs.find? (fun g => g.name = n) = some f) : f ∈ fs ∧ f.name = n := by
  refine ⟨List.mem_of_find?_eq_some h, ?_⟩
  have h2 := List.find?_some h
  simpa using h2

theorem find?_name_of_mem {fs : List PFeature} {f : PFeature}
    (hnd : (fs.map PFeature.name).Nodup) (hf : f ∈ fs) :
    fs.find? (fun g => g.name = f.name) = some f := by
  cases hfind : fs.find? (fun g => g.name = f.name) with
  | none =>
    have h2 := List.find?_eq_none.mp hfind f hf
    simp at h2
  | some g =>
    obtain ⟨hgmem, hgname⟩ := find?_name_eq hfind
    rw [mem_name_unique hnd hgmem hf hgname]

theorem mem_triplesOf {gs : List PGroup} {p k c : List Char} :
    (p, k, c) ∈ triplesOf gs ↔
      ∃ g ∈ gs, g.parent = p ∧ g.kind = k ∧ c ∈ g.children := by
  unfold triplesOf
  rw [mem_flatten_map]
  constructor
  · rintro ⟨g, hg, hmem⟩
    obtain ⟨cx, hcx, heq⟩ := List.mem_map.mp hmem
    refine ⟨g, hg, ?_, ?_, ?_⟩
    · exact (congrArg Prod.fst heq)
    · exact congrArg Prod.fst (congrArg Prod.snd heq)
    · have hc : cx = c := congrArg Prod.snd (congrArg Prod.snd heq)
      rw [← hc]
      exact hcx
  · rintro ⟨g, hg, h1, h2, h3⟩
    refine ⟨g, hg, List.mem_map.mpr ⟨c, h3, ?_⟩⟩
    rw [h1, h2]

mutual
theorem treeLinks_snd_ident {c q : List Char} (t : FTree)
    (hw : wfTree t = true) (h : (c, q) ∈ treeLinks t) : isIdentC q = true := by
  cases t with
  | node n a gs =>
    obtain ⟨hgn, hwgs⟩ := wfTree_unpack hw
    exact groupsLinks_snd_ident n gs (goodName_unpack hgn).1 hwgs h

theorem groupsLinks_snd_ident {c q : List Char} (n : List Char) (gs : GList)
    (hn : isIdentC n = true) (hw : wfGroups gs = true)
    (h : (c, q) ∈ groupsLinks n gs) : isIdentC q = true := by
  cases gs with
  | nil => exact absurd h (List.not_mem_nil _)
  | grp k cs rest =>
    obtain ⟨-, hwcs, hwrest⟩ := wfGroups_unpack hw
    rcases List.mem_append.mp h with h2 | h2
    · exact childrenLinks_snd_ident n cs hn hwcs h2
    · exact groupsLinks_snd_ident n rest hn hwrest h2

theorem childrenLinks_snd_ident {c q : List Char} (n : List Char) (cs : TList)
    (hn : isIdentC n = true) (hw : wfChildren cs = true)
    (h : (c, q) ∈ childrenLinks n cs) : isIdentC q = true := by
  cases cs with
  | nil => exact absurd h (List.not_mem_nil _)
  | cons t rest =>
    obtain ⟨hwt, hwrest⟩ := wfChildren_unpack hw
    cases t with
    | node m b mgs =>
      rw [show childrenLinks n (.cons (.node m b mgs) rest) =
        (m, n) :: (treeLinks (.node m b mgs) ++ childrenLinks n rest)
        from rfl] at h
      rcases List.mem_cons.mp h with h2 | h2
      · rw [show q = n from congrArg Prod.snd h2]
        exact hn
      · rcases List.mem_append.mp h2 with h3 | h3
        · exact treeLinks_snd_ident (.node m b mgs) hwt h3
        · exact childrenLinks_snd_ident n rest hn hwrest h3
end

theorem ident_ne_nil {q : List Char} (h : isIdentC q = true) : ¬ q = [] := by
  obtain ⟨c, cs, rfl, -, -⟩ := isIdentC_shape h
  simp

end Medicare

namespace Medicare

theorem feature_mem_featBlock {st : PState} {n : List Char} :
    Fact.feature n ∈ featBlock st ↔
      n ∈ st.features.map (fun f => f.name) := by
  constructor
  · intro hfa
    unfold featBlock at hfa
    obtain ⟨m, hm, hfa2⟩ := mem_flatten_map.mp hfa
    cases hfind : st.features.find? (fun f => f.name = m) with
    | none =>
      rw [hfind] at hfa2
      exact absurd hfa2 (List.not_mem_nil _)
    | some f =>
      rw [hfind] at hfa2
      rcases List.mem_append.mp hfa2 with hm2 | hm2
      · simp only [List.mem_cons, List.not_mem_nil, or_false] at hm2
        injection hm2 with hnm
        rw [hnm]
        exact (mem_sortC _).mp hm
      · by_cases habs : f.is_abstract = true
        · rw [if_pos habs] at hm2
          simp only [List.mem_cons, List.not_mem_nil, or_false] at hm2
          exact absurd hm2 (by simp)
        · rw [if_neg habs] at hm2
          exact absurd hm2 (List.not_mem_nil _)
  · intro hmem
    obtain ⟨f0, hf0, hname⟩ := List.mem_map.mp hmem
    unfold featBlock
    refine mem_flatten_map.mpr ⟨n, (mem_sortC _).mpr hmem, ?_⟩
    cases hfind : st.features.find? (fun f => f.name = n) with
    | none =>
      have h2 := List.find?_eq_none.mp hfind f0 hf0
      simp [hname] at h2
    | some f =>
      exact List.mem_append.mpr (Or.inl (List.mem_cons_self _ _))

theorem abstract_mem_featBlock {st : PState}
    (hnd : (st.features.map PFeature.name).Nodup) {n : List Char} :
    Fact.abstractFact n ∈ featBlock st ↔
      ∃ f ∈ st.features, f.name = n ∧ f.is_abstract = true := by
  constructor
  · intro hfa
    unfold featBlock at hfa
    obtain ⟨m, hm, hfa2⟩ := mem_flatten_map.mp hfa
    cases hfind : st.features.find? (fun f => f.name = m) with
    | none =>
      rw [hfind] at hfa2
      exact absurd hfa2 (List.not_mem_nil _)
    | some f =>
      rw [hfind] at hfa2
      rcases List.mem_append.mp hfa2 with hm2 | hm2
      · simp only [List.mem_cons, List.not_mem_nil, or_false] at hm2
        exact absurd hm2 (by simp)
      · by_cases habs : f.is_abstract = true
        · rw [if_pos habs] at hm2
          simp only [List.mem_cons, List.not_mem_nil, or_false] at hm2
          injection hm2 with hnm
          obtain ⟨hf, hfm⟩ := find?_name_eq hfind
          exact ⟨f, hf, by rw [hfm, hnm], habs⟩
        · rw [if_neg habs] at hm2
          exact absurd hm2 (List.not_mem_nil _)
  · rintro ⟨f, hf, hname, habs⟩
    unfold featBlock
    have hmem : n ∈ st.features.map (fun f => f.name) :=
      List.mem_map.mpr ⟨f, hf, hname⟩
    refine mem_flatten_map.mpr ⟨n, (mem_sortC _).mpr hmem, ?_⟩
    have hfind : st.features.find? (fun g => g.name = n) = some f := by
      rw [← hname]
      exact find?_name_of_mem hnd hf
    rw [hfind]
    refine List.mem_append.mpr (Or.inr ?_)
    rw [if_pos habs]
    exact List.mem_cons_self _ _

theorem p_mem_parentBlock {st : PState}
    (hnd : (st.features.map PFeature.name).Nodup) {c q : List Char} :
    Fact.p c q ∈ parentBlock st ↔
      ∃ f ∈ st.features, f.name = c ∧ f.parent = some q ∧ ¬ q = [] := by
  constructor
  · intro hfa
    unfold parentBlock at hfa
    obtain ⟨m, hm, hfa2⟩ := mem_flatten_map.mp hfa
    cases hfind : st.features.find? (fun f => f.name = m) with
    | none =>
      rw [hfind] at hfa2
      exact absurd hfa2 (List.not_mem_nil _)
    | some f =>
      rw [hfind] at hfa2
      have hfa3 : Fact.p c q ∈ (match f.parent with
          | some par => if par = [] then [] else [Fact.p m par]
          | none => []) := hfa2
      cases hpar : f.parent with
      | none =>
        rw [hpar] at hfa3
        exact absurd hfa3 (List.not_mem_nil _)
      | some par =>
        rw [hpar] at hfa3
        have hfa4 : Fact.p c q ∈ (if par = [] then []
            else [Fact.p m par]) := hfa3
        by_cases hnil : par = []
        · rw [if_pos hnil] at hfa4
          exact absurd hfa4 (List.not_mem_nil _)
        · rw [if_neg hnil] at hfa4
          simp only [List.mem_cons, List.not_mem_nil, or_false] at hfa4
          injection hfa4 with h1 h2
          obtain ⟨hf, hfm⟩ := find?_name_eq hfind
          refine ⟨f, hf, by rw [hfm, h1], by rw [hpar, h2], ?_⟩
          rw [h2]
          exact hnil
  · rintro ⟨f, hf, hname, hpar, hq⟩
    unfold parentBlock
    have hmem : c ∈ st.features.map (fun f => f.name) :=
      List.mem_map.mpr ⟨f, hf, hname⟩
    refine mem_flatten_map.mpr ⟨c, (mem_sortC _).mpr hmem, ?_⟩
    have hfind : st.features.find? (fun g => g.name = c) = some f := by
      rw [← hname]
      exact find?_name_of_mem hnd hf
    rw [hfind]
    show Fact.p c q ∈ (match f.parent with
      | some par => if par = [] then [] else [Fact.p c par]
      | none => [])
    rw [hpar]
    show Fact.p c q ∈ (if q = [] then [] else [Fact.p c q])
    rw [if_neg hq]
    exact List.mem_cons_self _ _

theorem mem_constraintBlock {st : PState} {fa : Fact} :
    fa ∈ constraintBlock st ↔
      ∃ cl ∈ st.constraints, fa ∈ constraint_facts cl := by
  unfold constraintBlock
  exact mem_flatten_map

theorem imp_mem_constraint_facts_canonC {dc : DocConstraint}
    (hw : wfConstraint dc = true) {a b : List Char} :
    Fact.imp a b ∈ constraint_facts (canonC dc) ↔
      ∃ l r, dc = .imp l r ∧ a = litCanon l ∧ b = litCanon r := by
  cases dc with
  | imp l r =>
    rw [constraint_facts_imp hw]
    simp only [List.mem_cons, List.not_mem_nil, or_false]
    constructor
    · intro h
      injection h with h1 h2
      exact ⟨l, r, rfl, h1, h2⟩
    · rintro ⟨l2, r2, heq, h1, h2⟩
      injection heq with hl hr
      rw [h1, h2, hl, hr]
  | equiv l rs =>
    rw [constraint_facts_equiv hw]
    constructor
    · intro h
      obtain ⟨x, -, hx⟩ := List.mem_map.mp h
      exact absurd hx (by simp)
    · rintro ⟨l2, r2, heq, -, -⟩
      exact absurd heq (by simp)

theorem equiv_mem_constraint_facts_canonC {dc : DocConstraint}
    (hw : wfConstraint dc = true) {a b : List Char} :
    Fact.equiv_or a b ∈ constraint_facts (canonC dc) ↔
      ∃ l rs rx, dc = .equiv l rs ∧ rx ∈ rs ∧ a = litCanon l ∧
        b = litCanon rx := by
  cases dc with
  | imp l r =>
    rw [constraint_facts_imp hw]
    simp only [List.mem_cons, List.not_mem_nil, or_false]
    constructor
    · intro h
      exact absurd h (by simp)
    · rintro ⟨l2, rs2, rx2, heq, -, -, -⟩
      exact absurd heq (by simp)
  | equiv l rs =>
    rw [constraint_facts_equiv hw]
    constructor
    · intro h
      obtain ⟨x, hx, hfe⟩ := List.mem_map.mp h
      injection hfe with h1 h2
      exact ⟨l, rs, x, rfl, hx, h1.symm, h2.symm⟩
    · rintro ⟨l2, rs2, rx, heq, hrx, h1, h2⟩
      injection heq with hl hr
      refine List.mem_map.mpr ⟨rx, ?_, ?_⟩
      · rw [hr]
        exact hrx
      · rw [h1, h2, hl]

theorem constraint_facts_canonC_shape {dc : DocConstraint}
    (hw : wfConstraint dc = true) :
    ∀ fa ∈ constraint_facts (canonC dc),
      (∃ a b, fa = Fact.imp a b) ∨ ∃ a b, fa = Fact.equiv_or a b := by
  intro fa hfa
  cases dc with
  | imp l r =>
    rw [constraint_facts_imp hw] at hfa
    simp only [List.mem_cons, List.not_mem_nil, or_false] at hfa
    exact Or.inl ⟨litCanon l, litCanon r, hfa⟩
  | equiv l rs =>
    rw [constraint_facts_equiv hw] at hfa
    obtain ⟨x, -, hx⟩ := List.mem_map.mp hfa
    exact Or.inr ⟨litCanon l, litCanon x, hx.symm⟩

end Medicare

namespace Medicare

/-- C4: For every well-formed hierarchical UVL document whose feature names
are pairwise distinct, parsing its rendered text and emitting relational
facts preserves the feature set, the abstract flags, every feature's parent
link, group membership as sets, and decomposes each implication into one
imp fact and each equivalence into one disjunction fact per right-hand
disjunct. (The claim's final sentence — that this also holds with duplicate
feature names — fails; see the counterexample.) -/
theorem C4_roundtrip_preservation (doc : UVLDoc) (hw : wfDoc doc = true)
    (hnd : ((treeFeatures doc.root).map Prod.fst).Nodup) :
    ∃ st, parse_uvl (renderDoc doc) = Except.ok st ∧
      (∀ n, Fact.feature n ∈ emit_kr_facts st ↔
        ∃ a, (n, a) ∈ treeFeatures doc.root) ∧
      (∀ n, Fact.abstractFact n ∈ emit_kr_facts st ↔
        (n, true) ∈ treeFeatures doc.root) ∧
      (∀ c q, Fact.p c q ∈ emit_kr_facts st ↔
        (c, q) ∈ treeLinks doc.root) ∧
      (∀ p k c, (∃ ch, Fact.group p k ch ∈ emit_kr_facts st ∧ c ∈ ch) ↔
        (p, k, c) ∈ treeTriples doc.root) ∧
      (∀ a b, Fact.imp a b ∈ emit_kr_facts st ↔
        ∃ l r, DocConstraint.imp l r ∈ doc.constraints ∧
          a = litCanon l ∧ b = litCanon r) ∧
      (∀ a b, Fact.equiv_or a b ∈ emit_kr_facts st ↔
        ∃ l rs rx, DocConstraint.equiv l rs ∈ doc.constraints ∧ rx ∈ rs ∧
          a = litCanon l ∧ b = litCanon rx) := by
  obtain ⟨stf, hok, hns, hfeat, hcons, htr⟩ := parse_uvl_renderDoc doc hw hnd
  have hwcs : ∀ c ∈ doc.constraints, wfConstraint c = true := by
    simp only [wfDoc, Bool.and_eq_true, List.all_eq_true] at hw
    tauto
  have hwt : wfTree doc.root = true := by
    simp only [wfDoc, Bool.and_eq_true] at hw
    tauto
  have hndn : (stf.features.map PFeature.name).Nodup := by
    rw [hfeat, treePF_names]
    exact hnd
  refine ⟨stf, hok, ?_, ?_, ?_, ?_, ?_, ?_⟩
  · intro n
    rw [emit_mem]
    constructor
    · intro hm
      rcases hm with hm | hm | hm | hm | hm
      · obtain ⟨x, hx⟩ := nsBlock_shape _ hm
        exact absurd hx (by simp)
      · have h2 := feature_mem_featBlock.mp hm
        rw [hfeat] at h2
        obtain ⟨f, hf, hname⟩ := List.mem_map.mp h2
        have h3 := mem_treePF_features none doc.root hf
        rw [hname] at h3
        exact ⟨f.is_abstract, h3⟩
      · obtain ⟨c, q, hx⟩ := parentBlock_shape _ hm
        exact absurd hx (by simp)
      · obtain ⟨p, k, ch, hx⟩ := groupBlock_shape _ hm
        exact absurd hx (by simp)
      · obtain ⟨cl, hcl, hf⟩ := mem_constraintBlock.mp hm
        rw [hcons] at hcl
        obtain ⟨dc, hdc, rfl⟩ := List.mem_map.mp hcl
        rcases constraint_facts_canonC_shape (hwcs dc hdc) _ hf with
          ⟨x, y, hx⟩ | ⟨x, y, hx⟩ <;> exact absurd hx (by simp)
    · rintro ⟨a, ha⟩
      refine Or.inr (Or.inl ?_)
      rw [feature_mem_featBlock]
      obtain ⟨p, hp⟩ := treeFeatures_mem_PF none doc.root ha
      refine List.mem_map.mpr
        ⟨({ name := n, is_abstract := a, parent := p } : PFeature), ?_, rfl⟩
      rw [hfeat]
      exact hp
  · intro n
    rw [emit_mem]
    constructor
    · intro hm
      rcases hm with hm | hm | hm | hm | hm
      · obtain ⟨x, hx⟩ := nsBlock_shape _ hm
        exact absurd hx (by simp)
      · obtain ⟨f, hf, hname, habs⟩ := (abstract_mem_featBlock hndn).mp hm
        rw [hfeat] at hf
        have h3 := mem_treePF_features none doc.root hf
        rw [hname, habs] at h3
        exact h3
      · obtain ⟨c, q, hx⟩ := parentBlock_shape _ hm
        exact absurd hx (by simp)
      · obtain ⟨p, k, ch, hx⟩ := groupBlock_shape _ hm
        exact absurd hx (by simp)
      · obtain ⟨cl, hcl, hf⟩ := mem_constraintBlock.mp hm
        rw [hcons] at hcl
        obtain ⟨dc, hdc, rfl⟩ := List.mem_map.mp hcl
        rcases constraint_facts_canonC_shape (hwcs dc hdc) _ hf with
          ⟨x, y, hx⟩ | ⟨x, y, hx⟩ <;> exact absurd hx (by simp)
    · intro ha
      refine Or.inr (Or.inl ?_)
      obtain ⟨p, hp⟩ := treeFeatures_mem_PF none doc.root ha
      rw [abstract_mem_featBlock hndn]
      refine ⟨({ name := n, is_abstract := true, parent := p } : PFeature),
        ?_, rfl, rfl⟩
      rw [hfeat]
      exact hp
  · intro c q
    rw [emit_mem]
    constructor
    · intro hm
      rcases hm with hm | hm | hm | hm | hm
      · obtain ⟨x, hx⟩ := nsBlock_shape _ hm
        exact absurd hx (by simp)
      · rcases featBlock_shape _ hm with ⟨x, hx⟩ | ⟨x, hx⟩ <;>
          exact absurd hx (by simp)
      · obtain ⟨f, hf, hname, hpar, -⟩ := (p_mem_parentBlock hndn).mp hm
        rw [hfeat] at hf
        rcases mem_treePF_parent none doc.root hf hpar with ⟨hq, -⟩ | h2
        · exact absurd hq (by simp)
        · rw [hname] at h2
          exact h2
      · obtain ⟨p, k, ch, hx⟩ := groupBlock_shape _ hm
        exact absurd hx (by simp)
      · obtain ⟨cl, hcl, hf⟩ := mem_constraintBlock.mp hm
        rw [hcons] at hcl
        obtain ⟨dc, hdc, rfl⟩ := List.mem_map.mp hcl
        rcases constraint_facts_canonC_shape (hwcs dc hdc) _ hf with
          ⟨x, y, hx⟩ | ⟨x, y, hx⟩ <;> exact absurd hx (by simp)
    · intro hlink
      refine Or.inr (Or.inr (Or.inl ?_))
      obtain ⟨a, ha⟩ := treeLinks_mem_PF none doc.root hlink
      rw [p_mem_parentBlock hndn]
      refine ⟨({ name := c, is_abstract := a, parent := some q } : PFeature),
        ?_, rfl, rfl, ?_⟩
      · rw [hfeat]
        exact ha
      · exact ident_ne_nil (treeLinks_snd_ident doc.root hwt hlink)
  · intro p k c
    constructor
    · rintro ⟨ch, hm, hc⟩
      rw [emit_mem] at hm
      rcases hm with hm | hm | hm | hm | hm
      · obtain ⟨x, hx⟩ := nsBlock_shape _ hm
        exact absurd hx (by simp)
      · rcases featBlock_shape _ hm with ⟨x, hx⟩ | ⟨x, hx⟩ <;>
          exact absurd hx (by simp)
      · obtain ⟨c2, q2, hx⟩ := parentBlock_shape _ hm
        exact absurd hx (by simp)
      · obtain ⟨g, hg, h1, h2, h3⟩ := groupBlock_mem.mp hm
        refine (htr _).mp (mem_triplesOf.mpr ⟨g, hg, h1, h2, ?_⟩)
        rw [h3]
        exact hc
      · obtain ⟨cl, hcl, hf⟩ := mem_constraintBlock.mp hm
        rw [hcons] at hcl
        obtain ⟨dc, hdc, rfl⟩ := List.mem_map.mp hcl
        rcases constraint_facts_canonC_shape (hwcs dc hdc) _ hf with
          ⟨x, y, hx⟩ | ⟨x, y, hx⟩ <;> exact absurd hx (by simp)
    · intro htrip
      obtain ⟨g, hg, h1, h2, h3⟩ := mem_triplesOf.mp ((htr _).mpr htrip)
      refine ⟨g.children, ?_, h3⟩
      rw [emit_mem]
      refine Or.inr (Or.inr (Or.inr (Or.inl ?_)))
      exact groupBlock_mem.mpr ⟨g, hg, h1, h2, rfl⟩
  · intro a b
    rw [emit_mem]
    constructor
    · intro hm
      rcases hm with hm | hm | hm | hm | hm
      · obtain ⟨x, hx⟩ := nsBlock_shape _ hm
        exact absurd hx (by simp)
      · rcases featBlock_shape _ hm with ⟨x, hx⟩ | ⟨x, hx⟩ <;>
          exact absurd hx (by simp)
      · obtain ⟨c2, q2, hx⟩ := parentBlock_shape _ hm
        exact absurd hx (by simp)
      · obtain ⟨p, k, ch, hx⟩ := groupBlock_shape _ hm
        exact absurd hx (by simp)
      · obtain ⟨cl, hcl, hf⟩ := mem_constraintBlock.mp hm
        rw [hcons] at hcl
        obtain ⟨dc, hdc, rfl⟩ := List.mem_map.mp hcl
        obtain ⟨l, r, hdc2, h1, h2⟩ :=
          (imp_mem_constraint_facts_canonC (hwcs dc hdc)).mp hf
        rw [hdc2] at hdc
        exact ⟨l, r, hdc, h1, h2⟩
    · rintro ⟨l, r, hmem, h1, h2⟩
      refine Or.inr (Or.inr (Or.inr (Or.inr ?_)))
      rw [mem_constraintBlock]
      refine ⟨canonC (.imp l r), ?_, ?_⟩
      · rw [hcons]
        exact List.mem_map.mpr ⟨_, hmem, rfl⟩
      · rw [imp_mem_constraint_facts_canonC (hwcs _ hmem)]
        exact ⟨l, r, rfl, h1, h2⟩
  · intro a b
    rw [emit_mem]
    constructor
    · intro hm
      rcases hm with hm | hm | hm | hm | hm
      · obtain ⟨x, hx⟩ := nsBlock_shape _ hm
        exact absurd hx (by simp)
      · rcases featBlock_shape _ hm with ⟨x, hx⟩ | ⟨x, hx⟩ <;>
          exact absurd hx (by simp)
      · obtain ⟨c2, q2, hx⟩ := parentBlock_shape _ hm
        exact absurd hx (by simp)
      · obtain ⟨p, k, ch, hx⟩ := groupBlock_shape _ hm
        exact absurd hx (by simp)
      · obtain ⟨cl, hcl, hf⟩ := mem_constraintBlock.mp hm
        rw [hcons] at hcl
        obtain ⟨dc, hdc, rfl⟩ := List.mem_map.mp hcl
        obtain ⟨l, rs, rx, hdc2, hrx, h1, h2⟩ :=
          (equiv_mem_constraint_facts_canonC (hwcs dc hdc)).mp hf
        rw [hdc2] at hdc
        exact ⟨l, rs, rx, hdc, hrx, h1, h2⟩
    · rintro ⟨l, rs, rx, hmem, hrx, h1, h2⟩
      refine Or.inr (Or.inr (Or.inr (Or.inr ?_)))
      rw [mem_constraintBlock]
      refine ⟨canonC (.equiv l rs), ?_, ?_⟩
      · rw [hcons]
        exact List.mem_map.mpr ⟨_, hmem, rfl⟩
      · rw [equiv_mem_constraint_facts_canonC (hwcs _ hmem)]
        exact ⟨l, rs, rx, rfl, hrx, h1, h2⟩

end Medicare

namespace Medicare

/-- A well-formed document in which the feature name `C` occurs under two
different parents (`B` and `D`). -/
def C4doc : UVLDoc :=
  { nspace := "ns".data
    root := .node "A".data false
      (.grp "mandatory".data
        (.cons (.node "B".data false
          (.grp "mandatory".data
            (.cons (.node "C".data false .nil) .nil) .nil))
        (.cons (.node "D".data false
          (.grp "mandatory".data
            (.cons (.node "C".data false .nil) .nil) .nil))
        .nil)) .nil)
    constraints := [] }

/-- C4 counterexample: with a duplicate feature name the parent link of the
first occurrence is lost. `C4doc` is well formed, its tree contains the
parent link (C, B), parsing its rendering succeeds, yet the emitted facts
contain no `p(C, B)` fact — the claim's final sentence (preservation "also
when the same feature name occurs on more than one feature line") fails,
because the feature dictionary overwrites the parent on re-declaration. -/
theorem C4_counterexample :
    wfDoc C4doc = true ∧
    ("C".data, "B".data) ∈ treeLinks C4doc.root ∧
    (match parse_uvl (renderDoc C4doc) with
      | .ok st => decide (Fact.p "C".data "B".data ∈ emit_kr_facts st)
      | .error _ => true) = false := by
  refine ⟨by decide, by decide, by decide⟩

end Medicare

namespace Medicare

/-- A small well-formed document with distinct feature names, used to
instantiate the round-trip preservation theorem. -/
def C4wdoc : UVLDoc :=
  { nspace := "m".data
    root := .node "A".data true
      (.grp "optional".data (.cons (.node "B".data false .nil) .nil) .nil)
    constraints := [.imp (true, "A".data) (false, "B".data)] }

theorem C4_roundtrip_preservation_witness :
    wfDoc C4wdoc = true ∧
    ((treeFeatures C4wdoc.root).map Prod.fst).Nodup ∧
    (∃ st, parse_uvl (renderDoc C4wdoc) = Except.ok st ∧
      (∀ n, Fact.feature n ∈ emit_kr_facts st ↔
        ∃ a, (n, a) ∈ treeFeatures C4wdoc.root) ∧
      (∀ n, Fact.abstractFact n ∈ emit_kr_facts st ↔
        (n, true) ∈ treeFeatures C4wdoc.root) ∧
      (∀ c q, Fact.p c q ∈ emit_kr_facts st ↔
        (c, q) ∈ treeLinks C4wdoc.root) ∧
      (∀ p k c, (∃ ch, Fact.group p k ch ∈ emit_kr_facts st ∧ c ∈ ch) ↔
        (p, k, c) ∈ treeTriples C4wdoc.root) ∧
      (∀ a b, Fact.imp a b ∈ emit_kr_facts st ↔
        ∃ l r, DocConstraint.imp l r ∈ C4wdoc.constraints ∧
          a = litCanon l ∧ b = litCanon r) ∧
      (∀ a b, Fact.equiv_or a b ∈ emit_kr_facts st ↔
        ∃ l rs rx, DocConstraint.equiv l rs ∈ C4wdoc.constraints ∧ rx ∈ rs ∧
          a = litCanon l ∧ b = litCanon rx)) :=
  ⟨by decide, by decide,
    C4_roundtrip_preservation C4wdoc (by decide) (by decide)⟩

end Medicare
